import Mathlib

/-!
# Rotation by inverse mapping and FFT convolution (`gabaid971/fingerprint`)

A shallow embedding of `src/remap.cpp` (Hermite basis, `cubic_spline`,
`calculate_pixel_value`, `fill_dst`) and of `src/filter_convolutionFFT.cpp`
(`DFT`, `inverse`), followed by the theorems that settle the claims.

Conventions of the embedding.

* `float` and `double` values are elements of an arbitrary linearly ordered field `α`
  with a floor function (exact arithmetic: rounding error, NaN and infinities are not
  modelled).  Every definition is computable at `α = ℚ`.
* Where rounding decides the outcome (the rotation by the machine quarter turn, whose
  mapped coordinates fall on or just below integers), the coordinates are computed in
  binary32 instead (section `Binary32`): every `float` operation is rounded to nearest,
  ties to even, with no fused multiply-add and no excess precision, and the values
  returned by the library cosine and sine are hypotheses.
* The library functions `cos` and `sin` are parameters of `calculate_pixel_value`.
* `cv::Point` is `cv::Point_<int>`: both coordinates are machine integers (`Int`).
* `cv::Mat` is a pair of dimensions and a sample function; a read or write outside
  `[0, rows) × [0, cols)` is undefined behaviour and is modelled by `none`.  Source and
  destination are distinct values (no aliasing of their buffers).
* `uchar` is `Fin 256`.
* The matrices given to `DFT` and `inverse` hold real samples (the transform of OpenCV
  only accepts floating-point matrices).  The OpenCV functions called by the two functions
  are modelled from their documented behaviour; the spectrum has its entries in a field
  `F` over `α` (the complex numbers over the reals) with a real-part map `re`, and the
  roots of unity `ω N` of the transform are a parameter.
-/

namespace Fingerprint

/-- An 8-bit sample, the C++ type `uchar`. -/
abbrev uchar := Fin 256

/-- The OpenCV type `cv::Point`, that is `cv::Point_<int>`: two machine integers. -/
structure Point where
  x : Int
  y : Int

/-- A single-channel `cv::Mat` with samples of type `β`: its dimensions and the sample at
(row, column).  Only the samples with `row < rows` and `column < cols` belong to it. -/
structure Mat (β : Type) where
  rows : Nat
  cols : Nat
  data : Nat → Nat → β

/-- The read `m.at<T>(j, i)` (row `j`, column `i`); `none` outside the matrix. -/
def Mat.at? {β : Type} (m : Mat β) (j i : Int) : Option β :=
  if 0 ≤ j ∧ j < m.rows ∧ 0 ≤ i ∧ i < m.cols then some (m.data j.toNat i.toNat) else none

/-- The write `m.at<T>(j, i) = v`; `none` outside the matrix. -/
def Mat.set? {β : Type} (m : Mat β) (j i : Nat) (v : β) : Option (Mat β) :=
  if j < m.rows ∧ i < m.cols then
    some { m with data := fun r c => if r = j ∧ c = i then v else m.data r c }
  else none

section Remap

variable {α : Type} [LinearOrderedField α] [FloorRing α]

/-- Hermite basis polynomial `h0` (remap.cpp, line 25). -/
def h0 (t : α) : α := 2 * t ^ 3 - 3 * t ^ 2 + 1

/-- Hermite basis polynomial `h1` (remap.cpp, line 37). -/
def h1 (t : α) : α := -2 * t ^ 3 + 3 * t ^ 2

/-- Hermite basis polynomial `h2` (remap.cpp, line 50). -/
def h2 (t : α) : α := t ^ 3 - 2 * t ^ 2 + t

/-- Hermite basis polynomial `h3` (remap.cpp, line 63). -/
def h3 (t : α) : α := t ^ 3 - t ^ 2

/-- The function `cubic_spline` (remap.cpp, line 80).  The four points are `cv::Point`s, so
their ordinates are integers and `p2.y - p1.y`, `p4.y - p3.y` are integer subtractions. -/
def cubic_spline (p1 p2 p3 p4 : Point) (x : α) : α :=
  let x_trans : α := x - (⌊x⌋ : Int)
  h0 x_trans * (p2.y : Int) + h1 x_trans * (p3.y : Int)
    + h2 x_trans * ((p2.y - p1.y : Int) : α) + h3 x_trans * ((p4.y - p3.y : Int) : α)

/-- Conversion of a floating value to `int`: truncation toward zero.  It is applied
implicitly when a `float` is passed to the constructor of `cv::Point`. -/
def truncToInt (v : α) : Int := if 0 ≤ v then ⌊v⌋ else ⌈v⌉

/-- The cast `(uchar) float_value`: truncation toward zero; the cast is only defined by
C++ for values whose truncation is in `[0, 255]`, other values are reduced modulo 256. -/
def toUchar (v : α) : uchar := ⟨(truncToInt v % 256).toNat, by omega⟩

/-- The two clamp statements `if( float_value < 0 ) ...; if( float_value > 255 ) ...`
(remap.cpp, lines 123-130 and 143-150). -/
def clamp255 (float_value : α) : α :=
  let float_value := if float_value < 0 then 0 else float_value
  if float_value > 255 then 255 else float_value

/-- The source abscissa `x_p` of destination pixel `(x, y)` (remap.cpp, line 101). -/
def x_p (cos sin : α → α) (x y : Int) (theta : α) (center : Point) : α :=
  cos (-theta) * x + sin (-theta) * y + (1 - cos (-theta)) * center.x
    - sin (-theta) * center.y

/-- The source ordinate `y_p` of destination pixel `(x, y)` (remap.cpp, line 102). -/
def y_p (cos sin : α → α) (x y : Int) (theta : α) (center : Point) : α :=
  -sin (-theta) * x + cos (-theta) * y + sin (-theta) * center.x
    + (1 - cos (-theta)) * center.y

/-- The bounds test shared by the three modes (remap.cpp, lines 107, 114, 136). -/
def in_bounds (src : Mat uchar) (i j : Int) : Prop :=
  i > 0 ∧ j > 0 ∧ i < src.cols ∧ j < src.rows

instance (src : Mat uchar) (i j : Int) : Decidable (in_bounds src i j) := by
  unfold in_bounds; infer_instance

/-- The value `float_value` of the bilinear branch before the clamp
(remap.cpp, lines 116-122); the two differences are taken on `int`. -/
def bilinear_value (src : Mat uchar) (x_p y_p : α) (i j : Int) : Option α := do
  let s01 ← src.at? j (i + 1)
  let s00 ← src.at? j i
  let dir1 : α := (((s01.val : Int) - (s00.val : Int) : Int) : α)
  let x_trans : α := x_p - (⌊x_p⌋ : Int)
  let p1 : α := (s00.val : α) + dir1 * x_trans
  let s11 ← src.at? (j + 1) (i + 1)
  let s10 ← src.at? (j + 1) i
  let dir2 : α := (((s11.val : Int) - (s10.val : Int) : Int) : α)
  let p2 : α := (s10.val : α) + dir2 * x_trans
  let y_trans : α := y_p - (⌊y_p⌋ : Int)
  pure (p1 + (p2 - p1) * y_trans)

/-- One of the four row splines of the bicubic branch (remap.cpp, lines 138-141): the
spline through the samples of row `k` at columns `i-1 .. i+2`, evaluated at `x_p`. -/
def bicubic_row (src : Mat uchar) (x_p : α) (i k : Int) : Option α := do
  let a ← src.at? k (i - 1)
  let b ← src.at? k i
  let c ← src.at? k (i + 1)
  let d ← src.at? k (i + 2)
  pure (cubic_spline ⟨i - 1, a.val⟩ ⟨i, b.val⟩ ⟨i + 1, c.val⟩ ⟨i + 2, d.val⟩ x_p)

/-- The value `float_value` of the bicubic branch before the clamp
(remap.cpp, lines 138-142).  The row results `p1 .. p4` are `float`s passed to the
constructor `Point(int, int)`, which converts them to `int`. -/
def bicubic_value (src : Mat uchar) (x_p y_p : α) (i j : Int) : Option α := do
  let p1 ← bicubic_row src x_p i (j - 1)
  let p2 ← bicubic_row src x_p i j
  let p3 ← bicubic_row src x_p i (j + 1)
  let p4 ← bicubic_row src x_p i (j + 2)
  pure (cubic_spline ⟨j - 1, truncToInt p1⟩ ⟨j, truncToInt p2⟩ ⟨j + 1, truncToInt p3⟩
    ⟨j + 2, truncToInt p4⟩ y_p)

/-- The function `calculate_pixel_value` (remap.cpp, line 98): three successive `if`
statements on the mode string, each updating `value`, which starts at 255. -/
def calculate_pixel_value (cos sin : α → α) (x y : Int) (theta : α) (center : Point)
    (src : Mat uchar) (interpolation : String) : Option uchar := do
  let value : uchar := 255
  let x_p : α := x_p cos sin x y theta center
  let y_p : α := y_p cos sin x y theta center
  let i : Int := ⌊x_p⌋
  let j : Int := ⌊y_p⌋
  let value ←
    if interpolation = "neighbor" then
      if in_bounds src i j then src.at? j i else pure value
    else pure value
  let value ←
    if interpolation = "bilinear" then
      if in_bounds src i j then
        (bilinear_value src x_p y_p i j).map (fun float_value => toUchar (clamp255 float_value))
      else pure value
    else pure value
  let value ←
    if interpolation = "bicubic" then
      if in_bounds src i j then
        (bicubic_value src x_p y_p i j).map (fun float_value => toUchar (clamp255 float_value))
      else pure value
    else pure value
  pure value

/-- The inner loop of `fill_dst` (remap.cpp, lines 171-174) run for `i = 0 .. n-1` on row
`j`, where `f i` is the value computed for column `i`. -/
def fill_row (f : Nat → Option uchar) (j : Nat) : Nat → Mat uchar → Option (Mat uchar)
  | 0, dst => some dst
  | n + 1, dst => do
    let dst ← fill_row f j n dst
    let v ← f n
    dst.set? j n v

/-- The outer loop of `fill_dst` (remap.cpp, lines 169-175) run for `j = 0 .. m-1`, each
row having `cols` columns; `f j i` is the value computed for row `j`, column `i`. -/
def fill_rows (f : Nat → Nat → Option uchar) (cols : Nat) : Nat → Mat uchar → Option (Mat uchar)
  | 0, dst => some dst
  | m + 1, dst => do
    let dst ← fill_rows f cols m dst
    fill_row (f m) m cols dst

/-- The function `fill_dst` (remap.cpp, line 167): every pixel of the extent of `src` is
computed by `calculate_pixel_value` (column index as `x`, row index as `y`) and written
to `dst`. -/
def fill_dst (cos sin : α → α) (theta : α) (center : Point) (src dst : Mat uchar)
    (interpolation : String) : Option (Mat uchar) :=
  fill_rows (fun j i => calculate_pixel_value cos sin (i : Int) (j : Int) theta center src
    interpolation) src.cols src.rows dst

end Remap

section Binary32

/-- A finite binary32 number (the C++ type `float`) `v`, represented by the integer
`v * 2^149`: every finite binary32 number is an integer multiple of `2^-149`. -/
abbrev Binary32 := Int

/-- The number of binary digits of `a`, for `a ≤ fuel` (it is called with `fuel = a`). -/
def bitLength : Nat → Nat → Nat
  | 0, _ => 0
  | fuel + 1, a => if a = 0 then 0 else bitLength fuel (a / 2) + 1

/-- Rounding to binary32, to nearest with ties to even, of the exact value
`n * 2^-(149 + u)`: the result keeps 24 significant bits and is a multiple of `2^-149`.
Overflow to infinity is not modelled. -/
def round32 (u : Nat) (n : Int) : Binary32 :=
  let a := n.natAbs
  let k := max (bitLength a a - 24) u
  let q := a / 2 ^ k
  let r := a % 2 ^ k
  let q := if 2 ^ k < 2 * r ∨ (2 * r = 2 ^ k ∧ q % 2 = 1) then q + 1 else q
  Int.sign n * ((q * 2 ^ (k - u) : Nat) : Int)

/-- The conversion of an `int` to `float`. -/
def ofInt32 (x : Int) : Binary32 := round32 0 (x * (2 ^ 149 : Nat))

/-- The `float` sum. -/
def fadd (a b : Binary32) : Binary32 := round32 0 (a + b)

/-- The `float` difference. -/
def fsub (a b : Binary32) : Binary32 := round32 0 (a - b)

/-- The `float` product. -/
def fmul (a b : Binary32) : Binary32 := round32 149 (a * b)

/-- The `float` negation, which is exact. -/
def fneg (a : Binary32) : Binary32 := -a

/-- The conversion `(int) floor(v)`; values outside the range of `int` are not modelled. -/
def floor32 (v : Binary32) : Int := Int.fdiv v (2 ^ 149 : Nat)

/-- The source abscissa `x_p` (remap.cpp, line 101) in binary32: `cos` and `sin` are the
`float` overloads, the `int` operands are converted to `float`, and every operation is
rounded. -/
def x_p32 (cos sin : Binary32 → Binary32) (x y : Int) (theta : Binary32) (center : Point) :
    Binary32 :=
  fsub
    (fadd
      (fadd (fmul (cos (fneg theta)) (ofInt32 x)) (fmul (sin (fneg theta)) (ofInt32 y)))
      (fmul (fsub (ofInt32 1) (cos (fneg theta))) (ofInt32 center.x)))
    (fmul (sin (fneg theta)) (ofInt32 center.y))

/-- The source ordinate `y_p` (remap.cpp, line 102) in binary32. -/
def y_p32 (cos sin : Binary32 → Binary32) (x y : Int) (theta : Binary32) (center : Point) :
    Binary32 :=
  fadd
    (fadd
      (fadd (fmul (fneg (sin (fneg theta))) (ofInt32 x)) (fmul (cos (fneg theta)) (ofInt32 y)))
      (fmul (sin (fneg theta)) (ofInt32 center.x)))
    (fmul (fsub (ofInt32 1) (cos (fneg theta))) (ofInt32 center.y))

/-- The function `calculate_pixel_value` (remap.cpp, lines 98-111 and 155) called with the
mode `"neighbor"`, with the coordinates computed in binary32; the `if` statements of the two
other modes are skipped in this mode. -/
def calculate_pixel_value_neighbor32 (cos sin : Binary32 → Binary32) (x y : Int)
    (theta : Binary32) (center : Point) (src : Mat uchar) : Option uchar := do
  let value : uchar := 255
  let x_p : Binary32 := x_p32 cos sin x y theta center
  let y_p : Binary32 := y_p32 cos sin x y theta center
  let i : Int := floor32 x_p
  let j : Int := floor32 y_p
  if in_bounds src i j then src.at? j i else pure value

/-- The function `fill_dst` (remap.cpp, line 167) called with the mode `"neighbor"`, with
the coordinates computed in binary32. -/
def fill_dst_neighbor32 (cos sin : Binary32 → Binary32) (theta : Binary32) (center : Point)
    (src dst : Mat uchar) : Option (Mat uchar) :=
  fill_rows (fun j i => calculate_pixel_value_neighbor32 cos sin (i : Int) (j : Int) theta
    center src) src.cols src.rows dst

end Binary32

section SpecFormulas

variable {α : Type} [LinearOrderedField α] [FloorRing α]

/-- The bilinear formula in the words of the specification: interpolate horizontally on the
rows `j` and `j+1` (`p1`, `p2`), then between the two row results with `dy`; the samples
are integers and their differences are signed. -/
def bilinear_formula (s00 s01 s10 s11 : Int) (dx dy : α) : α :=
  let p1 : α := (s00 : α) + ((s01 - s00 : Int) : α) * dx
  let p2 : α := (s10 : α) + ((s11 - s10 : Int) : α) * dx
  p1 + (p2 - p1) * dy

/-- The Hermite evaluation `value(p1, p2, p3, p4, x)` in the words of the specification,
on four real ordinates, with `t` the fractional part of the query coordinate. -/
def spec_value (y1 y2 y3 y4 x : α) : α :=
  let t : α := x - (⌊x⌋ : Int)
  h0 t * y2 + h1 t * y3 + h2 t * (y2 - y1) + h3 t * (y4 - y3)

/-- The row result `r(k)` of the specification: the real-valued Hermite value of the
samples of row `k` at columns `i-1 .. i+2`. -/
def spec_bicubic_row (src : Mat uchar) (x_p : α) (i k : Int) : Option α := do
  let a ← src.at? k (i - 1)
  let b ← src.at? k i
  let c ← src.at? k (i + 1)
  let d ← src.at? k (i + 2)
  pure (spec_value (a.val : α) (b.val : α) (c.val : α) (d.val : α) x_p)

/-- The two-pass bicubic value of the specification: the four row results are fed
unrounded into the second spline, and the result is clamped and truncated. -/
def spec_bicubic (src : Mat uchar) (x_p y_p : α) (i j : Int) : Option uchar := do
  let r1 ← spec_bicubic_row src x_p i (j - 1)
  let r2 ← spec_bicubic_row src x_p i j
  let r3 ← spec_bicubic_row src x_p i (j + 1)
  let r4 ← spec_bicubic_row src x_p i (j + 2)
  pure (toUchar (clamp255 (spec_value r1 r2 r3 r4 y_p)))

/-- The coordinate map of `calculate_pixel_value` (remap.cpp, lines 101-102) as a map of
points with real coordinates about a center `(cx, cy)`; `x_p` and `y_p` are its two
components at the integer points the code passes. -/
def coordinate_map (cos sin : α → α) (theta cx cy : α) (p : α × α) : α × α :=
  (cos (-theta) * p.1 + sin (-theta) * p.2 + (1 - cos (-theta)) * cx - sin (-theta) * cy,
    -sin (-theta) * p.1 + cos (-theta) * p.2 + sin (-theta) * cx + (1 - cos (-theta)) * cy)

/-- The value of `cubic_spline` as a polynomial in `t` (remap.cpp, line 83);
`cubic_spline` evaluates it at `t = x - floor x`. -/
def spline_poly (p1 p2 p3 p4 : Point) (t : α) : α :=
  h0 t * (p2.y : Int) + h1 t * (p3.y : Int)
    + h2 t * ((p2.y - p1.y : Int) : α) + h3 t * ((p4.y - p3.y : Int) : α)

/-- A position (row, column) inside the image: the condition under which a read
`src.at<uchar>(row, column)` is defined. -/
def in_image (src : Mat uchar) (p : Int × Int) : Prop :=
  0 ≤ p.1 ∧ p.1 < src.rows ∧ 0 ≤ p.2 ∧ p.2 < src.cols

instance (src : Mat uchar) (p : Int × Int) : Decidable (in_image src p) := by
  unfold in_image; infer_instance

/-- The positions (row, column) read by the bilinear branch for the floor indices `(i, j)`
(remap.cpp, lines 116-120). -/
def bilinear_reads (i j : Int) : List (Int × Int) :=
  [(j, i + 1), (j, i), (j + 1, i + 1), (j + 1, i)]

/-- The positions (row, column) read by the bicubic branch for the floor indices `(i, j)`
(remap.cpp, lines 138-141): rows `j-1 .. j+2`, columns `i-1 .. i+2`. -/
def bicubic_reads (i j : Int) : List (Int × Int) :=
  [(j - 1, i - 1), (j - 1, i), (j - 1, i + 1), (j - 1, i + 2),
   (j, i - 1), (j, i), (j, i + 1), (j, i + 2),
   (j + 1, i - 1), (j + 1, i), (j + 1, i + 1), (j + 1, i + 2),
   (j + 2, i - 1), (j + 2, i), (j + 2, i + 1), (j + 2, i + 2)]

/-- The pixels (row, column) of an extent of `m` rows and `cols` columns in the order of
the two loops of `fill_dst`. -/
def rowMajor (cols : Nat) : Nat → List (Nat × Nat)
  | 0 => []
  | m + 1 => rowMajor cols m ++ (List.range cols).map (fun i => (m, i))

/-- The driver of `fill_dst` visiting the pixels in an arbitrary order: the value `f j i`
is written at each pixel `(j, i)` of the list, one after the other. -/
def fill_list (f : Nat → Nat → Option uchar) : List (Nat × Nat) → Mat uchar → Option (Mat uchar)
  | [], dst => some dst
  | p :: ps, dst => do
    let v ← f p.1 p.2
    let dst ← dst.set? p.1 p.2 v
    fill_list f ps dst

end SpecFormulas

section Convolution

variable {α : Type} [LinearOrderedField α] [FloorRing α]
variable {F : Type} [Field F] [Algebra α F]

/-- Division of `n` by `p` as long as `p` divides it (at most `fuel` times). -/
def divOut (p : Nat) : Nat → Nat → Nat
  | 0, n => n
  | fuel + 1, n => if 1 < p ∧ 0 < n ∧ n % p = 0 then divOut p fuel (n / p) else n

/-- A size whose only prime factors are 2, 3 and 5. -/
def isOptimalSize (n : Nat) : Bool :=
  divOut 5 n (divOut 3 n (divOut 2 n n)) == 1

/-- Upward search for an optimal size from `n`, in at most `fuel` steps. -/
def searchOptimal : Nat → Nat → Nat
  | 0, n => n
  | fuel + 1, n => if isOptimalSize n then n else searchOptimal fuel (n + 1)

/-- Modelled from the spec: the OpenCV library function `getOptimalDFTSize`, "the smallest
size ≥ the required minimum that factors into small primes" (2, 3 and 5), and `-1` for a
negative argument.  The search from `vecsize` is given `vecsize + 1` steps, which reach
the next power of two; the upper limit of the table of OpenCV (about `2^31`) is not
modelled. -/
def getOptimalDFTSize (vecsize : Int) : Int :=
  if vecsize < 0 then -1 else (searchOptimal (vecsize.toNat + 1) vecsize.toNat : Nat)

/-- Modelled from the spec: the OpenCV library function `copyMakeBorder` with border type
`0` (`BORDER_CONSTANT`) and the default border value 0: the source is copied at offset
`(top, left)` and the border is filled with zeros.  A negative amount is rejected. -/
def copyMakeBorder (src : Mat α) (top bottom left right : Int) : Option (Mat α) :=
  if 0 ≤ top ∧ 0 ≤ bottom ∧ 0 ≤ left ∧ 0 ≤ right then
    some ⟨src.rows + top.toNat + bottom.toNat, src.cols + left.toNat + right.toNat,
      fun r c =>
        if top.toNat ≤ r ∧ r < top.toNat + src.rows ∧ left.toNat ≤ c ∧ c < left.toNat + src.cols
        then src.data (r - top.toNat) (c - left.toNat) else 0⟩
  else none

/-- Modelled from the spec: the OpenCV library function `dft` (forward transform, no
flags) of a real matrix.  `ω N` is the `N`-th root of unity of the transform and the
spectrum is kept as a full matrix of elements of `F` (OpenCV packs the same numbers). -/
def dft (ω : Nat → F) (src : Mat α) : Mat F :=
  ⟨src.rows, src.cols, fun k1 k2 =>
    ∑ n1 in Finset.range src.rows, ∑ n2 in Finset.range src.cols,
      algebraMap α F (src.data n1 n2) * ω src.rows ^ (n1 * k1) * ω src.cols ^ (n2 * k2)⟩

/-- Modelled from the spec: the OpenCV library function `mulSpectrums` without
conjugation: the element-wise product of two spectra of the same size. -/
def mulSpectrums (a b : Mat F) : Option (Mat F) :=
  if a.rows = b.rows ∧ a.cols = b.cols then
    some ⟨a.rows, a.cols, fun k1 k2 => a.data k1 k2 * b.data k1 k2⟩
  else none

/-- Modelled from the spec: the OpenCV library function `idft` without flags: the inverse
transform, not scaled by `1 / (rows * cols)`, with real output (`re` is the real part). -/
def idft (ω : Nat → F) (re : F →ₗ[α] α) (src : Mat F) : Mat α :=
  ⟨src.rows, src.cols, fun n1 n2 =>
    re (∑ k1 in Finset.range src.rows, ∑ k2 in Finset.range src.cols,
      src.data k1 k2 * (ω src.rows)⁻¹ ^ (n1 * k1) * (ω src.cols)⁻¹ ^ (n2 * k2))⟩

/-- The samples of a matrix in row-major order. -/
def Mat.entries {β : Type} (m : Mat β) : List β :=
  (List.range (m.rows * m.cols)).map (fun k => m.data (k / m.cols) (k % m.cols))

/-- The smallest element of a list (0 for the empty list). -/
def listMin : List α → α
  | [] => 0
  | v :: vs => vs.foldl min v

/-- The largest element of a list (0 for the empty list). -/
def listMax : List α → α
  | [] => 0
  | v :: vs => vs.foldl max v

/-- The OpenCV rounding `cvRound`: to the nearest integer, ties to the even one. -/
def cvRound (v : α) : Int :=
  if v - (⌊v⌋ : Int) < 1 / 2 then ⌊v⌋
  else if 1 / 2 < v - (⌊v⌋ : Int) then ⌊v⌋ + 1
  else if ⌊v⌋ % 2 = 0 then ⌊v⌋ else ⌊v⌋ + 1

/-- Modelled from the spec: the OpenCV library function `normalize` with `NORM_MINMAX` and
the output type `CV_32SC1`, "min-max rescaling" of the source to `[min alpha beta,
max alpha beta]`: with `smin`, `smax` the extreme values of the source, `scale` is
`(dmax - dmin) / (smax - smin)`, or 0 when `smax - smin` does not exceed `DBL_EPSILON`,
`shift` is `dmin - smin * scale`, and each sample becomes `cvRound (x * scale + shift)`. -/
def normalize (DBL_EPSILON : α) (src : Mat α) (alpha beta : α) : Mat Int :=
  let dmin : α := min alpha beta
  let dmax : α := max alpha beta
  let smin : α := listMin src.entries
  let smax : α := listMax src.entries
  let scale : α := (dmax - dmin) * (if smax - smin > DBL_EPSILON then 1 / (smax - smin) else 0)
  let shift : α := dmin - smin * scale
  ⟨src.rows, src.cols, fun r c => cvRound (src.data r c * scale + shift)⟩

/-- The function `DFT` (filter_convolutionFFT.cpp, line 23): both matrices are padded with
zeros at the bottom and at the right up to the optimal size and transformed. -/
def DFT (ω : Nat → F) (image kernel : Mat α) : Option (Mat F × Mat F) := do
  let dftSize_col : Int := getOptimalDFTSize ((image.cols : Int) + kernel.cols - 1)
  let dftSize_row : Int := getOptimalDFTSize ((image.rows : Int) + kernel.rows - 1)
  let image ← copyMakeBorder image 0 (dftSize_row - image.rows) 0 (dftSize_col - image.cols)
  let kernel ← copyMakeBorder kernel 0 (dftSize_row - kernel.rows) 0 (dftSize_col - kernel.cols)
  pure (dft ω image, dft ω kernel)

/-- The number of rows of the common padded grid of `DFT`. -/
def padRows {β : Type} (image kernel : Mat β) : Nat :=
  (getOptimalDFTSize ((image.rows : Int) + kernel.rows - 1)).toNat

/-- The number of columns of the common padded grid of `DFT`. -/
def padCols {β : Type} (image kernel : Mat β) : Nat :=
  (getOptimalDFTSize ((image.cols : Int) + kernel.cols - 1)).toNat

/-- Zero padding in the words of the specification: the matrix `m` kept in the top-left
corner of a `rows x cols` grid that is 0 everywhere else. -/
def zeroPad (m : Mat α) (rows cols : Nat) : Mat α :=
  ⟨rows, cols, fun r c => if r < m.rows ∧ c < m.cols then m.data r c else 0⟩

/-- The buffer `dst` of `inverse` after `idft` and before `normalize`
(filter_convolutionFFT.cpp, lines 47-54). -/
def inverse_raw (ω : Nat → F) (re : F →ₗ[α] α) (image kernel : Mat α) : Option (Mat α) := do
  let (image, kernel) ← DFT ω image kernel
  let dst ← mulSpectrums image kernel
  pure (idft ω re dst)

/-- The header `Mat O(dst, Rect(0, 0, cols, rows))`: the top-left block of `dst`; a
rectangle that does not fit in `dst` is rejected. -/
def Mat.crop {β : Type} (dst : Mat β) (cols rows : Nat) : Option (Mat β) :=
  if cols ≤ dst.cols ∧ rows ≤ dst.rows then some ⟨rows, cols, dst.data⟩ else none

/-- The function `inverse` (filter_convolutionFFT.cpp, line 45); the result is the matrix
`O` that the function displays. -/
def inverse (ω : Nat → F) (re : F →ₗ[α] α) (DBL_EPSILON : α) (image kernel save : Mat α) :
    Option (Mat Int) := do
  let dst ← inverse_raw ω re image kernel
  let dst := normalize DBL_EPSILON dst 255 0
  dst.crop save.cols save.rows

end Convolution

section Fixtures

/-- Exact cosine of the angle whose half-angle tangent is `t` (`t = 0`: angle 0,
`t = 1`: the quarter turn `π/2`); with `rsin` it gives rotations with rational entries. -/
def rcos (t : ℚ) : ℚ := (1 - t ^ 2) / (1 + t ^ 2)

/-- Exact sine of the angle whose half-angle tangent is `t`. -/
def rsin (t : ℚ) : ℚ := 2 * t / (1 + t ^ 2)

/-- The 4x4 test raster with the values `0, 17, ..., 255` in row-major order. -/
def ramp : Mat uchar := ⟨4, 4, fun r c => Fin.ofNat (17 * (4 * r + c))⟩

/-- The roots of unity of the transforms of size 1 and 2 over `ℚ`: `ω 1 = 1`, `ω 2 = -1`. -/
def rootQ (n : Nat) : ℚ := if n = 2 then -1 else 1

/-- The constant `DBL_EPSILON` of C, `2^-52`. -/
def dblEpsilon : ℚ := 1 / 2 ^ 52

/-- A 1x2 test image with the samples 100 and 200. -/
def pair : Mat ℚ := ⟨1, 2, fun _ c => if c = 0 then 100 else 200⟩

/-- A 1x2 test image with the samples 0 and 255. -/
def fullPair : Mat ℚ := ⟨1, 2, fun _ c => if c = 0 then 0 else 255⟩

/-- The 1x1 kernel whose single sample is 1. -/
def unitKernel {α : Type} [LinearOrderedField α] : Mat α := ⟨1, 1, fun _ _ => 1⟩

/-- The image `a * I`. -/
def Mat.scale {α : Type} [LinearOrderedField α] (a : α) (m : Mat α) : Mat α :=
  ⟨m.rows, m.cols, fun r c => a * m.data r c⟩

/-- A 1x2 test image with the samples 0 and `2^-53`. -/
def tinyPair : Mat ℚ := ⟨1, 2, fun _ c => if c = 0 then 0 else 1 / 2 ^ 53⟩

/-- A 2x2 test kernel with the samples 1, 0, 4, 2 in row-major order. -/
def kernel22 : Mat ℚ :=
  ⟨2, 2, fun r c => if r = 0 then (if c = 0 then 1 else 0) else (if c = 0 then 4 else 2)⟩

/-- A 1x1 raster. -/
def dot : Mat uchar := ⟨1, 1, fun _ _ => 0⟩

/-- The binary32 number nearest to `π / 2`, `0x3FC90FDB = 13176795 * 2^-23`. -/
def theta_quarter : Binary32 := (13176795 * 2 ^ 126 : Nat)

/-- The binary32 cosine of `-theta_quarter`, `-0x1.777a5cp-25 = -12303662 * 2^-48`. -/
def cos_quarter : Binary32 := -(12303662 * 2 ^ 101 : Nat)

/-- The binary32 sine of `-theta_quarter`, `-1`. -/
def sin_quarter : Binary32 := -(2 ^ 149 : Nat)

/-- A table of the binary32 cosine with the one entry used here: the value at the machine
quarter turn. -/
def cos_table (_ : Binary32) : Binary32 := cos_quarter

/-- A table of the binary32 sine with the one entry used here: the value at the machine
quarter turn. -/
def sin_table (_ : Binary32) : Binary32 := sin_quarter

/-- The floor indices `(i, j)` computed by `calculate_pixel_value` for the destination pixel
`(x, y)` at the machine quarter turn. -/
def quarter_index (center : Point) (x y : Int) : Int × Int :=
  (floor32 (x_p32 cos_table sin_table x y theta_quarter center),
    floor32 (y_p32 cos_table sin_table x y theta_quarter center))

/-- The rows of a raster, from top to bottom. -/
def Mat.toRows {β : Type} (m : Mat β) : List (List β) :=
  (List.range m.rows).map (fun r => (List.range m.cols).map (fun c => m.data r c))

end Fixtures

/-! ## Theorems -/

section RemapTheorems

set_option linter.unusedSectionVars false

variable {α : Type} [LinearOrderedField α] [FloorRing α]

/-! ### Unfolding `calculate_pixel_value` mode by mode -/

theorem cpv_neighbor (cos sin : α → α) (x y : Int) (theta : α) (center : Point)
    (src : Mat uchar) :
    calculate_pixel_value cos sin x y theta center src "neighbor" =
      if in_bounds src ⌊x_p cos sin x y theta center⌋ ⌊y_p cos sin x y theta center⌋ then
        src.at? ⌊y_p cos sin x y theta center⌋ ⌊x_p cos sin x y theta center⌋
      else some 255 := by
  have e1 : ("neighbor" : String) ≠ "bilinear" := by decide
  have e2 : ("neighbor" : String) ≠ "bicubic" := by decide
  simp only [calculate_pixel_value, e1, e2, if_true, if_false, reduceIte]
  split_ifs <;> simp

theorem cpv_bilinear (cos sin : α → α) (x y : Int) (theta : α) (center : Point)
    (src : Mat uchar) :
    calculate_pixel_value cos sin x y theta center src "bilinear" =
      if in_bounds src ⌊x_p cos sin x y theta center⌋ ⌊y_p cos sin x y theta center⌋ then
        (bilinear_value src (x_p cos sin x y theta center) (y_p cos sin x y theta center)
          ⌊x_p cos sin x y theta center⌋ ⌊y_p cos sin x y theta center⌋).map
          (fun float_value => toUchar (clamp255 float_value))
      else some 255 := by
  have e1 : ("bilinear" : String) ≠ "neighbor" := by decide
  have e2 : ("bilinear" : String) ≠ "bicubic" := by decide
  simp only [calculate_pixel_value, e1, e2, if_true, if_false, reduceIte]
  split_ifs <;> simp

theorem cpv_bicubic (cos sin : α → α) (x y : Int) (theta : α) (center : Point)
    (src : Mat uchar) :
    calculate_pixel_value cos sin x y theta center src "bicubic" =
      if in_bounds src ⌊x_p cos sin x y theta center⌋ ⌊y_p cos sin x y theta center⌋ then
        (bicubic_value src (x_p cos sin x y theta center) (y_p cos sin x y theta center)
          ⌊x_p cos sin x y theta center⌋ ⌊y_p cos sin x y theta center⌋).map
          (fun float_value => toUchar (clamp255 float_value))
      else some 255 := by
  have e1 : ("bicubic" : String) ≠ "neighbor" := by decide
  have e2 : ("bicubic" : String) ≠ "bilinear" := by decide
  simp only [calculate_pixel_value, e1, e2, if_true, if_false, reduceIte]
  split_ifs <;> simp

theorem cpv_other (cos sin : α → α) (x y : Int) (theta : α) (center : Point)
    (src : Mat uchar) (interpolation : String) (h1 : interpolation ≠ "neighbor")
    (h2 : interpolation ≠ "bilinear") (h3 : interpolation ≠ "bicubic") :
    calculate_pixel_value cos sin x y theta center src interpolation = some 255 := by
  simp [calculate_pixel_value, h1, h2, h3]

theorem cpv_out (cos sin : α → α) (x y : Int) (theta : α) (center : Point)
    (src : Mat uchar) (interpolation : String)
    (h : ¬ in_bounds src ⌊x_p cos sin x y theta center⌋ ⌊y_p cos sin x y theta center⌋) :
    calculate_pixel_value cos sin x y theta center src interpolation = some 255 := by
  simp [calculate_pixel_value, h]

/-! ### The two loops of `fill_dst` -/

theorem fill_row_eq (f : Nat → Option uchar) (g : Nat → uchar) (j n : Nat) (dst : Mat uchar)
    (hf : ∀ i, i < n → f i = some (g i)) (hj : j < dst.rows) (hn : n ≤ dst.cols) :
    fill_row f j n dst =
      some ⟨dst.rows, dst.cols, fun r c => if r = j ∧ c < n then g c else dst.data r c⟩ := by
  induction n with
  | zero => simp [fill_row]
  | succ n ih =>
    have hlt : n < dst.cols := by omega
    simp only [fill_row, ih (fun i hi => hf i (by omega)) (by omega), hf n (by omega),
      Option.bind_eq_bind, Option.some_bind, Mat.set?, hj, hlt, and_self, if_true]
    congr 2
    funext r c
    split_ifs with h1 h2 h3 <;>
      first | rfl | (exfalso; omega) | (obtain ⟨-, rfl⟩ := h1; rfl)

theorem fill_rows_eq (f : Nat → Nat → Option uchar) (g : Nat → Nat → uchar) (cols m : Nat)
    (dst : Mat uchar) (hf : ∀ j i, j < m → i < cols → f j i = some (g j i))
    (hm : m ≤ dst.rows) (hc : cols ≤ dst.cols) :
    fill_rows f cols m dst =
      some ⟨dst.rows, dst.cols,
        fun r c => if r < m ∧ c < cols then g r c else dst.data r c⟩ := by
  induction m with
  | zero => simp [fill_rows]
  | succ m ih =>
    simp only [fill_rows, ih (fun j i hj hi => hf j i (by omega) hi) (by omega),
      Option.bind_eq_bind, Option.some_bind]
    rw [fill_row_eq (f m) (g m) m cols _ (fun i hi => hf m i (by omega) hi) (by simpa using hm)
      (by simpa using hc)]
    congr 2
    funext r c
    by_cases hr : r = m
    · subst hr; simp
    · have hlt : r < m + 1 ↔ r < m := by omega
      simp [hr, hlt]

/-- When every pixel of the source extent has a defined value `g j i` and `dst` is at least
as large as `src`, `fill_dst` returns `dst` with exactly these values written over the
source extent. -/
theorem fill_dst_eq (cos sin : α → α) (theta : α) (center : Point) (src dst : Mat uchar)
    (interpolation : String) (g : Nat → Nat → uchar)
    (hf : ∀ j i, j < src.rows → i < src.cols →
      calculate_pixel_value cos sin (i : Int) (j : Int) theta center src interpolation
        = some (g j i))
    (hr : src.rows ≤ dst.rows) (hc : src.cols ≤ dst.cols) :
    fill_dst cos sin theta center src dst interpolation =
      some ⟨dst.rows, dst.cols,
        fun r c => if r < src.rows ∧ c < src.cols then g r c else dst.data r c⟩ :=
  fill_rows_eq _ g src.cols src.rows dst hf hr hc

/-! ### Arithmetic helpers -/

theorem x_p_zero (cos sin : α → α) (hc : cos 0 = 1) (hs : sin 0 = 0) (x y : Int)
    (center : Point) : x_p cos sin x y 0 center = (x : α) := by
  simp [x_p, hc, hs]

theorem y_p_zero (cos sin : α → α) (hc : cos 0 = 1) (hs : sin 0 = 0) (x y : Int)
    (center : Point) : y_p cos sin x y 0 center = (y : α) := by
  simp [y_p, hc, hs]

theorem x_p_quarter (cos sin : α → α) (theta : α) (hc : cos (-theta) = 0)
    (hs : sin (-theta) = -1) (x y : Int) (center : Point) :
    x_p cos sin x y theta center = ((center.x + center.y - y : Int) : α) := by
  simp [x_p, hc, hs]; ring

theorem y_p_quarter (cos sin : α → α) (theta : α) (hc : cos (-theta) = 0)
    (hs : sin (-theta) = -1) (x y : Int) (center : Point) :
    y_p cos sin x y theta center = ((x - center.x + center.y : Int) : α) := by
  simp [y_p, hc, hs]; ring

theorem at?_of_lt (src : Mat uchar) (j i : Int) (hj0 : 0 ≤ j) (hj : j < src.rows)
    (hi0 : 0 ≤ i) (hi : i < src.cols) : src.at? j i = some (src.data j.toNat i.toNat) := by
  simp [Mat.at?, hj0, hj, hi0, hi]

theorem truncToInt_intCast (z : Int) : truncToInt (z : α) = z := by
  unfold truncToInt
  split_ifs <;> simp

theorem clamp255_of_mem (v : α) (h0 : 0 ≤ v) (h1 : v ≤ 255) : clamp255 v = v := by
  simp [clamp255, not_lt.mpr h0, not_lt.mpr h1]

theorem toUchar_clamp255_cast (v : uchar) : toUchar (clamp255 ((v.val : Int) : α)) = v := by
  have h1 : v.val ≤ 255 := by omega
  have h2 : ((v.val : Int) : α) ≤ 255 := by exact_mod_cast h1
  have h3 : (0 : α) ≤ ((v.val : Int) : α) := by exact_mod_cast Nat.zero_le v.val
  rw [clamp255_of_mem _ h3 h2]
  apply Fin.ext
  simp only [toUchar, truncToInt_intCast]
  omega

theorem cubic_spline_intCast (p1 p2 p3 p4 : Point) (z : Int) :
    cubic_spline p1 p2 p3 p4 (z : α) = (p2.y : α) := by
  simp [cubic_spline, h0, h1, h2, h3]

theorem rcos_zero : rcos 0 = 1 := by norm_num [rcos]

theorem rsin_zero : rsin 0 = 0 := by norm_num [rsin]

theorem rcos_neg_one : rcos (-1) = 0 := by norm_num [rcos]

theorem rsin_neg_one : rsin (-1) = -1 := by norm_num [rsin]

/-! ### Rotation by the angle 0 -/

theorem cpv_zero_border (cos sin : α → α) (hc : cos 0 = 1) (hs : sin 0 = 0)
    (center : Point) (src : Mat uchar) (interpolation : String) (i j : Nat)
    (h : i = 0 ∨ j = 0) :
    calculate_pixel_value cos sin (i : Int) (j : Int) 0 center src interpolation
      = some 255 := by
  apply cpv_out
  rw [x_p_zero cos sin hc hs, y_p_zero cos sin hc hs, Int.floor_intCast, Int.floor_intCast]
  rintro ⟨hi, hj, -, -⟩
  omega

theorem cpv_zero_neighbor (cos sin : α → α) (hc : cos 0 = 1) (hs : sin 0 = 0)
    (center : Point) (src : Mat uchar) (i j : Nat) (hi0 : 0 < i) (hj0 : 0 < j)
    (hi : i < src.cols) (hj : j < src.rows) :
    calculate_pixel_value cos sin (i : Int) (j : Int) 0 center src "neighbor"
      = some (src.data j i) := by
  rw [cpv_neighbor, x_p_zero cos sin hc hs, y_p_zero cos sin hc hs, Int.floor_intCast,
    Int.floor_intCast, if_pos ⟨by omega, by omega, by omega, by omega⟩,
    at?_of_lt src _ _ (by omega) (by omega) (by omega) (by omega)]
  simp

theorem cpv_zero_bilinear (cos sin : α → α) (hc : cos 0 = 1) (hs : sin 0 = 0)
    (center : Point) (src : Mat uchar) (i j : Nat) (hi0 : 0 < i) (hj0 : 0 < j)
    (hi : i + 1 < src.cols) (hj : j + 1 < src.rows) :
    calculate_pixel_value cos sin (i : Int) (j : Int) 0 center src "bilinear"
      = some (src.data j i) := by
  rw [cpv_bilinear, x_p_zero cos sin hc hs, y_p_zero cos sin hc hs, Int.floor_intCast,
    Int.floor_intCast, if_pos ⟨by omega, by omega, by omega, by omega⟩]
  simp only [bilinear_value, Option.bind_eq_bind, Option.pure_def,
    at?_of_lt src j (i + 1) (by omega) (by omega) (by omega) (by omega),
    at?_of_lt src j i (by omega) (by omega) (by omega) (by omega),
    at?_of_lt src (j + 1) (i + 1) (by omega) (by omega) (by omega) (by omega),
    at?_of_lt src (j + 1) i (by omega) (by omega) (by omega) (by omega),
    Option.some_bind, Option.map_some', Int.floor_intCast, sub_self, mul_zero, add_zero,
    Int.toNat_ofNat]
  congr 1
  have := toUchar_clamp255_cast (α := α) (src.data j i)
  simpa using this

theorem bicubic_row_intCast (src : Mat uchar) (i k : Int) (hi0 : 0 < i)
    (hi : i + 2 < src.cols) (hk0 : 0 ≤ k) (hk : k < src.rows) :
    bicubic_row src (i : α) i k = some (((src.data k.toNat i.toNat).val : Int) : α) := by
  simp only [bicubic_row, Option.bind_eq_bind, Option.pure_def,
    at?_of_lt src k (i - 1) hk0 hk (by omega) (by omega),
    at?_of_lt src k i hk0 hk (by omega) (by omega),
    at?_of_lt src k (i + 1) hk0 hk (by omega) (by omega),
    at?_of_lt src k (i + 2) hk0 hk (by omega) (by omega),
    Option.some_bind, cubic_spline_intCast]

theorem cpv_zero_bicubic (cos sin : α → α) (hc : cos 0 = 1) (hs : sin 0 = 0)
    (center : Point) (src : Mat uchar) (i j : Nat) (hi0 : 0 < i) (hj0 : 0 < j)
    (hi : i + 2 < src.cols) (hj : j + 2 < src.rows) :
    calculate_pixel_value cos sin (i : Int) (j : Int) 0 center src "bicubic"
      = some (src.data j i) := by
  rw [cpv_bicubic, x_p_zero cos sin hc hs, y_p_zero cos sin hc hs, Int.floor_intCast,
    Int.floor_intCast, if_pos ⟨by omega, by omega, by omega, by omega⟩]
  simp only [bicubic_value, Option.bind_eq_bind, Option.pure_def,
    bicubic_row_intCast src i (j - 1) (by omega) (by omega) (by omega) (by omega),
    bicubic_row_intCast src i j (by omega) (by omega) (by omega) (by omega),
    bicubic_row_intCast src i (j + 1) (by omega) (by omega) (by omega) (by omega),
    bicubic_row_intCast src i (j + 2) (by omega) (by omega) (by omega) (by omega),
    Option.some_bind, Option.map_some', cubic_spline_intCast, truncToInt_intCast,
    Int.toNat_ofNat]
  congr 1
  have := toUchar_clamp255_cast (α := α) (src.data j i)
  simpa using this

theorem fill_dst_zero_neighbor (cos sin : α → α) (hc : cos 0 = 1) (hs : sin 0 = 0)
    (center : Point) (src dst : Mat uchar) (hr : src.rows ≤ dst.rows)
    (hcol : src.cols ≤ dst.cols) :
    fill_dst cos sin 0 center src dst "neighbor" =
      some ⟨dst.rows, dst.cols, fun j i =>
        if j < src.rows ∧ i < src.cols then
          (if 0 < i ∧ 0 < j then src.data j i else 255)
        else dst.data j i⟩ := by
  apply fill_dst_eq cos sin 0 center src dst "neighbor"
    (fun j i => if 0 < i ∧ 0 < j then src.data j i else 255) _ hr hcol
  intro j i hj hi
  beta_reduce
  by_cases h : 0 < i ∧ 0 < j
  · rw [if_pos h]
    exact cpv_zero_neighbor cos sin hc hs _ _ i j h.1 h.2 hi hj
  · rw [if_neg h]
    exact cpv_zero_border cos sin hc hs _ _ _ i j (by omega)

/-! ### The claims on the rotation -/

/-- Claim C1 (nearest-neighbour rule).  For every source image, angle, center and
destination pixel `(x, y)`, mode `"neighbor"` takes `(i, j)` to be the floors of the mapped
coordinate `(x_p, y_p)` and returns the source sample at row `j`, column `i` when
`0 < i < cols` and `0 < j < rows`, and 255 otherwise; in particular a coordinate in
column 0 or row 0 yields 255. -/
theorem neighbor_rule (cos sin : α → α) (x y : Int) (theta : α) (center : Point)
    (src : Mat uchar) :
    calculate_pixel_value cos sin x y theta center src "neighbor" =
      some (if 0 < ⌊x_p cos sin x y theta center⌋
              ∧ ⌊x_p cos sin x y theta center⌋ < (src.cols : Int)
              ∧ 0 < ⌊y_p cos sin x y theta center⌋
              ∧ ⌊y_p cos sin x y theta center⌋ < (src.rows : Int) then
        src.data ⌊y_p cos sin x y theta center⌋.toNat ⌊x_p cos sin x y theta center⌋.toNat
      else 255) := by
  rw [cpv_neighbor]
  by_cases h : in_bounds src ⌊x_p cos sin x y theta center⌋ ⌊y_p cos sin x y theta center⌋
  · obtain ⟨hi, hj, hc, hr⟩ := h
    rw [if_pos ⟨hi, hj, hc, hr⟩, if_pos ⟨hi, hc, hj, hr⟩,
      at?_of_lt src _ _ (le_of_lt hj) hr (le_of_lt hi) hc]
  · rw [if_neg h, if_neg]
    rintro ⟨hi, hc, hj, hr⟩
    exact h ⟨hi, hj, hc, hr⟩

/-- Claim C2, counterexample.  With angle 0 about the center `(1, 1)` and mode
`"neighbor"`, the 4x4 ramp is not reproduced: the destination pixel at row 0, column 0 is
255 whereas the source sample there is 0. -/
theorem identity_rotation_counterexample :
    (fill_dst rcos rsin 0 ⟨1, 1⟩ ramp ramp "neighbor").map (fun d => d.data 0 0) = some 255
      ∧ ramp.data 0 0 = 0 := by
  constructor
  · rw [fill_dst_zero_neighbor rcos rsin rcos_zero rsin_zero ⟨1, 1⟩ ramp ramp le_rfl le_rfl]
    simp [ramp]
  · rfl

/-- Claim C2, amended (identity rotation).  With angle 0 (`cos 0 = 1`, `sin 0 = 0`), for
every center: in every mode a pixel of row 0 or column 0 gets 255; a pixel at row `j`,
column `i` with `0 < i` and `0 < j` gets the source sample `src(j, i)` in mode
`"neighbor"` when `i < cols`, `j < rows`, in mode `"bilinear"` when `i + 1 < cols`,
`j + 1 < rows`, and in mode `"bicubic"` when `i + 2 < cols`, `j + 2 < rows` (the reads of
the mode are then inside the image); and in mode `"neighbor"` `fill_dst` returns the
destination with exactly these values written over the source extent. -/
theorem identity_rotation (cos sin : α → α) (hc : cos 0 = 1) (hs : sin 0 = 0)
    (center : Point) (src dst : Mat uchar) :
    (∀ interpolation : String, ∀ i j : Nat, i = 0 ∨ j = 0 →
        calculate_pixel_value cos sin (i : Int) (j : Int) 0 center src interpolation
          = some 255)
    ∧ (∀ i j : Nat, 0 < i → 0 < j → i < src.cols → j < src.rows →
        calculate_pixel_value cos sin (i : Int) (j : Int) 0 center src "neighbor"
          = some (src.data j i))
    ∧ (∀ i j : Nat, 0 < i → 0 < j → i + 1 < src.cols → j + 1 < src.rows →
        calculate_pixel_value cos sin (i : Int) (j : Int) 0 center src "bilinear"
          = some (src.data j i))
    ∧ (∀ i j : Nat, 0 < i → 0 < j → i + 2 < src.cols → j + 2 < src.rows →
        calculate_pixel_value cos sin (i : Int) (j : Int) 0 center src "bicubic"
          = some (src.data j i))
    ∧ (src.rows ≤ dst.rows → src.cols ≤ dst.cols →
        fill_dst cos sin 0 center src dst "neighbor" =
          some ⟨dst.rows, dst.cols, fun j i =>
            if j < src.rows ∧ i < src.cols then
              (if 0 < i ∧ 0 < j then src.data j i else 255)
            else dst.data j i⟩) :=
  ⟨fun m i j h => cpv_zero_border cos sin hc hs center src m i j h,
    cpv_zero_neighbor cos sin hc hs center src,
    cpv_zero_bilinear cos sin hc hs center src,
    cpv_zero_bicubic cos sin hc hs center src,
    fill_dst_zero_neighbor cos sin hc hs center src dst⟩

/-- Witness of `identity_rotation` on the 4x4 ramp with center `(1, 1)`. -/
theorem identity_rotation_witness :
    rcos 0 = 1 ∧ rsin 0 = 0
    ∧ calculate_pixel_value rcos rsin ((2 : Nat) : Int) ((1 : Nat) : Int) 0 ⟨1, 1⟩ ramp
        "bilinear" = some (ramp.data 1 2)
    ∧ calculate_pixel_value rcos rsin ((1 : Nat) : Int) ((1 : Nat) : Int) 0 ⟨1, 1⟩ ramp
        "bicubic" = some (ramp.data 1 1)
    ∧ fill_dst rcos rsin 0 ⟨1, 1⟩ ramp ramp "neighbor" =
          some ⟨4, 4, fun j i =>
            if j < 4 ∧ i < 4 then (if 0 < i ∧ 0 < j then ramp.data j i else 255)
            else ramp.data j i⟩ :=
  ⟨rcos_zero, rsin_zero,
    (identity_rotation rcos rsin rcos_zero rsin_zero ⟨1, 1⟩ ramp ramp).2.2.1 2 1
      (by decide) (by decide) (by decide) (by decide),
    (identity_rotation rcos rsin rcos_zero rsin_zero ⟨1, 1⟩ ramp ramp).2.2.2.1 1 1
      (by decide) (by decide) (by decide) (by decide),
    (identity_rotation rcos rsin rcos_zero rsin_zero ⟨1, 1⟩ ramp ramp).2.2.2.2
      le_rfl le_rfl⟩

/-! ### Rotation by a quarter turn -/

theorem cpv_quarter_neighbor (cos sin : α → α) (theta : α) (hc : cos (-theta) = 0)
    (hs : sin (-theta) = -1) (center : Point) (src : Mat uchar) (x y : Int) :
    calculate_pixel_value cos sin x y theta center src "neighbor" =
      some (if 0 < center.x + center.y - y ∧ center.x + center.y - y < (src.cols : Int)
              ∧ 0 < x - center.x + center.y ∧ x - center.x + center.y < (src.rows : Int) then
        src.data (x - center.x + center.y).toNat (center.x + center.y - y).toNat
      else 255) := by
  rw [cpv_neighbor, x_p_quarter cos sin theta hc hs, y_p_quarter cos sin theta hc hs,
    Int.floor_intCast, Int.floor_intCast]
  by_cases h : in_bounds src (center.x + center.y - y) (x - center.x + center.y)
  · obtain ⟨hi, hj, hcol, hr⟩ := h
    rw [if_pos ⟨hi, hj, hcol, hr⟩, if_pos ⟨hi, hcol, hj, hr⟩,
      at?_of_lt src _ _ (le_of_lt hj) hr (le_of_lt hi) hcol]
  · rw [if_neg h, if_neg]
    rintro ⟨hi, hcol, hj, hr⟩
    exact h ⟨hi, hj, hcol, hr⟩

theorem fill_dst_quarter_neighbor (cos sin : α → α) (theta : α) (hc : cos (-theta) = 0)
    (hs : sin (-theta) = -1) (center : Point) (src dst : Mat uchar)
    (hr : src.rows ≤ dst.rows) (hcol : src.cols ≤ dst.cols) :
    fill_dst cos sin theta center src dst "neighbor" =
      some ⟨dst.rows, dst.cols, fun y x =>
        if y < src.rows ∧ x < src.cols then
          (if 0 < center.x + center.y - (y : Int)
              ∧ center.x + center.y - (y : Int) < (src.cols : Int)
              ∧ 0 < (x : Int) - center.x + center.y
              ∧ (x : Int) - center.x + center.y < (src.rows : Int) then
            src.data ((x : Int) - center.x + center.y).toNat
              (center.x + center.y - (y : Int)).toNat
          else 255)
        else dst.data y x⟩ :=
  fill_dst_eq cos sin theta center src dst "neighbor" _
    (fun j i _ _ => cpv_quarter_neighbor cos sin theta hc hs center src i j) hr hcol

/-- The quarter turn in exact arithmetic (an idealisation: no binary32 angle has the cosine
0; the machine angle is treated in binary32 below).  For the 4x4 ramp rotated in mode
`"neighbor"` about the center `(1, 1)` as about the center `(2, 2)`, the destination pixel
at row 0, column 0 is the background 255, whereas the source sample at row 0, column 3 is
51. -/
theorem quarter_turn_counterexample :
    (fill_dst rcos rsin 1 ⟨1, 1⟩ ramp ramp "neighbor").map (fun d => d.data 0 0) = some 255
    ∧ (fill_dst rcos rsin 1 ⟨2, 2⟩ ramp ramp "neighbor").map (fun d => d.data 0 0) = some 255
    ∧ ramp.data 0 3 = 51 := by
  refine ⟨?_, ?_, rfl⟩
  · rw [fill_dst_quarter_neighbor rcos rsin 1 rcos_neg_one rsin_neg_one ⟨1, 1⟩ ramp ramp
      le_rfl le_rfl]
    simp [ramp]
  · rw [fill_dst_quarter_neighbor rcos rsin 1 rcos_neg_one rsin_neg_one ⟨2, 2⟩ ramp ramp
      le_rfl le_rfl]
    simp [ramp]

/-- The quarter turn in exact arithmetic (an idealisation: no binary32 angle has the cosine
0; the machine angle is treated in binary32 below).  For a 4x4 source and a 4x4 destination,
`fill_dst` with the quarter turn (`cos (-theta) = 0`, `sin (-theta) = -1`), an integer
center `(cx, cy)` and mode `"neighbor"` returns a 4x4 raster whose pixel at row `y`, column
`x` is the source sample at row `x - cx + cy`, column `cx + cy - y` when
`0 < cx + cy - y < 4` and `0 < x - cx + cy < 4`, and the background 255 otherwise. -/
theorem quarter_turn (cos sin : α → α) (theta : α) (hc : cos (-theta) = 0)
    (hs : sin (-theta) = -1) (center : Point) (src dst : Mat uchar)
    (hsr : src.rows = 4) (hsc : src.cols = 4) (hdr : dst.rows = 4) (hdc : dst.cols = 4) :
    ∃ d : Mat uchar, fill_dst cos sin theta center src dst "neighbor" = some d
      ∧ d.rows = 4 ∧ d.cols = 4
      ∧ ∀ x y : Nat, x < 4 → y < 4 →
          d.data y x =
            if 0 < center.x + center.y - (y : Int) ∧ center.x + center.y - (y : Int) < 4
                ∧ 0 < (x : Int) - center.x + center.y
                ∧ (x : Int) - center.x + center.y < 4 then
              src.data ((x : Int) - center.x + center.y).toNat
                (center.x + center.y - (y : Int)).toNat
            else 255 := by
  refine ⟨_, fill_dst_quarter_neighbor cos sin theta hc hs center src dst (by omega)
    (by omega), hdr, hdc, ?_⟩
  intro x y hx hy
  simp [hsr, hsc, hx, hy]

/-- An instance of `quarter_turn`: the 4x4 ramp, the exact quarter turn and the center
`(1, 1)`. -/
theorem quarter_turn_witness :
    rcos (-1) = 0 ∧ rsin (-1) = -1 ∧ ramp.rows = 4 ∧ ramp.cols = 4
    ∧ ∃ d : Mat uchar, fill_dst rcos rsin 1 ⟨1, 1⟩ ramp ramp "neighbor" = some d
      ∧ d.rows = 4 ∧ d.cols = 4
      ∧ ∀ x y : Nat, x < 4 → y < 4 →
          d.data y x =
            if 0 < (1 : Int) + 1 - (y : Int) ∧ (1 : Int) + 1 - (y : Int) < 4
                ∧ 0 < (x : Int) - 1 + 1 ∧ (x : Int) - 1 + 1 < 4 then
              ramp.data ((x : Int) - 1 + 1).toNat ((1 : Int) + 1 - (y : Int)).toNat
            else 255 :=
  ⟨rcos_neg_one, rsin_neg_one, rfl, rfl,
    quarter_turn rcos rsin 1 rcos_neg_one rsin_neg_one ⟨1, 1⟩ ramp ramp rfl rfl rfl rfl⟩

/-- Claim C4 (background fallback).  In every mode (so in each of the three modes), a
destination pixel whose floor indices fail the test `0 < i < cols`, `0 < j < rows` gets
255, whatever the samples of the source are (the value is the same for every raster of
the same dimensions: no sample is read); and if every pixel of the extent fails the test,
`fill_dst` returns a raster of the dimensions of `dst` equal to 255 at every pixel of the
source extent, hence everywhere when `dst` has the dimensions of `src`. -/
theorem background_fallback (cos sin : α → α) (theta : α) (center : Point)
    (src dst : Mat uchar) (interpolation : String) :
    (∀ x y : Int,
        ¬ in_bounds src ⌊x_p cos sin x y theta center⌋ ⌊y_p cos sin x y theta center⌋ →
        ∀ src2 : Mat uchar, src2.rows = src.rows → src2.cols = src.cols →
          calculate_pixel_value cos sin x y theta center src2 interpolation = some 255)
    ∧ ((∀ i j : Nat, i < src.cols → j < src.rows →
          ¬ in_bounds src ⌊x_p cos sin (i : Int) (j : Int) theta center⌋
            ⌊y_p cos sin (i : Int) (j : Int) theta center⌋) →
        src.rows ≤ dst.rows → src.cols ≤ dst.cols →
        ∃ d : Mat uchar, fill_dst cos sin theta center src dst interpolation = some d
          ∧ d.rows = dst.rows ∧ d.cols = dst.cols
          ∧ (∀ i j : Nat, i < src.cols → j < src.rows → d.data j i = 255)
          ∧ (dst.rows = src.rows → dst.cols = src.cols →
              ∀ i j : Nat, i < d.cols → j < d.rows → d.data j i = 255)) := by
  constructor
  · intro x y h src2 hr hcol
    apply cpv_out
    simpa [in_bounds, hr, hcol] using h
  · intro h hr hcol
    have key := fill_dst_eq cos sin theta center src dst interpolation (fun _ _ => 255)
      (fun j i hj hi => cpv_out cos sin i j theta center src interpolation (h i j hi hj))
      hr hcol
    refine ⟨_, key, rfl, rfl, ?_, ?_⟩
    · intro i j hi hj
      simp [hi, hj]
    · intro h1 h2 i j hi hj
      have hi2 : i < src.cols := by simpa [h2] using hi
      have hj2 : j < src.rows := by simpa [h1] using hj
      simp [hi2, hj2]

/-- Witness of `background_fallback`: the quarter turn of the 4x4 ramp about `(10, 10)` in
mode `"bilinear"` maps every pixel outside the source, and the output is all 255. -/
theorem background_fallback_witness :
    (¬ in_bounds ramp ⌊x_p rcos rsin 0 0 1 ⟨10, 10⟩⌋ ⌊y_p rcos rsin 0 0 1 ⟨10, 10⟩⌋)
    ∧ calculate_pixel_value rcos rsin 0 0 1 ⟨10, 10⟩ ramp "bilinear" = some 255
    ∧ (∀ i j : Nat, i < ramp.cols → j < ramp.rows →
          ¬ in_bounds ramp ⌊x_p rcos rsin (i : Int) (j : Int) 1 ⟨10, 10⟩⌋
            ⌊y_p rcos rsin (i : Int) (j : Int) 1 ⟨10, 10⟩⌋)
    ∧ ∃ d : Mat uchar, fill_dst rcos rsin 1 ⟨10, 10⟩ ramp ramp "bilinear" = some d
        ∧ d.rows = ramp.rows ∧ d.cols = ramp.cols
        ∧ (∀ i j : Nat, i < ramp.cols → j < ramp.rows → d.data j i = 255)
        ∧ (ramp.rows = ramp.rows → ramp.cols = ramp.cols →
            ∀ i j : Nat, i < d.cols → j < d.rows → d.data j i = 255) := by
  have hall : ∀ i j : Nat, i < ramp.cols → j < ramp.rows →
      ¬ in_bounds ramp ⌊x_p rcos rsin (i : Int) (j : Int) 1 ⟨10, 10⟩⌋
        ⌊y_p rcos rsin (i : Int) (j : Int) 1 ⟨10, 10⟩⌋ := by
    intro i j hi hj
    rw [x_p_quarter rcos rsin 1 rcos_neg_one rsin_neg_one,
      y_p_quarter rcos rsin 1 rcos_neg_one rsin_neg_one, Int.floor_intCast, Int.floor_intCast]
    rintro ⟨-, -, h3, -⟩
    have hj4 : j < 4 := hj
    have h4 : (10 : Int) + 10 - (j : Int) < 4 := by simpa [ramp] using h3
    omega
  have h00 := hall 0 0 (by decide) (by decide)
  exact ⟨h00,
    (background_fallback rcos rsin 1 ⟨10, 10⟩ ramp ramp "bilinear").1 0 0 h00 ramp rfl rfl,
    hall,
    (background_fallback rcos rsin 1 ⟨10, 10⟩ ramp ramp "bilinear").2 hall le_rfl le_rfl⟩

/-- Claim C5 (unrecognized mode).  For every mode string other than `"neighbor"`,
`"bilinear"` and `"bicubic"`, `calculate_pixel_value` returns 255 for every source image
(of any dimensions, so without a read and without an error), angle, center and pixel; and
`fill_dst` returns the destination with 255 written at every pixel of the source extent,
which is the whole raster when `dst` has the dimensions of `src`. -/
theorem unrecognized_mode (interpolation : String) (h1 : interpolation ≠ "neighbor")
    (h2 : interpolation ≠ "bilinear") (h3 : interpolation ≠ "bicubic")
    (cos sin : α → α) (theta : α) (center : Point) (src dst : Mat uchar) :
    (∀ x y : Int,
        calculate_pixel_value cos sin x y theta center src interpolation = some 255)
    ∧ (src.rows ≤ dst.rows → src.cols ≤ dst.cols →
        ∃ d : Mat uchar, fill_dst cos sin theta center src dst interpolation = some d
          ∧ d.rows = dst.rows ∧ d.cols = dst.cols
          ∧ (∀ i j : Nat, i < src.cols → j < src.rows → d.data j i = 255)
          ∧ (dst.rows = src.rows → dst.cols = src.cols →
              ∀ i j : Nat, i < d.cols → j < d.rows → d.data j i = 255)) := by
  constructor
  · intro x y
    exact cpv_other cos sin x y theta center src interpolation h1 h2 h3
  · intro hr hcol
    have key := fill_dst_eq cos sin theta center src dst interpolation (fun _ _ => 255)
      (fun j i _ _ => cpv_other cos sin i j theta center src interpolation h1 h2 h3)
      hr hcol
    refine ⟨_, key, rfl, rfl, ?_, ?_⟩
    · intro i j hi hj
      simp [hi, hj]
    · intro e1 e2 i j hi hj
      have hi2 : i < src.cols := by simpa [e2] using hi
      have hj2 : j < src.rows := by simpa [e1] using hj
      simp [hi2, hj2]

/-- Witness of `unrecognized_mode`: the mode `"nearest"` on the 4x4 ramp. -/
theorem unrecognized_mode_witness :
    ("nearest" : String) ≠ "neighbor" ∧ ("nearest" : String) ≠ "bilinear"
    ∧ ("nearest" : String) ≠ "bicubic"
    ∧ (∀ x y : Int,
        calculate_pixel_value rcos rsin x y (1 / 2) ⟨1, 1⟩ ramp "nearest" = some 255)
    ∧ (ramp.rows ≤ ramp.rows → ramp.cols ≤ ramp.cols →
        ∃ d : Mat uchar, fill_dst rcos rsin (1 / 2) ⟨1, 1⟩ ramp ramp "nearest" = some d
          ∧ d.rows = ramp.rows ∧ d.cols = ramp.cols
          ∧ (∀ i j : Nat, i < ramp.cols → j < ramp.rows → d.data j i = 255)
          ∧ (ramp.rows = ramp.rows → ramp.cols = ramp.cols →
              ∀ i j : Nat, i < d.cols → j < d.rows → d.data j i = 255)) :=
  ⟨by decide, by decide, by decide,
    unrecognized_mode "nearest" (by decide) (by decide) (by decide) rcos rsin (1 / 2) ⟨1, 1⟩
      ramp ramp⟩

/-! ### The clamp and the conversion to `uchar` -/

theorem clamp255_eq (v : α) : clamp255 v = max 0 (min v 255) := by
  unfold clamp255
  by_cases h1 : v < 0
  · have h2 : ¬ (0 : α) > 255 := by norm_num
    rw [if_pos h1]
    simp only [h2, if_false]
    rw [min_eq_left (by linarith), max_eq_left (le_of_lt h1)]
  · rw [if_neg h1]
    have h0 : 0 ≤ v := not_lt.mp h1
    by_cases h3 : v > 255
    · rw [if_pos h3, min_eq_right (le_of_lt h3), max_eq_right (by norm_num)]
    · rw [if_neg h3, min_eq_left (not_lt.mp h3), max_eq_right h0]

theorem clamp255_nonneg (v : α) : 0 ≤ clamp255 v := by
  rw [clamp255_eq]; exact le_max_left _ _

theorem clamp255_le (v : α) : clamp255 v ≤ 255 := by
  rw [clamp255_eq]; exact max_le (by norm_num) (min_le_right _ _)

theorem toUchar_val (c : α) (h0 : 0 ≤ c) (h1 : c ≤ 255) :
    ((toUchar c).val : Int) = ⌊c⌋ := by
  have hf0 : 0 ≤ ⌊c⌋ := Int.floor_nonneg.mpr h0
  have hf1 : ⌊c⌋ ≤ 255 := by
    have : ⌊c⌋ ≤ ⌊(255 : α)⌋ := Int.floor_mono h1
    have e : ⌊(255 : α)⌋ = 255 := by
      simp
    omega
  simp only [toUchar, truncToInt, if_pos h0]
  omega

theorem clamp_conversion (raw : α) :
    clamp255 raw = max 0 (min raw 255)
    ∧ 0 ≤ clamp255 raw ∧ clamp255 raw ≤ 255
    ∧ ((toUchar (clamp255 raw)).val : Int) = ⌊clamp255 raw⌋
    ∧ (raw < 0 → (toUchar (clamp255 raw)).val = 0)
    ∧ (255 < raw → (toUchar (clamp255 raw)).val = 255)
    ∧ (0 ≤ raw → raw ≤ 255 → ((toUchar (clamp255 raw)).val : Int) = ⌊raw⌋)
    ∧ (toUchar (clamp255 raw)).val ≤ 255 := by
  have hv := toUchar_val (clamp255 raw) (clamp255_nonneg raw) (clamp255_le raw)
  refine ⟨clamp255_eq raw, clamp255_nonneg raw, clamp255_le raw, hv, ?_, ?_, ?_, by omega⟩
  · intro h
    have e : clamp255 raw = 0 := by
      rw [clamp255_eq, min_eq_left (by linarith), max_eq_left (le_of_lt h)]
    have h2 : ⌊clamp255 raw⌋ = 0 := by rw [e]; simp
    omega
  · intro h
    have e : clamp255 raw = 255 := by
      rw [clamp255_eq, min_eq_right (le_of_lt h), max_eq_right (by norm_num)]
    have h2 : ⌊clamp255 raw⌋ = 255 := by
      rw [e]
      simp
    omega
  · intro h0 h1
    have h2 : ⌊clamp255 raw⌋ = ⌊raw⌋ := by rw [clamp255_of_mem raw h0 h1]
    omega

/-- Claim C6 (clamp law).  In the modes `"bilinear"` and `"bicubic"`, for a pixel passing
the bounds test whose reads are in range (the raw interpolated value `raw` is defined),
the returned sample is the conversion of `raw` clamped to `[0, 255]`: the argument of the
conversion is `max 0 (min raw 255)`, it lies in `[0, 255]`, the conversion truncates it,
`raw < 0` gives 0, `raw > 255` gives 255, a value in range gives the truncation of `raw`,
and the returned sample is at most 255. -/
theorem clamp_law (cos sin : α → α) (x y : Int) (theta : α) (center : Point)
    (src : Mat uchar) (interpolation : String) (raw : α)
    (hb : in_bounds src ⌊x_p cos sin x y theta center⌋ ⌊y_p cos sin x y theta center⌋)
    (hraw : (interpolation = "bilinear" ∧
        bilinear_value src (x_p cos sin x y theta center) (y_p cos sin x y theta center)
          ⌊x_p cos sin x y theta center⌋ ⌊y_p cos sin x y theta center⌋ = some raw)
      ∨ (interpolation = "bicubic" ∧
        bicubic_value src (x_p cos sin x y theta center) (y_p cos sin x y theta center)
          ⌊x_p cos sin x y theta center⌋ ⌊y_p cos sin x y theta center⌋ = some raw)) :
    calculate_pixel_value cos sin x y theta center src interpolation
        = some (toUchar (clamp255 raw))
    ∧ clamp255 raw = max 0 (min raw 255)
    ∧ 0 ≤ clamp255 raw ∧ clamp255 raw ≤ 255
    ∧ ((toUchar (clamp255 raw)).val : Int) = ⌊clamp255 raw⌋
    ∧ (raw < 0 → (toUchar (clamp255 raw)).val = 0)
    ∧ (255 < raw → (toUchar (clamp255 raw)).val = 255)
    ∧ (0 ≤ raw → raw ≤ 255 → ((toUchar (clamp255 raw)).val : Int) = ⌊raw⌋)
    ∧ (toUchar (clamp255 raw)).val ≤ 255 := by
  refine ⟨?_, clamp_conversion raw⟩
  rcases hraw with ⟨rfl, h⟩ | ⟨rfl, h⟩
  · rw [cpv_bilinear, if_pos hb, h]; rfl
  · rw [cpv_bicubic, if_pos hb, h]; rfl


/-! ### Concrete evaluations on the 4x4 ramp -/

theorem x_p_ramp_a : x_p rcos rsin 2 1 (1 / 2) ⟨1, 1⟩ = 8 / 5 := by
  norm_num [x_p, rcos, rsin]

theorem y_p_ramp_a : y_p rcos rsin 2 1 (1 / 2) ⟨1, 1⟩ = 9 / 5 := by
  norm_num [y_p, rcos, rsin]

theorem x_p_ramp_b : x_p rcos rsin 2 0 (1 / 2) ⟨0, 0⟩ = 6 / 5 := by
  norm_num [x_p, rcos, rsin]

theorem y_p_ramp_b : y_p rcos rsin 2 0 (1 / 2) ⟨0, 0⟩ = 8 / 5 := by
  norm_num [y_p, rcos, rsin]

theorem floor_six_fifths : ⌊(6 / 5 : ℚ)⌋ = 1 := by norm_num

theorem floor_eight_fifths : ⌊(8 / 5 : ℚ)⌋ = 1 := by norm_num

theorem floor_nine_fifths : ⌊(9 / 5 : ℚ)⌋ = 1 := by norm_num

theorem in_bounds_ramp_one : in_bounds ramp 1 1 := by
  unfold in_bounds ramp; decide

theorem bilinear_value_ramp_a :
    bilinear_value ramp (8 / 5 : ℚ) (9 / 5) 1 1 = some (748 / 5) := by
  have e2 : (1 : Int) + 1 = 2 := rfl
  have t1 : (1 : Int).toNat = 1 := rfl
  have t2 : (2 : Int).toNat = 2 := rfl
  simp only [bilinear_value, Option.bind_eq_bind, Option.pure_def, e2,
    at?_of_lt ramp 1 2 (by decide) (by decide) (by decide) (by decide),
    at?_of_lt ramp 1 1 (by decide) (by decide) (by decide) (by decide),
    at?_of_lt ramp 2 2 (by decide) (by decide) (by decide) (by decide),
    at?_of_lt ramp 2 1 (by decide) (by decide) (by decide) (by decide),
    Option.some_bind, t1, t2]
  norm_num [ramp, Fin.ofNat]

/-- Witness of `clamp_law`: mode `"bilinear"` on the 4x4 ramp at the source coordinate
`(8/5, 9/5)`, where the raw value is `748/5`. -/
theorem clamp_law_witness :
    in_bounds ramp ⌊x_p rcos rsin 2 1 (1 / 2) ⟨1, 1⟩⌋ ⌊y_p rcos rsin 2 1 (1 / 2) ⟨1, 1⟩⌋
    ∧ bilinear_value ramp (x_p rcos rsin 2 1 (1 / 2) ⟨1, 1⟩) (y_p rcos rsin 2 1 (1 / 2) ⟨1, 1⟩)
        ⌊x_p rcos rsin 2 1 (1 / 2) ⟨1, 1⟩⌋ ⌊y_p rcos rsin 2 1 (1 / 2) ⟨1, 1⟩⌋
        = some (748 / 5)
    ∧ calculate_pixel_value rcos rsin 2 1 (1 / 2) ⟨1, 1⟩ ramp "bilinear"
        = some (toUchar (clamp255 (748 / 5 : ℚ)))
    ∧ ((toUchar (clamp255 (748 / 5 : ℚ))).val : Int) = ⌊clamp255 (748 / 5 : ℚ)⌋ := by
  have hb : in_bounds ramp ⌊x_p rcos rsin 2 1 (1 / 2) ⟨1, 1⟩⌋
      ⌊y_p rcos rsin 2 1 (1 / 2) ⟨1, 1⟩⌋ := by
    rw [x_p_ramp_a, y_p_ramp_a, floor_eight_fifths, floor_nine_fifths]
    exact in_bounds_ramp_one
  have hraw : bilinear_value ramp (x_p rcos rsin 2 1 (1 / 2) ⟨1, 1⟩)
      (y_p rcos rsin 2 1 (1 / 2) ⟨1, 1⟩) ⌊x_p rcos rsin 2 1 (1 / 2) ⟨1, 1⟩⌋
      ⌊y_p rcos rsin 2 1 (1 / 2) ⟨1, 1⟩⌋ = some (748 / 5) := by
    rw [x_p_ramp_a, y_p_ramp_a, floor_eight_fifths, floor_nine_fifths]
    exact bilinear_value_ramp_a
  have key := clamp_law rcos rsin 2 1 (1 / 2) ⟨1, 1⟩ ramp "bilinear" (748 / 5) hb
    (Or.inl ⟨rfl, hraw⟩)
  exact ⟨hb, hraw, key.1, key.2.2.2.2.1⟩

theorem toNat_two : (2 : Int).toNat = 2 := rfl

theorem toNat_three : (3 : Int).toNat = 3 := rfl

theorem ramp_reads (k : Int) (hk0 : 0 ≤ k) (hk : k < 4) :
    ramp.at? k (1 - 1) = some (ramp.data k.toNat 0) ∧ ramp.at? k 1 = some (ramp.data k.toNat 1)
    ∧ ramp.at? k (1 + 1) = some (ramp.data k.toNat 2)
    ∧ ramp.at? k (1 + 2) = some (ramp.data k.toNat 3) :=
  ⟨at?_of_lt ramp k (1 - 1) hk0 hk (by decide) (by decide),
    at?_of_lt ramp k 1 hk0 hk (by decide) (by decide),
    at?_of_lt ramp k (1 + 1) hk0 hk (by decide) (by decide),
    at?_of_lt ramp k (1 + 2) hk0 hk (by decide) (by decide)⟩

theorem bicubic_rows_ramp :
    bicubic_row ramp (6 / 5 : ℚ) 1 (1 - 1) = some (102 / 5)
    ∧ bicubic_row ramp (6 / 5 : ℚ) 1 1 = some (442 / 5)
    ∧ bicubic_row ramp (6 / 5 : ℚ) 1 (1 + 1) = some (782 / 5)
    ∧ bicubic_row ramp (6 / 5 : ℚ) 1 (1 + 2) = some (1122 / 5) := by
  refine ⟨?_, ?_, ?_, ?_⟩
  · obtain ⟨r0, r1, r2, r3⟩ := ramp_reads (1 - 1) (by decide) (by decide)
    simp only [bicubic_row, Option.bind_eq_bind, Option.pure_def, r0, r1, r2, r3,
      Option.some_bind]
    norm_num [cubic_spline, h0, h1, h2, h3, ramp, Fin.ofNat, toNat_two, toNat_three]
  · obtain ⟨r0, r1, r2, r3⟩ := ramp_reads 1 (by decide) (by decide)
    simp only [bicubic_row, Option.bind_eq_bind, Option.pure_def, r0, r1, r2, r3,
      Option.some_bind]
    norm_num [cubic_spline, h0, h1, h2, h3, ramp, Fin.ofNat, toNat_two, toNat_three]
  · obtain ⟨r0, r1, r2, r3⟩ := ramp_reads (1 + 1) (by decide) (by decide)
    simp only [bicubic_row, Option.bind_eq_bind, Option.pure_def, r0, r1, r2, r3,
      Option.some_bind]
    norm_num [cubic_spline, h0, h1, h2, h3, ramp, Fin.ofNat, toNat_two, toNat_three]
  · obtain ⟨r0, r1, r2, r3⟩ := ramp_reads (1 + 2) (by decide) (by decide)
    simp only [bicubic_row, Option.bind_eq_bind, Option.pure_def, r0, r1, r2, r3,
      Option.some_bind]
    norm_num [cubic_spline, h0, h1, h2, h3, ramp, Fin.ofNat, toNat_two, toNat_three]

theorem spec_rows_ramp :
    spec_bicubic_row ramp (6 / 5 : ℚ) 1 (1 - 1) = some (102 / 5)
    ∧ spec_bicubic_row ramp (6 / 5 : ℚ) 1 1 = some (442 / 5)
    ∧ spec_bicubic_row ramp (6 / 5 : ℚ) 1 (1 + 1) = some (782 / 5)
    ∧ spec_bicubic_row ramp (6 / 5 : ℚ) 1 (1 + 2) = some (1122 / 5) := by
  refine ⟨?_, ?_, ?_, ?_⟩
  · obtain ⟨r0, r1, r2, r3⟩ := ramp_reads (1 - 1) (by decide) (by decide)
    simp only [spec_bicubic_row, Option.bind_eq_bind, Option.pure_def, r0, r1, r2, r3,
      Option.some_bind]
    norm_num [spec_value, h0, h1, h2, h3, ramp, Fin.ofNat, toNat_two, toNat_three]
  · obtain ⟨r0, r1, r2, r3⟩ := ramp_reads 1 (by decide) (by decide)
    simp only [spec_bicubic_row, Option.bind_eq_bind, Option.pure_def, r0, r1, r2, r3,
      Option.some_bind]
    norm_num [spec_value, h0, h1, h2, h3, ramp, Fin.ofNat, toNat_two, toNat_three]
  · obtain ⟨r0, r1, r2, r3⟩ := ramp_reads (1 + 1) (by decide) (by decide)
    simp only [spec_bicubic_row, Option.bind_eq_bind, Option.pure_def, r0, r1, r2, r3,
      Option.some_bind]
    norm_num [spec_value, h0, h1, h2, h3, ramp, Fin.ofNat, toNat_two, toNat_three]
  · obtain ⟨r0, r1, r2, r3⟩ := ramp_reads (1 + 2) (by decide) (by decide)
    simp only [spec_bicubic_row, Option.bind_eq_bind, Option.pure_def, r0, r1, r2, r3,
      Option.some_bind]
    norm_num [spec_value, h0, h1, h2, h3, ramp, Fin.ofNat, toNat_two, toNat_three]

theorem bicubic_value_ramp :
    bicubic_value ramp (6 / 5 : ℚ) (8 / 5) 1 1 = some (644 / 5) := by
  obtain ⟨r0, r1, r2, r3⟩ := bicubic_rows_ramp
  simp only [bicubic_value, Option.bind_eq_bind, Option.pure_def, r0, r1, r2, r3,
    Option.some_bind]
  norm_num [cubic_spline, h0, h1, h2, h3, truncToInt]

/-- Claim C8, evaluation at the failing input.  On the 4x4 ramp, with `cos theta = 3/5`,
`sin theta = 4/5`, center `(0, 0)` and destination pixel `(x, y) = (2, 0)`, the source
coordinate is `(6/5, 8/5)`, all 16 reads are inside the image, and mode `"bicubic"` returns
128: the row results `102/5, 442/5, 782/5, 1122/5` are truncated to `20, 88, 156, 224`
before the second spline.  The two-pass formula of the specification, with the row results
fed unrounded, gives 129. -/
theorem bicubic_truncation :
    x_p rcos rsin 2 0 (1 / 2) ⟨0, 0⟩ = 6 / 5 ∧ y_p rcos rsin 2 0 (1 / 2) ⟨0, 0⟩ = 8 / 5
    ∧ calculate_pixel_value rcos rsin 2 0 (1 / 2) ⟨0, 0⟩ ramp "bicubic" = some 128
    ∧ spec_bicubic ramp (x_p rcos rsin 2 0 (1 / 2) ⟨0, 0⟩) (y_p rcos rsin 2 0 (1 / 2) ⟨0, 0⟩)
        ⌊x_p rcos rsin 2 0 (1 / 2) ⟨0, 0⟩⌋ ⌊y_p rcos rsin 2 0 (1 / 2) ⟨0, 0⟩⌋ = some 129 := by
  refine ⟨x_p_ramp_b, y_p_ramp_b, ?_, ?_⟩
  · rw [cpv_bicubic, x_p_ramp_b, y_p_ramp_b, floor_six_fifths, floor_eight_fifths,
      if_pos in_bounds_ramp_one, bicubic_value_ramp, Option.map_some']
    norm_num [toUchar, clamp255, truncToInt]
    rfl
  · rw [x_p_ramp_b, y_p_ramp_b, floor_six_fifths, floor_eight_fifths]
    obtain ⟨r0, r1, r2, r3⟩ := spec_rows_ramp
    simp only [spec_bicubic, Option.bind_eq_bind, Option.pure_def, r0, r1, r2, r3,
      Option.some_bind]
    norm_num [spec_value, h0, h1, h2, h3, toUchar, clamp255, truncToInt]
    rfl

/-! ### The coordinate map -/

theorem coordinate_map_int (cos sin : α → α) (theta : α) (center : Point) (x y : Int) :
    coordinate_map cos sin theta (center.x : α) (center.y : α) ((x : α), (y : α))
      = (x_p cos sin x y theta center, y_p cos sin x y theta center) := rfl

/-- The coordinate map preserves the distance to the center as soon as
`cos (-theta) ^ 2 + sin (-theta) ^ 2 = 1`. -/
theorem coordinate_map_dist (cos sin : α → α) (theta cx cy : α)
    (h : cos (-theta) ^ 2 + sin (-theta) ^ 2 = 1) (p : α × α) :
    ((coordinate_map cos sin theta cx cy p).1 - cx) ^ 2
      + ((coordinate_map cos sin theta cx cy p).2 - cy) ^ 2
      = (p.1 - cx) ^ 2 + (p.2 - cy) ^ 2 := by
  simp only [coordinate_map]
  linear_combination ((p.1 - cx) ^ 2 + (p.2 - cy) ^ 2) * h

theorem coordinate_map_center (cos sin : α → α) (theta cx cy : α) :
    coordinate_map cos sin theta cx cy (cx, cy) = (cx, cy) := by
  simp only [coordinate_map, Prod.mk.injEq]
  constructor <;> ring

/-- The maps for `theta` and `-theta` about the same center are inverse of each other for
an even `cos` and an odd `sin` with `cos ^ 2 + sin ^ 2 = 1`. -/
theorem coordinate_map_inverse (cos sin : α → α) (heven : ∀ t, cos (-t) = cos t)
    (hodd : ∀ t, sin (-t) = -sin t) (hpyth : ∀ t, cos t ^ 2 + sin t ^ 2 = 1)
    (theta cx cy : α) (p : α × α) :
    coordinate_map cos sin (-theta) cx cy (coordinate_map cos sin theta cx cy p) = p := by
  have h := hpyth theta
  simp only [coordinate_map, neg_neg, heven, hodd]
  apply Prod.ext
  · simp only
    linear_combination (p.1 - cx) * h
  · simp only
    linear_combination (p.2 - cy) * h

/-- Claim C13 (rotation about the center).  For every real angle `theta`, integer center
and integer point `(x, y)`, the mapped coordinate `(x_p, y_p)` is at the same distance
from the center as `(x, y)`; the same holds for the coordinate map at every real center and
real point; and the center is mapped to itself for every `theta`. -/
theorem rotation_about_center (theta : ℝ) (center : Point) (x y : Int) :
    (x_p Real.cos Real.sin x y theta center - (center.x : ℝ)) ^ 2
        + (y_p Real.cos Real.sin x y theta center - (center.y : ℝ)) ^ 2
      = ((x : ℝ) - (center.x : ℝ)) ^ 2 + ((y : ℝ) - (center.y : ℝ)) ^ 2
    ∧ (∀ (cx cy : ℝ) (p : ℝ × ℝ),
        ((coordinate_map Real.cos Real.sin theta cx cy p).1 - cx) ^ 2
          + ((coordinate_map Real.cos Real.sin theta cx cy p).2 - cy) ^ 2
          = (p.1 - cx) ^ 2 + (p.2 - cy) ^ 2)
    ∧ x_p Real.cos Real.sin center.x center.y theta center = (center.x : ℝ)
    ∧ y_p Real.cos Real.sin center.x center.y theta center = (center.y : ℝ)
    ∧ (∀ cx cy : ℝ, coordinate_map Real.cos Real.sin theta cx cy (cx, cy) = (cx, cy)) := by
  have h : Real.cos (-theta) ^ 2 + Real.sin (-theta) ^ 2 = 1 := Real.cos_sq_add_sin_sq _
  have hc := coordinate_map_center Real.cos Real.sin theta (center.x : ℝ) (center.y : ℝ)
  rw [coordinate_map_int, Prod.mk.injEq] at hc
  refine ⟨?_, fun cx cy p => coordinate_map_dist Real.cos Real.sin theta cx cy h p, hc.1, hc.2,
    fun cx cy => coordinate_map_center Real.cos Real.sin theta cx cy⟩
  have := coordinate_map_dist Real.cos Real.sin theta (center.x : ℝ) (center.y : ℝ) h
    ((x : ℝ), (y : ℝ))
  rw [coordinate_map_int] at this
  exact this

/-- Claim C14 (round trip of the coordinate map).  Writing `M theta` for the coordinate map
of `calculate_pixel_value` about a center `(cx, cy)`, for every real `theta`, real center
and real point `p`, `M (-theta) (M theta p) = p` and `M theta (M (-theta) p) = p`; at the
integer points and centers that the code passes, `M theta` is the pair `(x_p, y_p)`. -/
theorem rotation_round_trip (theta cx cy : ℝ) (p : ℝ × ℝ) :
    coordinate_map Real.cos Real.sin (-theta) cx cy
        (coordinate_map Real.cos Real.sin theta cx cy p) = p
    ∧ coordinate_map Real.cos Real.sin theta cx cy
        (coordinate_map Real.cos Real.sin (-theta) cx cy p) = p
    ∧ (∀ (center : Point) (x y : Int),
        coordinate_map Real.cos Real.sin theta (center.x : ℝ) (center.y : ℝ) ((x : ℝ), (y : ℝ))
          = (x_p Real.cos Real.sin x y theta center, y_p Real.cos Real.sin x y theta center)) := by
  refine ⟨coordinate_map_inverse Real.cos Real.sin Real.cos_neg Real.sin_neg
      Real.cos_sq_add_sin_sq theta cx cy p, ?_,
    fun center x y => coordinate_map_int Real.cos Real.sin theta center x y⟩
  have := coordinate_map_inverse Real.cos Real.sin Real.cos_neg Real.sin_neg
    Real.cos_sq_add_sin_sq (-theta) cx cy p
  rwa [neg_neg] at this

/-- The exact rational rotations `rcos`, `rsin` satisfy the same round trip; for instance
the point `(2, 1)` about the center `(1, 1)` with `t = 1/2`. -/
theorem rotation_round_trip_rational :
    coordinate_map rcos rsin (1 / 2) 1 1 (2, 1) = (8 / 5, 9 / 5)
    ∧ coordinate_map rcos rsin (-(1 / 2)) 1 1 (8 / 5, 9 / 5) = (2, 1) := by
  constructor <;> norm_num [coordinate_map, rcos, rsin]

/-! ### The Hermite spline -/

theorem cubic_spline_eq_poly (p1 p2 p3 p4 : Point) (x : α) :
    cubic_spline p1 p2 p3 p4 x = spline_poly p1 p2 p3 p4 (x - (⌊x⌋ : Int)) := rfl

theorem spline_poly_zero (p1 p2 p3 p4 : Point) :
    spline_poly p1 p2 p3 p4 (0 : α) = (p2.y : α) := by
  simp [spline_poly, h0, h1, h2, h3]

theorem spline_poly_one (p1 p2 p3 p4 : Point) :
    spline_poly p1 p2 p3 p4 (1 : α) = (p3.y : α) := by
  simp only [spline_poly, h0, h1, h2, h3]
  ring

theorem hasDerivAt_cubic (A B C D t : ℝ) :
    HasDerivAt (fun u : ℝ => A * u ^ 3 + B * u ^ 2 + C * u + D)
      (3 * A * t ^ 2 + 2 * B * t + C) t := by
  have e1 := (hasDerivAt_pow 3 t).const_mul A
  have e2 := (hasDerivAt_pow 2 t).const_mul B
  have e3 := (hasDerivAt_id t).const_mul C
  have e := ((e1.add e2).add e3).add_const D
  convert e using 1
  simp
  ring

/-- The derivative in `t` of the value of the spline. -/
theorem spline_poly_hasDerivAt (p1 p2 p3 p4 : Point) (t : ℝ) :
    HasDerivAt (fun u : ℝ => spline_poly p1 p2 p3 p4 u)
      ((6 * t ^ 2 - 6 * t) * (p2.y : ℝ) + (-6 * t ^ 2 + 6 * t) * (p3.y : ℝ)
        + (3 * t ^ 2 - 4 * t + 1) * ((p2.y - p1.y : Int) : ℝ)
        + (3 * t ^ 2 - 2 * t) * ((p4.y - p3.y : Int) : ℝ)) t := by
  have e := hasDerivAt_cubic
    (2 * (p2.y : ℝ) - 2 * (p3.y : ℝ) + ((p2.y - p1.y : Int) : ℝ) + ((p4.y - p3.y : Int) : ℝ))
    (-3 * (p2.y : ℝ) + 3 * (p3.y : ℝ) - 2 * ((p2.y - p1.y : Int) : ℝ)
      - ((p4.y - p3.y : Int) : ℝ))
    ((p2.y - p1.y : Int) : ℝ) (p2.y : ℝ) t
  have hf : (fun u : ℝ => spline_poly p1 p2 p3 p4 u) = fun u : ℝ =>
      (2 * (p2.y : ℝ) - 2 * (p3.y : ℝ) + ((p2.y - p1.y : Int) : ℝ)
        + ((p4.y - p3.y : Int) : ℝ)) * u ^ 3
      + (-3 * (p2.y : ℝ) + 3 * (p3.y : ℝ) - 2 * ((p2.y - p1.y : Int) : ℝ)
        - ((p4.y - p3.y : Int) : ℝ)) * u ^ 2
      + ((p2.y - p1.y : Int) : ℝ) * u + (p2.y : ℝ) := by
    funext u
    simp only [spline_poly, h0, h1, h2, h3]
    ring
  rw [hf]
  convert e using 1
  ring

/-- Claim C15 (Hermite endpoint conditions).  The value computed by `cubic_spline`, as a
polynomial in `t`, equals `p2.y` at `t = 0` and `p3.y` at `t = 1`, and its derivative in `t`
equals `p2.y - p1.y` at `t = 0` and `p4.y - p3.y` at `t = 1`, for all sample values;
`cubic_spline` evaluates this polynomial at `t = x - floor x`, hence returns exactly `p2.y`
at every integer `x`. -/
theorem hermite_endpoints (p1 p2 p3 p4 : Point) :
    spline_poly p1 p2 p3 p4 (0 : ℝ) = (p2.y : ℝ)
    ∧ spline_poly p1 p2 p3 p4 (1 : ℝ) = (p3.y : ℝ)
    ∧ HasDerivAt (fun t : ℝ => spline_poly p1 p2 p3 p4 t) ((p2.y - p1.y : Int) : ℝ) 0
    ∧ HasDerivAt (fun t : ℝ => spline_poly p1 p2 p3 p4 t) ((p4.y - p3.y : Int) : ℝ) 1
    ∧ (∀ x : ℝ, cubic_spline p1 p2 p3 p4 x = spline_poly p1 p2 p3 p4 (x - (⌊x⌋ : Int)))
    ∧ (∀ z : Int, cubic_spline p1 p2 p3 p4 ((z : Int) : ℝ) = (p2.y : ℝ)) := by
  refine ⟨spline_poly_zero p1 p2 p3 p4, spline_poly_one p1 p2 p3 p4, ?_, ?_,
    fun x => cubic_spline_eq_poly p1 p2 p3 p4 x, fun z => cubic_spline_intCast p1 p2 p3 p4 z⟩
  · have e := spline_poly_hasDerivAt p1 p2 p3 p4 0
    convert e using 1
    ring
  · have e := spline_poly_hasDerivAt p1 p2 p3 p4 1
    convert e using 1
    ring

/-! ### The spline on linear data -/

theorem basis_sums (t : α) : h0 t + h1 t = 1 ∧ h1 t + h2 t + h3 t = t := by
  simp only [h0, h1, h2, h3]
  constructor <;> ring

theorem cubic_spline_linear (p1 p2 p3 p4 : Point) (a b x : α)
    (e1 : (p1.y : α) = a + b * 1) (e2 : (p2.y : α) = a + b * 2)
    (e3 : (p3.y : α) = a + b * 3) (e4 : (p4.y : α) = a + b * 4) :
    cubic_spline p1 p2 p3 p4 x = (p2.y : α) + b * (x - (⌊x⌋ : Int)) := by
  simp only [cubic_spline, h0, h1, h2, h3, Int.cast_sub, e1, e2, e3, e4]
  ring

/-- Claim C20 (the spline reproduces linear data).  For all `a`, `b` and every query `x`
with `t = x - floor x`, if the four samples are `p_k.y = a + b * k` for `k = 1..4`, then
`cubic_spline` returns `p2.y + b * t`; four equal samples `v` give exactly `v`;
`h0 t + h1 t = 1` and `h1 t + h2 t + h3 t = t` for every `t`; and the result does not
depend on the abscissas `p1.x .. p4.x`. -/
theorem spline_linear_data (p1 p2 p3 p4 : Point) (x : α) :
    (∀ a b : α, (p1.y : α) = a + b * 1 → (p2.y : α) = a + b * 2 → (p3.y : α) = a + b * 3 →
        (p4.y : α) = a + b * 4 →
        cubic_spline p1 p2 p3 p4 x = (p2.y : α) + b * (x - (⌊x⌋ : Int)))
    ∧ (p1.y = p2.y → p3.y = p2.y → p4.y = p2.y → cubic_spline p1 p2 p3 p4 x = (p2.y : α))
    ∧ (∀ t : α, h0 t + h1 t = 1 ∧ h1 t + h2 t + h3 t = t)
    ∧ (∀ q1 q2 q3 q4 : Point, q1.y = p1.y → q2.y = p2.y → q3.y = p3.y → q4.y = p4.y →
        cubic_spline q1 q2 q3 q4 x = cubic_spline p1 p2 p3 p4 x) := by
  refine ⟨fun a b e1 e2 e3 e4 => cubic_spline_linear p1 p2 p3 p4 a b x e1 e2 e3 e4, ?_,
    basis_sums, ?_⟩
  · intro e1 e3 e4
    have := cubic_spline_linear p1 p2 p3 p4 (p2.y : α) 0 x (by rw [e1]; ring) (by ring)
      (by rw [e3]; ring) (by rw [e4]; ring)
    simpa using this
  · intro q1 q2 q3 q4 e1 e2 e3 e4
    simp only [cubic_spline, e1, e2, e3, e4]

/-- Witness of `spline_linear_data`: the samples `17, 34, 51, 68` (`a = 0`, `b = 17`) at
the query `x = 6/5`. -/
theorem spline_linear_data_witness :
    cubic_spline ⟨0, 17⟩ ⟨1, 34⟩ ⟨2, 51⟩ ⟨3, 68⟩ (6 / 5 : ℚ)
      = (((⟨1, 34⟩ : Point).y : Int) : ℚ) + 17 * ((6 / 5 : ℚ) - (⌊(6 / 5 : ℚ)⌋ : Int)) :=
  (spline_linear_data ⟨0, 17⟩ ⟨1, 34⟩ ⟨2, 51⟩ ⟨3, 68⟩ (6 / 5 : ℚ)).1 0 17
    (by norm_num) (by norm_num) (by norm_num) (by norm_num)

/-! ### The bilinear value lies between its four neighbours -/

theorem lerp_ge (m u v t : α) (hu : m ≤ u) (hv : m ≤ v) (ht0 : 0 ≤ t) (ht1 : t ≤ 1) :
    m ≤ u + (v - u) * t := by
  have h1 : 0 ≤ (u - m) * (1 - t) := mul_nonneg (by linarith) (by linarith)
  have h2 : 0 ≤ (v - m) * t := mul_nonneg (by linarith) ht0
  nlinarith

theorem lerp_le (m u v t : α) (hu : u ≤ m) (hv : v ≤ m) (ht0 : 0 ≤ t) (ht1 : t ≤ 1) :
    u + (v - u) * t ≤ m := by
  have h1 : 0 ≤ (m - u) * (1 - t) := mul_nonneg (by linarith) (by linarith)
  have h2 : 0 ≤ (m - v) * t := mul_nonneg (by linarith) ht0
  nlinarith

/-- The raw bilinear value is a convex combination of the four samples. -/
theorem bilinear_formula_bounds (a b c d : Int) (dx dy : α) (hx0 : 0 ≤ dx) (hx1 : dx < 1)
    (hy0 : 0 ≤ dy) (hy1 : dy < 1) :
    ((min (min a b) (min c d) : Int) : α) ≤ bilinear_formula a b c d dx dy
    ∧ bilinear_formula a b c d dx dy ≤ ((max (max a b) (max c d) : Int) : α) := by
  have ha : ((min (min a b) (min c d) : Int) : α) ≤ (a : α) := by
    exact_mod_cast le_trans (min_le_left _ _) (min_le_left _ _)
  have hb : ((min (min a b) (min c d) : Int) : α) ≤ (b : α) := by
    exact_mod_cast le_trans (min_le_left _ _) (min_le_right _ _)
  have hc : ((min (min a b) (min c d) : Int) : α) ≤ (c : α) := by
    exact_mod_cast le_trans (min_le_right _ _) (min_le_left _ _)
  have hd : ((min (min a b) (min c d) : Int) : α) ≤ (d : α) := by
    exact_mod_cast le_trans (min_le_right _ _) (min_le_right _ _)
  have ha2 : (a : α) ≤ ((max (max a b) (max c d) : Int) : α) := by
    exact_mod_cast le_trans (le_max_left _ _) (le_max_left _ _)
  have hb2 : (b : α) ≤ ((max (max a b) (max c d) : Int) : α) := by
    exact_mod_cast le_trans (le_max_right _ _) (le_max_left _ _)
  have hc2 : (c : α) ≤ ((max (max a b) (max c d) : Int) : α) := by
    exact_mod_cast le_trans (le_max_left _ _) (le_max_right _ _)
  have hd2 : (d : α) ≤ ((max (max a b) (max c d) : Int) : α) := by
    exact_mod_cast le_trans (le_max_right _ _) (le_max_right _ _)
  simp only [bilinear_formula, Int.cast_sub]
  constructor
  · exact lerp_ge _ _ _ dy (lerp_ge _ _ _ dx ha hb hx0 (le_of_lt hx1))
      (lerp_ge _ _ _ dx hc hd hx0 (le_of_lt hx1)) hy0 (le_of_lt hy1)
  · exact lerp_le _ _ _ dy (lerp_le _ _ _ dx ha2 hb2 hx0 (le_of_lt hx1))
      (lerp_le _ _ _ dx hc2 hd2 hx0 (le_of_lt hx1)) hy0 (le_of_lt hy1)


theorem bilinear_value_eq (src : Mat uchar) (xp yp : α) (i j : Int) (hb : in_bounds src i j)
    (hi : i + 1 < (src.cols : Int)) (hj : j + 1 < (src.rows : Int)) :
    bilinear_value src xp yp i j = some (bilinear_formula
      ((src.data j.toNat i.toNat).val : Int) ((src.data j.toNat (i + 1).toNat).val : Int)
      ((src.data (j + 1).toNat i.toNat).val : Int)
      ((src.data (j + 1).toNat (i + 1).toNat).val : Int)
      (xp - (⌊xp⌋ : Int)) (yp - (⌊yp⌋ : Int))) := by
  obtain ⟨hi0, hj0, hi1, hj1⟩ := hb
  simp only [bilinear_value, Option.bind_eq_bind, Option.pure_def,
    at?_of_lt src j (i + 1) (le_of_lt hj0) hj1 (by omega) hi,
    at?_of_lt src j i (le_of_lt hj0) hj1 (le_of_lt hi0) hi1,
    at?_of_lt src (j + 1) (i + 1) (by omega) hj (by omega) hi,
    at?_of_lt src (j + 1) i (by omega) hj (le_of_lt hi0) hi1,
    Option.some_bind, bilinear_formula]
  simp

/-- Claim C18 (bilinear needs no clamp).  For four samples `a, b, c, d` in `[0, 255]` and
offsets `dx, dy` in `[0, 1)`, the raw bilinear value lies between
`min (a, b, c, d)` and `max (a, b, c, d)`, so neither clamp branch is taken
(`clamp255` leaves it unchanged); and for a pixel that passes the bounds test with its four
reads inside the image, mode `"bilinear"` returns the truncation of the raw value, which
lies between the smallest and the largest of the four neighbours. -/
theorem bilinear_no_clamp (cos sin : α → α) (x y : Int) (theta : α) (center : Point)
    (src : Mat uchar) :
    (∀ (a b c d : Int) (dx dy : α), 0 ≤ a → a ≤ 255 → 0 ≤ b → b ≤ 255 → 0 ≤ c → c ≤ 255 →
        0 ≤ d → d ≤ 255 → 0 ≤ dx → dx < 1 → 0 ≤ dy → dy < 1 →
        ((min (min a b) (min c d) : Int) : α) ≤ bilinear_formula a b c d dx dy
        ∧ bilinear_formula a b c d dx dy ≤ ((max (max a b) (max c d) : Int) : α)
        ∧ ¬ bilinear_formula a b c d dx dy < 0
        ∧ ¬ bilinear_formula a b c d dx dy > 255
        ∧ clamp255 (bilinear_formula a b c d dx dy) = bilinear_formula a b c d dx dy)
    ∧ (in_bounds src ⌊x_p cos sin x y theta center⌋ ⌊y_p cos sin x y theta center⌋ →
        ⌊x_p cos sin x y theta center⌋ + 1 < (src.cols : Int) →
        ⌊y_p cos sin x y theta center⌋ + 1 < (src.rows : Int) →
        ∃ (raw : α) (v : uchar),
          bilinear_value src (x_p cos sin x y theta center) (y_p cos sin x y theta center)
            ⌊x_p cos sin x y theta center⌋ ⌊y_p cos sin x y theta center⌋ = some raw
          ∧ calculate_pixel_value cos sin x y theta center src "bilinear" = some v
          ∧ ¬ raw < 0 ∧ ¬ raw > 255 ∧ clamp255 raw = raw ∧ (v.val : Int) = ⌊raw⌋
          ∧ min (min ((src.data ⌊y_p cos sin x y theta center⌋.toNat
                  ⌊x_p cos sin x y theta center⌋.toNat).val : Int)
                ((src.data ⌊y_p cos sin x y theta center⌋.toNat
                  (⌊x_p cos sin x y theta center⌋ + 1).toNat).val : Int))
              (min ((src.data (⌊y_p cos sin x y theta center⌋ + 1).toNat
                  ⌊x_p cos sin x y theta center⌋.toNat).val : Int)
                ((src.data (⌊y_p cos sin x y theta center⌋ + 1).toNat
                  (⌊x_p cos sin x y theta center⌋ + 1).toNat).val : Int)) ≤ (v.val : Int)
          ∧ (v.val : Int) ≤ max (max ((src.data ⌊y_p cos sin x y theta center⌋.toNat
                  ⌊x_p cos sin x y theta center⌋.toNat).val : Int)
                ((src.data ⌊y_p cos sin x y theta center⌋.toNat
                  (⌊x_p cos sin x y theta center⌋ + 1).toNat).val : Int))
              (max ((src.data (⌊y_p cos sin x y theta center⌋ + 1).toNat
                  ⌊x_p cos sin x y theta center⌋.toNat).val : Int)
                ((src.data (⌊y_p cos sin x y theta center⌋ + 1).toNat
                  (⌊x_p cos sin x y theta center⌋ + 1).toNat).val : Int))) := by
  have key : ∀ (a b c d : Int) (dx dy : α), 0 ≤ a → a ≤ 255 → 0 ≤ b → b ≤ 255 → 0 ≤ c →
      c ≤ 255 → 0 ≤ d → d ≤ 255 → 0 ≤ dx → dx < 1 → 0 ≤ dy → dy < 1 →
      ((min (min a b) (min c d) : Int) : α) ≤ bilinear_formula a b c d dx dy
      ∧ bilinear_formula a b c d dx dy ≤ ((max (max a b) (max c d) : Int) : α)
      ∧ ¬ bilinear_formula a b c d dx dy < 0
      ∧ ¬ bilinear_formula a b c d dx dy > 255
      ∧ clamp255 (bilinear_formula a b c d dx dy) = bilinear_formula a b c d dx dy := by
    intro a b c d dx dy ha0 ha1 hb0 hb1 hc0 hc1 hd0 hd1 hx0 hx1 hy0 hy1
    obtain ⟨h1, h2⟩ := bilinear_formula_bounds a b c d dx dy hx0 hx1 hy0 hy1
    have hmin : (0 : Int) ≤ min (min a b) (min c d) := by
      simp only [le_min_iff]; exact ⟨⟨ha0, hb0⟩, hc0, hd0⟩
    have hmax : max (max a b) (max c d) ≤ (255 : Int) := by
      simp only [max_le_iff]; exact ⟨⟨ha1, hb1⟩, hc1, hd1⟩
    have hmin2 : (0 : α) ≤ ((min (min a b) (min c d) : Int) : α) := by exact_mod_cast hmin
    have hmax2 : ((max (max a b) (max c d) : Int) : α) ≤ 255 := by exact_mod_cast hmax
    have g0 : 0 ≤ bilinear_formula a b c d dx dy := le_trans hmin2 h1
    have g1 : bilinear_formula a b c d dx dy ≤ 255 := le_trans h2 hmax2
    exact ⟨h1, h2, not_lt.mpr g0, not_lt.mpr g1, clamp255_of_mem _ g0 g1⟩
  refine ⟨key, ?_⟩
  intro hb hi hj
  set xp := x_p cos sin x y theta center
  set yp := y_p cos sin x y theta center
  have hraw := bilinear_value_eq src xp yp _ _ hb hi hj
  have hv0 : ∀ u : uchar, (0 : Int) ≤ (u.val : Int) ∧ (u.val : Int) ≤ 255 := by
    intro u; omega
  obtain ⟨h1, h2, h3, h4, h5⟩ := key
    ((src.data ⌊yp⌋.toNat ⌊xp⌋.toNat).val : Int) ((src.data ⌊yp⌋.toNat (⌊xp⌋ + 1).toNat).val : Int)
    ((src.data (⌊yp⌋ + 1).toNat ⌊xp⌋.toNat).val : Int)
    ((src.data (⌊yp⌋ + 1).toNat (⌊xp⌋ + 1).toNat).val : Int)
    (xp - (⌊xp⌋ : Int)) (yp - (⌊yp⌋ : Int))
    (hv0 _).1 (hv0 _).2 (hv0 _).1 (hv0 _).2 (hv0 _).1 (hv0 _).2 (hv0 _).1 (hv0 _).2
    (Int.fract_nonneg xp) (Int.fract_lt_one xp) (Int.fract_nonneg yp) (Int.fract_lt_one yp)
  have hcpv : calculate_pixel_value cos sin x y theta center src "bilinear"
      = (bilinear_value src xp yp ⌊xp⌋ ⌊yp⌋).map
          (fun float_value => toUchar (clamp255 float_value)) := by
    rw [cpv_bilinear, if_pos hb]
  rw [hraw, Option.map_some', h5] at hcpv
  have hval := toUchar_val _ (not_lt.mp h3) (not_lt.mp h4)
  have hfl := Int.floor_mono h2
  rw [Int.floor_intCast] at hfl
  exact ⟨_, _, hraw, hcpv, h3, h4, h5, hval, by rw [hval]; exact Int.le_floor.mpr h1,
    by rw [hval]; exact hfl⟩

/-- Witness of `bilinear_no_clamp`: the 4x4 ramp at the source coordinate `(8/5, 9/5)`. -/
theorem bilinear_no_clamp_witness :
    in_bounds ramp ⌊x_p rcos rsin 2 1 (1 / 2) ⟨1, 1⟩⌋ ⌊y_p rcos rsin 2 1 (1 / 2) ⟨1, 1⟩⌋
    ∧ ⌊x_p rcos rsin 2 1 (1 / 2) ⟨1, 1⟩⌋ + 1 < (ramp.cols : Int)
    ∧ ⌊y_p rcos rsin 2 1 (1 / 2) ⟨1, 1⟩⌋ + 1 < (ramp.rows : Int)
    ∧ ∃ (raw : ℚ) (v : uchar),
        bilinear_value ramp (x_p rcos rsin 2 1 (1 / 2) ⟨1, 1⟩)
          (y_p rcos rsin 2 1 (1 / 2) ⟨1, 1⟩) ⌊x_p rcos rsin 2 1 (1 / 2) ⟨1, 1⟩⌋
          ⌊y_p rcos rsin 2 1 (1 / 2) ⟨1, 1⟩⌋ = some raw
        ∧ calculate_pixel_value rcos rsin 2 1 (1 / 2) ⟨1, 1⟩ ramp "bilinear" = some v
        ∧ ¬ raw < 0 ∧ ¬ raw > 255 ∧ clamp255 raw = raw ∧ (v.val : Int) = ⌊raw⌋ := by
  have hb : in_bounds ramp ⌊x_p rcos rsin 2 1 (1 / 2) ⟨1, 1⟩⌋
      ⌊y_p rcos rsin 2 1 (1 / 2) ⟨1, 1⟩⌋ := by
    rw [x_p_ramp_a, y_p_ramp_a, floor_eight_fifths, floor_nine_fifths]
    exact in_bounds_ramp_one
  have hi : ⌊x_p rcos rsin 2 1 (1 / 2) ⟨1, 1⟩⌋ + 1 < (ramp.cols : Int) := by
    rw [x_p_ramp_a, floor_eight_fifths]; decide
  have hj : ⌊y_p rcos rsin 2 1 (1 / 2) ⟨1, 1⟩⌋ + 1 < (ramp.rows : Int) := by
    rw [y_p_ramp_a, floor_nine_fifths]; decide
  obtain ⟨raw, v, h1, h2, h3, h4, h5, h6, -, -⟩ :=
    (bilinear_no_clamp rcos rsin 2 1 (1 / 2) ⟨1, 1⟩ ramp).2 hb hi hj
  exact ⟨hb, hi, hj, raw, v, h1, h2, h3, h4, h5, h6⟩

/-! ### The reads of the bilinear and bicubic branches -/

theorem at?_isSome_iff (src : Mat uchar) (r c : Int) :
    (src.at? r c).isSome ↔ in_image src (r, c) := by
  unfold Mat.at? in_image
  split_ifs with h
  · simp only [Option.isSome_some, true_iff]; exact h
  · simp only [Option.isSome_none, Bool.false_eq_true, false_iff]; exact h

theorem at?_eq_none (src : Mat uchar) (r c : Int) (h : ¬ in_image src (r, c)) :
    src.at? r c = none := by
  unfold Mat.at?
  exact if_neg h

theorem at?_of_in_image (src : Mat uchar) (r c : Int) (h : in_image src (r, c)) :
    src.at? r c = some (src.data r.toNat c.toNat) :=
  at?_of_lt src r c h.1 h.2.1 h.2.2.1 h.2.2.2

theorem bilinear_value_isSome_iff (src : Mat uchar) (xp yp : α) (i j : Int) :
    (bilinear_value src xp yp i j).isSome ↔ ∀ p ∈ bilinear_reads i j, in_image src p := by
  simp only [bilinear_reads, List.mem_cons, List.mem_singleton, List.not_mem_nil, or_false,
    forall_eq_or_imp, forall_eq]
  by_cases h1 : in_image src (j, i + 1)
  · by_cases h2 : in_image src (j, i)
    · by_cases h3 : in_image src (j + 1, i + 1)
      · by_cases h4 : in_image src (j + 1, i)
        · simp [bilinear_value, at?_of_in_image, h1, h2, h3, h4]
        · simp [bilinear_value, at?_of_in_image, at?_eq_none, h1, h2, h3, h4]
      · simp [bilinear_value, at?_of_in_image, at?_eq_none, h1, h2, h3]
    · simp [bilinear_value, at?_of_in_image, at?_eq_none, h1, h2]
  · simp [bilinear_value, at?_eq_none, h1]

theorem bicubic_row_isSome_iff (src : Mat uchar) (xp : α) (i k : Int) :
    (bicubic_row src xp i k).isSome ↔
      in_image src (k, i - 1) ∧ in_image src (k, i) ∧ in_image src (k, i + 1)
        ∧ in_image src (k, i + 2) := by
  by_cases h1 : in_image src (k, i - 1)
  · by_cases h2 : in_image src (k, i)
    · by_cases h3 : in_image src (k, i + 1)
      · by_cases h4 : in_image src (k, i + 2)
        · simp [bicubic_row, at?_of_in_image, h1, h2, h3, h4]
        · simp [bicubic_row, at?_of_in_image, at?_eq_none, h1, h2, h3, h4]
      · simp [bicubic_row, at?_of_in_image, at?_eq_none, h1, h2, h3]
    · simp [bicubic_row, at?_of_in_image, at?_eq_none, h1, h2]
  · simp [bicubic_row, at?_eq_none, h1]

theorem bicubic_value_isSome_iff (src : Mat uchar) (xp yp : α) (i j : Int) :
    (bicubic_value src xp yp i j).isSome ↔ ∀ p ∈ bicubic_reads i j, in_image src p := by
  have hrows : (bicubic_value src xp yp i j).isSome ↔
      (bicubic_row src xp i (j - 1)).isSome ∧ (bicubic_row src xp i j).isSome
        ∧ (bicubic_row src xp i (j + 1)).isSome ∧ (bicubic_row src xp i (j + 2)).isSome := by
    unfold bicubic_value
    cases h1 : bicubic_row src xp i (j - 1) <;> cases h2 : bicubic_row src xp i j <;>
      cases h3 : bicubic_row src xp i (j + 1) <;> cases h4 : bicubic_row src xp i (j + 2) <;>
      simp
  rw [hrows, bicubic_row_isSome_iff, bicubic_row_isSome_iff, bicubic_row_isSome_iff,
    bicubic_row_isSome_iff]
  simp only [bicubic_reads, List.mem_cons, List.mem_singleton, List.not_mem_nil, or_false,
    forall_eq_or_imp, forall_eq]
  tauto

theorem bilinear_reads_iff (src : Mat uchar) (i j : Int) (hb : in_bounds src i j) :
    (∀ p ∈ bilinear_reads i j, in_image src p)
      ↔ i ≤ (src.cols : Int) - 2 ∧ j ≤ (src.rows : Int) - 2 := by
  obtain ⟨hi0, hj0, hi1, hj1⟩ := hb
  simp only [bilinear_reads, List.mem_cons, List.mem_singleton, List.not_mem_nil, or_false,
    forall_eq_or_imp, forall_eq, in_image]
  constructor
  · rintro ⟨h1, h2, h3, h4⟩
    omega
  · intro h
    refine ⟨?_, ?_, ?_, ?_⟩ <;> omega

theorem bicubic_reads_iff (src : Mat uchar) (i j : Int) (hb : in_bounds src i j) :
    (∀ p ∈ bicubic_reads i j, in_image src p)
      ↔ i ≤ (src.cols : Int) - 3 ∧ j ≤ (src.rows : Int) - 3 := by
  obtain ⟨hi0, hj0, hi1, hj1⟩ := hb
  simp only [bicubic_reads, List.mem_cons, List.mem_singleton, List.not_mem_nil, or_false,
    forall_eq_or_imp, forall_eq, in_image]
  constructor
  · intro h
    have h16 := h.2.2.2.2.2.2.2.2.2.2.2.2.2.2.2
    omega
  · intro h
    refine ⟨?_, ?_, ?_, ?_, ?_, ?_, ?_, ?_, ?_, ?_, ?_, ?_, ?_, ?_, ?_, ?_⟩ <;> omega

theorem isSome_false_iff {β : Type} (o : Option β) : ¬ o.isSome ↔ o = none := by
  cases o <;> simp


theorem in_bounds_last (src : Mat uchar) (_hr : 2 ≤ src.rows) (hc : 2 ≤ src.cols) (j : Int)
    (hj0 : 0 < j) (hj : j < (src.rows : Int)) : in_bounds src ((src.cols : Int) - 1) j := by
  refine ⟨?_, hj0, ?_, hj⟩ <;> omega

theorem cpv_zero_int (cos sin : α → α) (hc : cos 0 = 1) (hs : sin 0 = 0) (center : Point)
    (x y : Int) :
    ⌊x_p cos sin x y 0 center⌋ = x ∧ ⌊y_p cos sin x y 0 center⌋ = y := by
  rw [x_p_zero cos sin hc hs, y_p_zero cos sin hc hs, Int.floor_intCast, Int.floor_intCast]
  exact ⟨rfl, rfl⟩

/-- Claim C19 (bilinear reads versus the bounds test).  For floor indices `(i, j)` passing
the test, the four reads of the bilinear branch are inside the image if and only if
`i ≤ cols - 2` and `j ≤ rows - 2` (and the branch has a defined value exactly when they
are); so a coordinate of the last column or of the last row that passes the test reads a
sample outside the image; in an image with at least two rows and two columns the
coordinates `(cols - 1, j)` with `0 < j < rows` pass the test, and with the angle 0 the
pixel `(cols - 1, rows - 1)` is such a coordinate, where the value is undefined. -/
theorem bilinear_reads_bounds (src : Mat uchar) :
    (∀ i j : Int, in_bounds src i j →
        ((∀ p ∈ bilinear_reads i j, in_image src p)
          ↔ i ≤ (src.cols : Int) - 2 ∧ j ≤ (src.rows : Int) - 2))
    ∧ (∀ (xp yp : α) (i j : Int),
        (bilinear_value src xp yp i j).isSome ↔ ∀ p ∈ bilinear_reads i j, in_image src p)
    ∧ (∀ i j : Int, in_bounds src i j → i = (src.cols : Int) - 1 ∨ j = (src.rows : Int) - 1 →
        (∃ p ∈ bilinear_reads i j, ¬ in_image src p)
        ∧ ∀ xp yp : α, bilinear_value src xp yp i j = none)
    ∧ (2 ≤ src.rows → 2 ≤ src.cols → ∀ j : Int, 0 < j → j < (src.rows : Int) →
        in_bounds src ((src.cols : Int) - 1) j)
    ∧ (2 ≤ src.rows → 2 ≤ src.cols → ∀ (cos sin : α → α) (center : Point),
        cos 0 = 1 → sin 0 = 0 →
        calculate_pixel_value cos sin ((src.cols : Int) - 1) ((src.rows : Int) - 1) 0 center
          src "bilinear" = none) := by
  have part3 : ∀ i j : Int, in_bounds src i j →
      i = (src.cols : Int) - 1 ∨ j = (src.rows : Int) - 1 →
      (∃ p ∈ bilinear_reads i j, ¬ in_image src p)
      ∧ ∀ xp yp : α, bilinear_value src xp yp i j = none := by
    intro i j hb hlast
    have hnot : ¬ ∀ p ∈ bilinear_reads i j, in_image src p := by
      rw [bilinear_reads_iff src i j hb]
      omega
    refine ⟨by push_neg at hnot; exact hnot, fun xp yp => ?_⟩
    rw [← isSome_false_iff, bilinear_value_isSome_iff]
    exact hnot
  refine ⟨fun i j hb => bilinear_reads_iff src i j hb,
    fun xp yp i j => bilinear_value_isSome_iff src xp yp i j, part3,
    fun hr hc j hj0 hj => in_bounds_last src hr hc j hj0 hj, ?_⟩
  intro hr hc cos sin center hcos hsin
  obtain ⟨e1, e2⟩ := cpv_zero_int cos sin hcos hsin center ((src.cols : Int) - 1)
    ((src.rows : Int) - 1)
  have hb : in_bounds src ((src.cols : Int) - 1) ((src.rows : Int) - 1) :=
    in_bounds_last src hr hc _ (by omega) (by omega)
  rw [cpv_bilinear, e1, e2, if_pos hb, (part3 _ _ hb (Or.inl rfl)).2]
  rfl

/-- Witness of `bilinear_reads_bounds`: on the 4x4 ramp the indices `(3, 1)` pass the test
and the read at row 1, column 4 is outside the image. -/
theorem bilinear_reads_bounds_witness :
    in_bounds ramp 3 1 ∧ (3 : Int) = (ramp.cols : Int) - 1
    ∧ (∃ p ∈ bilinear_reads 3 1, ¬ in_image ramp p)
    ∧ (∀ xp yp : ℚ, bilinear_value ramp xp yp 3 1 = none)
    ∧ calculate_pixel_value rcos rsin ((ramp.cols : Int) - 1) ((ramp.rows : Int) - 1) 0
        ⟨1, 1⟩ ramp "bilinear" = none := by
  have hb : in_bounds ramp 3 1 := by unfold in_bounds ramp; decide
  have h := (bilinear_reads_bounds (α := ℚ) ramp).2.2.1 3 1 hb (Or.inl rfl)
  exact ⟨hb, rfl, h.1, h.2,
    (bilinear_reads_bounds (α := ℚ) ramp).2.2.2.2 (by decide) (by decide) rcos rsin ⟨1, 1⟩
      rcos_zero rsin_zero⟩

/-- Claim C16, counterexample.  In the 1x1 raster no floor indices pass the test
`0 < i < cols`, `0 < j < rows`, so there are no coordinates that pass the test and read a
sample outside the image. -/
theorem bicubic_reads_counterexample :
    dot.rows = 1 ∧ dot.cols = 1 ∧ ¬ ∃ i j : Int, in_bounds dot i j := by
  refine ⟨rfl, rfl, ?_⟩
  rintro ⟨i, j, h1, -, h3, -⟩
  have h4 : i < 1 := h3
  omega

/-- Claim C16, amended (bicubic reads versus the bounds test).  For floor indices `(i, j)`
passing the test, the 16 reads of the bicubic branch (rows `j-1 .. j+2`, columns
`i-1 .. i+2`) are inside the image if and only if `i ≤ cols - 3` and `j ≤ rows - 3` (and
the branch has a defined value exactly when they are); so for every image with at least two
rows and two columns there are coordinates that pass the test, namely `(cols - 1, j)` with
`0 < j < rows`, for which a sample outside the image is read, and with the angle 0 the pixel
`(cols - 1, rows - 1)` is such a coordinate, where the value is undefined. -/
theorem bicubic_reads_bounds (src : Mat uchar) :
    (∀ i j : Int, in_bounds src i j →
        ((∀ p ∈ bicubic_reads i j, in_image src p)
          ↔ i ≤ (src.cols : Int) - 3 ∧ j ≤ (src.rows : Int) - 3))
    ∧ (∀ (xp yp : α) (i j : Int),
        (bicubic_value src xp yp i j).isSome ↔ ∀ p ∈ bicubic_reads i j, in_image src p)
    ∧ (2 ≤ src.rows → 2 ≤ src.cols → ∀ j : Int, 0 < j → j < (src.rows : Int) →
        in_bounds src ((src.cols : Int) - 1) j
        ∧ (∃ p ∈ bicubic_reads ((src.cols : Int) - 1) j, ¬ in_image src p)
        ∧ ∀ xp yp : α, bicubic_value src xp yp ((src.cols : Int) - 1) j = none)
    ∧ (2 ≤ src.rows → 2 ≤ src.cols → ∀ (cos sin : α → α) (center : Point),
        cos 0 = 1 → sin 0 = 0 →
        calculate_pixel_value cos sin ((src.cols : Int) - 1) ((src.rows : Int) - 1) 0 center
          src "bicubic" = none) := by
  have part3 : 2 ≤ src.rows → 2 ≤ src.cols → ∀ j : Int, 0 < j → j < (src.rows : Int) →
      in_bounds src ((src.cols : Int) - 1) j
      ∧ (∃ p ∈ bicubic_reads ((src.cols : Int) - 1) j, ¬ in_image src p)
      ∧ ∀ xp yp : α, bicubic_value src xp yp ((src.cols : Int) - 1) j = none := by
    intro hr hc j hj0 hj
    have hb := in_bounds_last src hr hc j hj0 hj
    have hnot : ¬ ∀ p ∈ bicubic_reads ((src.cols : Int) - 1) j, in_image src p := by
      rw [bicubic_reads_iff src _ j hb]
      omega
    refine ⟨hb, by push_neg at hnot; exact hnot, fun xp yp => ?_⟩
    rw [← isSome_false_iff, bicubic_value_isSome_iff]
    exact hnot
  refine ⟨fun i j hb => bicubic_reads_iff src i j hb,
    fun xp yp i j => bicubic_value_isSome_iff src xp yp i j, part3, ?_⟩
  intro hr hc cos sin center hcos hsin
  obtain ⟨e1, e2⟩ := cpv_zero_int cos sin hcos hsin center ((src.cols : Int) - 1)
    ((src.rows : Int) - 1)
  obtain ⟨hb, -, hnone⟩ := part3 hr hc ((src.rows : Int) - 1) (by omega) (by omega)
  rw [cpv_bicubic, e1, e2, if_pos hb, hnone]
  rfl

/-- Witness of `bicubic_reads_bounds`: on the 4x4 ramp the indices `(3, 1)` pass the test
and a read is outside the image. -/
theorem bicubic_reads_bounds_witness :
    2 ≤ ramp.rows ∧ 2 ≤ ramp.cols ∧ in_bounds ramp ((ramp.cols : Int) - 1) 1
    ∧ (∃ p ∈ bicubic_reads ((ramp.cols : Int) - 1) 1, ¬ in_image ramp p)
    ∧ (∀ xp yp : ℚ, bicubic_value ramp xp yp ((ramp.cols : Int) - 1) 1 = none)
    ∧ calculate_pixel_value rcos rsin ((ramp.cols : Int) - 1) ((ramp.rows : Int) - 1) 0
        ⟨1, 1⟩ ramp "bicubic" = none := by
  have h := (bicubic_reads_bounds (α := ℚ) ramp).2.2.1 (by decide) (by decide) 1 (by decide)
    (by decide)
  exact ⟨by decide, by decide, h.1, h.2.1, h.2.2,
    (bicubic_reads_bounds (α := ℚ) ramp).2.2.2 (by decide) (by decide) rcos rsin ⟨1, 1⟩
      rcos_zero rsin_zero⟩

/-! ### The driver and the order of the pixels -/

theorem fill_list_append (f : Nat → Nat → Option uchar) (l1 l2 : List (Nat × Nat))
    (dst : Mat uchar) :
    fill_list f (l1 ++ l2) dst = (fill_list f l1 dst).bind (fill_list f l2) := by
  induction l1 generalizing dst with
  | nil => simp [fill_list]
  | cons p ps ih =>
    simp only [List.cons_append, fill_list, Option.bind_eq_bind]
    cases f p.1 p.2 with
    | none => simp
    | some v =>
      simp only [Option.some_bind]
      cases dst.set? p.1 p.2 v with
      | none => simp
      | some d => simp only [Option.some_bind]; exact ih d

theorem fill_row_eq_list (f : Nat → Nat → Option uchar) (j n : Nat) (dst : Mat uchar) :
    fill_row (f j) j n dst = fill_list f ((List.range n).map (fun i => (j, i))) dst := by
  induction n with
  | zero => simp [fill_row, fill_list]
  | succ n ih =>
    rw [List.range_succ, List.map_append, fill_list_append, ← ih]
    simp only [fill_row, List.map_cons, List.map_nil, Option.bind_eq_bind]
    cases fill_row (f j) j n dst with
    | none => simp
    | some d =>
      simp only [Option.some_bind, fill_list]
      cases f j n with
      | none => simp
      | some v =>
        simp only [Option.some_bind]
        cases hs : d.set? j n v <;> simp [fill_list, hs]

theorem fill_rows_eq_list (f : Nat → Nat → Option uchar) (cols m : Nat) (dst : Mat uchar) :
    fill_rows f cols m dst = fill_list f (rowMajor cols m) dst := by
  induction m with
  | zero => simp [fill_rows, fill_list, rowMajor]
  | succ m ih =>
    simp only [fill_rows, rowMajor, fill_list_append, ih, Option.bind_eq_bind]
    cases fill_list f (rowMajor cols m) dst with
    | none => simp
    | some d => simp only [Option.some_bind]; exact fill_row_eq_list f m cols d

theorem mem_rowMajor (cols m : Nat) (p : Nat × Nat) :
    p ∈ rowMajor cols m ↔ p.1 < m ∧ p.2 < cols := by
  induction m with
  | zero => simp [rowMajor]
  | succ m ih =>
    simp only [rowMajor, List.mem_append, ih, List.mem_map, List.mem_range]
    constructor
    · rintro (⟨h1, h2⟩ | ⟨i, hi, rfl⟩)
      · exact ⟨by omega, h2⟩
      · exact ⟨by simp, hi⟩
    · rintro ⟨h1, h2⟩
      by_cases h : p.1 < m
      · exact Or.inl ⟨h, h2⟩
      · refine Or.inr ⟨p.2, h2, ?_⟩
        have : p.1 = m := by omega
        exact Prod.ext this.symm rfl

/-- When every pixel of the list has a defined value and lies in `dst`, the pixels of the
list receive their values and the other samples of `dst` are kept. -/
theorem fill_list_some (f : Nat → Nat → Option uchar) (l : List (Nat × Nat)) (dst : Mat uchar)
    (h : ∀ p ∈ l, (f p.1 p.2).isSome ∧ p.1 < dst.rows ∧ p.2 < dst.cols) :
    fill_list f l dst = some ⟨dst.rows, dst.cols,
      fun r c => if (r, c) ∈ l then (f r c).getD 255 else dst.data r c⟩ := by
  induction l generalizing dst with
  | nil => simp [fill_list]
  | cons p ps ih =>
    obtain ⟨h1, h2, h3⟩ := h p (List.mem_cons_self _ _)
    obtain ⟨v, hv⟩ := Option.isSome_iff_exists.mp h1
    simp only [fill_list, hv, Option.bind_eq_bind, Option.some_bind, Mat.set?, h2, h3,
      and_self, if_true]
    rw [ih ⟨dst.rows, dst.cols, fun r c => if r = p.1 ∧ c = p.2 then v else dst.data r c⟩
      (fun q hq => h q (List.mem_cons_of_mem _ hq))]
    congr 2
    funext r c
    by_cases hm : (r, c) ∈ ps
    · simp [hm]
    · by_cases he : (r, c) = p
      · have e1 : r = p.1 := by rw [← he]
        have e2 : c = p.2 := by rw [← he]
        subst e1 e2
        simp [hm, hv]
      · have hne : ¬ (r = p.1 ∧ c = p.2) := by
          rintro ⟨e1, e2⟩
          exact he (Prod.ext e1 e2)
        simp [hm, he, hne]

theorem fill_list_none (f : Nat → Nat → Option uchar) (l : List (Nat × Nat)) (dst : Mat uchar)
    (h : ∃ p ∈ l, ¬ ((f p.1 p.2).isSome ∧ p.1 < dst.rows ∧ p.2 < dst.cols)) :
    fill_list f l dst = none := by
  induction l generalizing dst with
  | nil => obtain ⟨p, hp, -⟩ := h; simp at hp
  | cons q qs ih =>
    simp only [fill_list, Option.bind_eq_bind]
    cases hv : f q.1 q.2 with
    | none => simp
    | some v =>
      simp only [Option.some_bind]
      by_cases hq : q.1 < dst.rows ∧ q.2 < dst.cols
      · simp only [Mat.set?, hq, and_self, if_true, Option.some_bind]
        apply ih
        obtain ⟨p, hp, hnot⟩ := h
        rcases List.mem_cons.mp hp with rfl | hp2
        · exact absurd ⟨by rw [hv]; rfl, hq.1, hq.2⟩ hnot
        · exact ⟨p, hp2, hnot⟩
      · simp [Mat.set?, hq]

/-- Two lists holding the same pixels give the same result. -/
theorem fill_list_order (f : Nat → Nat → Option uchar) (l1 l2 : List (Nat × Nat))
    (dst : Mat uchar) (h : ∀ p, p ∈ l1 ↔ p ∈ l2) : fill_list f l1 dst = fill_list f l2 dst := by
  by_cases hall : ∀ p ∈ l1, (f p.1 p.2).isSome ∧ p.1 < dst.rows ∧ p.2 < dst.cols
  · rw [fill_list_some f l1 dst hall,
      fill_list_some f l2 dst (fun p hp => hall p ((h p).mpr hp))]
    congr 2
    funext r c
    by_cases hm : (r, c) ∈ l1
    · rw [if_pos hm, if_pos ((h _).mp hm)]
    · rw [if_neg hm, if_neg (fun hm2 => hm ((h _).mpr hm2))]
  · push_neg at hall
    obtain ⟨p, hp, hnot⟩ := hall
    have hnot2 : ¬ ((f p.1 p.2).isSome ∧ p.1 < dst.rows ∧ p.2 < dst.cols) := by
      rintro ⟨a, b, c⟩
      exact absurd c (not_lt.mpr (hnot a b))
    rw [fill_list_none f l1 dst ⟨p, hp, hnot2⟩,
      fill_list_none f l2 dst ⟨p, (h p).mp hp, hnot2⟩]

/-- Claim C17 (driver postcondition).  When `fill_dst` returns a destination `d`: `d` has
the dimensions of `dst`, for every row `j < src.rows` and column `i < src.cols` the sample
`d(j, i)` is the value of `calculate_pixel_value (i, j, ...)` on the source `src` given to
the call (column index as `x`, row index as `y`; `src` is only read), and every sample of
`dst` outside the source extent is unchanged.  It does return a destination when all these
values are defined and `dst` is at least as large as `src`.  And visiting the pixels of the
extent in any other order, each any number of times, gives the same result. -/
theorem fill_dst_postcondition (cos sin : α → α) (theta : α) (center : Point)
    (src dst : Mat uchar) (interpolation : String) :
    (∀ d : Mat uchar, fill_dst cos sin theta center src dst interpolation = some d →
        d.rows = dst.rows ∧ d.cols = dst.cols
        ∧ (∀ j i : Nat, j < src.rows → i < src.cols →
            calculate_pixel_value cos sin (i : Int) (j : Int) theta center src interpolation
              = some (d.data j i))
        ∧ (∀ j i : Nat, ¬ (j < src.rows ∧ i < src.cols) → d.data j i = dst.data j i))
    ∧ ((∀ j i : Nat, j < src.rows → i < src.cols →
          (calculate_pixel_value cos sin (i : Int) (j : Int) theta center src
            interpolation).isSome) →
        src.rows ≤ dst.rows → src.cols ≤ dst.cols →
        (fill_dst cos sin theta center src dst interpolation).isSome)
    ∧ (∀ order : List (Nat × Nat),
        (∀ p : Nat × Nat, p ∈ order ↔ p.1 < src.rows ∧ p.2 < src.cols) →
        fill_list (fun j i => calculate_pixel_value cos sin (i : Int) (j : Int) theta center
          src interpolation) order dst
          = fill_dst cos sin theta center src dst interpolation) := by
  have hlist : fill_dst cos sin theta center src dst interpolation
      = fill_list (fun j i => calculate_pixel_value cos sin (i : Int) (j : Int) theta center
          src interpolation) (rowMajor src.cols src.rows) dst :=
    fill_rows_eq_list _ src.cols src.rows dst
  refine ⟨?_, ?_, ?_⟩
  · intro d hd
    rw [hlist] at hd
    by_cases hall : ∀ p ∈ rowMajor src.cols src.rows,
        (calculate_pixel_value cos sin (p.2 : Int) (p.1 : Int) theta center src
          interpolation).isSome ∧ p.1 < dst.rows ∧ p.2 < dst.cols
    · rw [fill_list_some _ _ dst hall] at hd
      have hd2 := Option.some.inj hd
      subst hd2
      refine ⟨rfl, rfl, ?_, ?_⟩
      · intro j i hj hi
        have hm : (j, i) ∈ rowMajor src.cols src.rows :=
          (mem_rowMajor _ _ _).mpr ⟨hj, hi⟩
        obtain ⟨v, hv⟩ := Option.isSome_iff_exists.mp (hall _ hm).1
        simp only [hm, if_true]
        simp only at hv
        rw [hv]; rfl
      · intro j i hji
        have hm : ¬ (j, i) ∈ rowMajor src.cols src.rows := by
          rw [mem_rowMajor]; exact hji
        simp only [hm, if_false]
    · push_neg at hall
      obtain ⟨p, hp, hnot⟩ := hall
      have hnot2 : ¬ ((calculate_pixel_value cos sin (p.2 : Int) (p.1 : Int) theta center src
          interpolation).isSome ∧ p.1 < dst.rows ∧ p.2 < dst.cols) := by
        rintro ⟨a, b, c⟩
        exact absurd c (not_lt.mpr (hnot a b))
      rw [fill_list_none _ _ dst ⟨p, hp, hnot2⟩] at hd
      exact absurd hd (by simp)
  · intro hdef hr hc
    rw [hlist, fill_list_some _ _ dst]
    · rfl
    · intro p hp
      obtain ⟨h1, h2⟩ := (mem_rowMajor _ _ _).mp hp
      exact ⟨hdef p.1 p.2 h1 h2, by omega, by omega⟩
  · intro order horder
    rw [hlist]
    apply fill_list_order
    intro p
    rw [horder, mem_rowMajor]

/-- Witness of `fill_dst_postcondition`: the 4x4 ramp turned by a quarter turn about
`(1, 1)` in mode `"neighbor"`; the column-by-column order of the 16 pixels gives the same
destination. -/
theorem fill_dst_postcondition_witness :
    (∀ p : Nat × Nat,
        p ∈ (rowMajor 4 4).map (fun q => (q.2, q.1)) ↔ p.1 < ramp.rows ∧ p.2 < ramp.cols)
    ∧ fill_list (fun j i => calculate_pixel_value rcos rsin (i : Int) (j : Int) 1 ⟨1, 1⟩
          ramp "neighbor") ((rowMajor 4 4).map (fun q => (q.2, q.1))) ramp
        = fill_dst rcos rsin 1 ⟨1, 1⟩ ramp ramp "neighbor"
    ∧ (fill_dst rcos rsin 1 ⟨1, 1⟩ ramp ramp "neighbor").isSome := by
  have horder : ∀ p : Nat × Nat,
      p ∈ (rowMajor 4 4).map (fun q => (q.2, q.1)) ↔ p.1 < ramp.rows ∧ p.2 < ramp.cols := by
    intro p
    simp only [List.mem_map, mem_rowMajor]
    constructor
    · rintro ⟨q, ⟨h1, h2⟩, rfl⟩
      exact ⟨h2, h1⟩
    · rintro ⟨h1, h2⟩
      exact ⟨(p.2, p.1), ⟨h2, h1⟩, rfl⟩
  have key := fill_dst_postcondition rcos rsin 1 ⟨1, 1⟩ ramp ramp "neighbor"
  refine ⟨horder, key.2.2 _ horder, key.2.1 ?_ le_rfl le_rfl⟩
  intro j i _ _
  rw [cpv_quarter_neighbor rcos rsin 1 rcos_neg_one rsin_neg_one]
  rfl

/-! ### The rounding to binary32 -/

theorem bitLength_spec (fuel a : Nat) (h : a ≤ fuel) :
    a < 2 ^ bitLength fuel a ∧ (a ≠ 0 → 2 ^ (bitLength fuel a - 1) ≤ a) := by
  induction fuel generalizing a with
  | zero =>
    have : a = 0 := by omega
    subst this
    simp [bitLength]
  | succ fuel ih =>
    unfold bitLength
    by_cases ha : a = 0
    · subst ha
      simp
    · rw [if_neg ha]
      obtain ⟨h1, h2⟩ := ih (a / 2) (by omega)
      constructor
      · rw [pow_succ]
        omega
      · intro _
        simp only [Nat.add_sub_cancel]
        by_cases h0 : a / 2 = 0
        · have hb : bitLength fuel (a / 2) = 0 := by
            rw [h0]
            cases fuel <;> simp [bitLength]
          rw [hb]
          simp
          omega
        · have h3 := h2 h0
          have hpos : 0 < bitLength fuel (a / 2) := by
            by_contra hc
            have hz : bitLength fuel (a / 2) = 0 := by omega
            rw [hz] at h1
            simp at h1
            exact h0 h1
          have e : bitLength fuel (a / 2) = (bitLength fuel (a / 2) - 1) + 1 := by omega
          rw [e, pow_succ]
          omega

/-- The rounding keeps the value within half a unit of the last place kept: with `k` the
number of low bits dropped, the result is a multiple of `2^k` (in units of `2^-(149+u)`) at
distance at most `2^k / 2` from the exact value, with an even multiplier when the distance
is exactly `2^k / 2`, and the multiplier has at most 24 bits (or is `2^24`). -/
theorem round32_nearest (u : Nat) (n : Int) :
    ∃ k q : Nat, k = max (bitLength n.natAbs n.natAbs - 24) u
      ∧ round32 u n * (2 ^ u : Nat) = Int.sign n * ((q * 2 ^ k : Nat) : Int)
      ∧ 2 * (((q * 2 ^ k : Nat) : Int) - (n.natAbs : Int)).natAbs ≤ 2 ^ k
      ∧ (2 * (((q * 2 ^ k : Nat) : Int) - (n.natAbs : Int)).natAbs = 2 ^ k → q % 2 = 0)
      ∧ q ≤ 2 ^ 24 := by
  set a := n.natAbs with ha
  set k := max (bitLength a a - 24) u with hk
  have hku : u ≤ k := le_max_right _ _
  have hdm := Nat.div_add_mod a (2 ^ k)
  have hpos : 0 < 2 ^ k := Nat.two_pow_pos k
  have hmod : a % 2 ^ k < 2 ^ k := Nat.mod_lt _ hpos
  have hlt : a < 2 ^ bitLength a a := (bitLength_spec a a le_rfl).1
  have hq : a / 2 ^ k < 2 ^ (bitLength a a - k) ∨ bitLength a a < k := by
    by_cases hb : k ≤ bitLength a a
    · left
      rw [Nat.div_lt_iff_lt_mul hpos, ← pow_add, Nat.sub_add_cancel hb]
      exact hlt
    · right
      omega
  have hq2 : a / 2 ^ k ≤ 2 ^ (bitLength a a - k) ∧ (a / 2 ^ k + 1 ≤ 2 ^ (bitLength a a - k)
      ∨ a / 2 ^ k = 0) := by
    rcases hq with h | h
    · exact ⟨le_of_lt h, Or.inl h⟩
    · have hz : a / 2 ^ k = 0 := by
        apply Nat.div_eq_of_lt
        exact lt_of_lt_of_le hlt (Nat.pow_le_pow_right (by norm_num) (le_of_lt h))
      exact ⟨by rw [hz]; exact Nat.zero_le _, Or.inr hz⟩
  have h24 : (2 : Nat) ^ (bitLength a a - k) ≤ 2 ^ 24 := by
    apply Nat.pow_le_pow_right (by norm_num)
    have : bitLength a a - 24 ≤ k := le_max_left _ _
    omega
  have hsplit : (2 ^ (k - u) : Nat) * 2 ^ u = 2 ^ k := by
    rw [← pow_add, Nat.sub_add_cancel hku]
  by_cases hup : 2 ^ k < 2 * (a % 2 ^ k) ∨ (2 * (a % 2 ^ k) = 2 ^ k ∧ a / 2 ^ k % 2 = 1)
  · refine ⟨k, a / 2 ^ k + 1, rfl, ?_, ?_, ?_, ?_⟩
    · simp only [round32, ← ha, ← hk, if_pos hup]
      rw [mul_assoc]
      congr 1
      rw [← Nat.cast_mul, mul_assoc, hsplit]
    · have e : (((a / 2 ^ k + 1) * 2 ^ k : Nat) : Int) - (a : Int)
          = ((2 ^ k - a % 2 ^ k : Nat) : Int) := by
        rw [Nat.cast_sub (le_of_lt hmod)]
        have : (a : Int) = ((2 ^ k * (a / 2 ^ k) + a % 2 ^ k : Nat) : Int) := by rw [hdm]
        rw [this]
        push_cast
        ring
      rw [e, Int.natAbs_ofNat]
      omega
    · have e : (((a / 2 ^ k + 1) * 2 ^ k : Nat) : Int) - (a : Int)
          = ((2 ^ k - a % 2 ^ k : Nat) : Int) := by
        rw [Nat.cast_sub (le_of_lt hmod)]
        have : (a : Int) = ((2 ^ k * (a / 2 ^ k) + a % 2 ^ k : Nat) : Int) := by rw [hdm]
        rw [this]
        push_cast
        ring
      rw [e, Int.natAbs_ofNat]
      omega
    · rcases hq2.2 with h | h
      · exact le_trans h h24
      · rw [h]
        exact Nat.one_le_two_pow
  · refine ⟨k, a / 2 ^ k, rfl, ?_, ?_, ?_, le_trans hq2.1 h24⟩
    · simp only [round32, ← ha, ← hk, if_neg hup]
      rw [mul_assoc]
      congr 1
      rw [← Nat.cast_mul, mul_assoc, hsplit]
    · have e : (((a / 2 ^ k) * 2 ^ k : Nat) : Int) - (a : Int)
          = -((a % 2 ^ k : Nat) : Int) := by
        have : (a : Int) = ((2 ^ k * (a / 2 ^ k) + a % 2 ^ k : Nat) : Int) := by rw [hdm]
        rw [this]
        push_cast
        ring
      rw [e, Int.natAbs_neg, Int.natAbs_ofNat]
      push_neg at hup
      omega
    · have e : (((a / 2 ^ k) * 2 ^ k : Nat) : Int) - (a : Int)
          = -((a % 2 ^ k : Nat) : Int) := by
        have : (a : Int) = ((2 ^ k * (a / 2 ^ k) + a % 2 ^ k : Nat) : Int) := by rw [hdm]
        rw [this]
        push_cast
        ring
      rw [e, Int.natAbs_neg, Int.natAbs_ofNat]
      push_neg at hup
      intro htie
      have := hup.2 htie
      omega

/-- Four roundings at the ties and next to them: `1 + 2^-24` is halfway between 1 and
`1 + 2^-23` and rounds to 1 (even), `1 + 2^-23 + 2^-24` rounds up to `1 + 2^-22` (even),
`1 - 2^-25` is halfway between `1 - 2^-24` and 1 and rounds to 1, and the integer
`2^24 + 1` converts to `2^24`. -/
theorem round32_ties :
    fadd (ofInt32 1) (2 ^ 125 : Nat) = ofInt32 1
    ∧ fadd (fadd (ofInt32 1) (2 ^ 126 : Nat)) (2 ^ 125 : Nat) = ((2 ^ 149 + 2 ^ 127 : Nat) : Int)
    ∧ fsub (ofInt32 1) (2 ^ 124 : Nat) = ofInt32 1
    ∧ ofInt32 16777217 = ofInt32 16777216 := by
  set_option maxRecDepth 100000 in
  decide

/-! ### Rotation by the machine quarter turn, in binary32 -/

set_option maxRecDepth 100000 in
set_option exponentiation.threshold 1000 in
theorem quarter_index_one :
    quarter_index ⟨1, 1⟩ 0 0 = (2, 0)
    ∧ quarter_index ⟨1, 1⟩ 1 0 = (2, 1)
    ∧ quarter_index ⟨1, 1⟩ 2 0 = (2, 2)
    ∧ quarter_index ⟨1, 1⟩ 3 0 = (1, 3)
    ∧ quarter_index ⟨1, 1⟩ 0 1 = (1, 0)
    ∧ quarter_index ⟨1, 1⟩ 1 1 = (1, 0)
    ∧ quarter_index ⟨1, 1⟩ 2 1 = (0, 2)
    ∧ quarter_index ⟨1, 1⟩ 3 1 = (0, 3)
    ∧ quarter_index ⟨1, 1⟩ 0 2 = (0, -1)
    ∧ quarter_index ⟨1, 1⟩ 1 2 = (0, 0)
    ∧ quarter_index ⟨1, 1⟩ 2 2 = (0, 1)
    ∧ quarter_index ⟨1, 1⟩ 3 2 = (-1, 3)
    ∧ quarter_index ⟨1, 1⟩ 0 3 = (-1, -1)
    ∧ quarter_index ⟨1, 1⟩ 1 3 = (-1, 0)
    ∧ quarter_index ⟨1, 1⟩ 2 3 = (-1, 1)
    ∧ quarter_index ⟨1, 1⟩ 3 3 = (-2, 2) := by
  decide

set_option maxRecDepth 100000 in
set_option exponentiation.threshold 1000 in
theorem quarter_index_two :
    quarter_index ⟨2, 2⟩ 0 0 = (4, 0)
    ∧ quarter_index ⟨2, 2⟩ 1 0 = (4, 1)
    ∧ quarter_index ⟨2, 2⟩ 2 0 = (4, 2)
    ∧ quarter_index ⟨2, 2⟩ 3 0 = (4, 3)
    ∧ quarter_index ⟨2, 2⟩ 0 1 = (3, 0)
    ∧ quarter_index ⟨2, 2⟩ 1 1 = (3, 1)
    ∧ quarter_index ⟨2, 2⟩ 2 1 = (3, 2)
    ∧ quarter_index ⟨2, 2⟩ 3 1 = (3, 3)
    ∧ quarter_index ⟨2, 2⟩ 0 2 = (2, 0)
    ∧ quarter_index ⟨2, 2⟩ 1 2 = (2, 1)
    ∧ quarter_index ⟨2, 2⟩ 2 2 = (2, 1)
    ∧ quarter_index ⟨2, 2⟩ 3 2 = (1, 3)
    ∧ quarter_index ⟨2, 2⟩ 0 3 = (1, -1)
    ∧ quarter_index ⟨2, 2⟩ 1 3 = (1, 0)
    ∧ quarter_index ⟨2, 2⟩ 2 3 = (1, 1)
    ∧ quarter_index ⟨2, 2⟩ 3 3 = (0, 2) := by
  decide

theorem cpv32_quarter (cos sin : Binary32 → Binary32)
    (hc : cos (fneg theta_quarter) = cos_quarter) (hs : sin (fneg theta_quarter) = sin_quarter)
    (center : Point) (src : Mat uchar) (x y : Int) :
    calculate_pixel_value_neighbor32 cos sin x y theta_quarter center src =
      some (if in_bounds src (quarter_index center x y).1 (quarter_index center x y).2 then
        src.data (quarter_index center x y).2.toNat (quarter_index center x y).1.toNat
      else 255) := by
  have hx : x_p32 cos sin x y theta_quarter center
      = x_p32 cos_table sin_table x y theta_quarter center := by
    simp only [x_p32, hc, hs, cos_table, sin_table]
  have hy : y_p32 cos sin x y theta_quarter center
      = y_p32 cos_table sin_table x y theta_quarter center := by
    simp only [y_p32, hc, hs, cos_table, sin_table]
  simp only [calculate_pixel_value_neighbor32, hx, hy]
  by_cases h : in_bounds src (quarter_index center x y).1 (quarter_index center x y).2
  · obtain ⟨hi, hj, hcol, hr⟩ := h
    have h2 : in_bounds src (floor32 (x_p32 cos_table sin_table x y theta_quarter center))
        (floor32 (y_p32 cos_table sin_table x y theta_quarter center)) := ⟨hi, hj, hcol, hr⟩
    rw [if_pos h2, if_pos ⟨hi, hj, hcol, hr⟩]
    exact at?_of_lt src _ _ (le_of_lt hj) hr (le_of_lt hi) hcol
  · have h2 : ¬ in_bounds src (floor32 (x_p32 cos_table sin_table x y theta_quarter center))
        (floor32 (y_p32 cos_table sin_table x y theta_quarter center)) := h
    rw [if_neg h2, if_neg h]
    rfl

theorem fill_dst_neighbor32_quarter (cos sin : Binary32 → Binary32)
    (hc : cos (fneg theta_quarter) = cos_quarter) (hs : sin (fneg theta_quarter) = sin_quarter)
    (center : Point) (src dst : Mat uchar) (hr : src.rows ≤ dst.rows)
    (hcol : src.cols ≤ dst.cols) :
    fill_dst_neighbor32 cos sin theta_quarter center src dst =
      some ⟨dst.rows, dst.cols, fun y x =>
        if y < src.rows ∧ x < src.cols then
          (if in_bounds src (quarter_index center x y).1 (quarter_index center x y).2 then
            src.data (quarter_index center x y).2.toNat (quarter_index center x y).1.toNat
          else 255)
        else dst.data y x⟩ :=
  fill_rows_eq _ _ src.cols src.rows dst
    (fun j i _ _ => cpv32_quarter cos sin hc hs center src i j) hr hcol

theorem toRows_four {β : Type} (m : Mat β) (hr : m.rows = 4) (hc : m.cols = 4) :
    m.toRows = [[m.data 0 0, m.data 0 1, m.data 0 2, m.data 0 3],
      [m.data 1 0, m.data 1 1, m.data 1 2, m.data 1 3],
      [m.data 2 0, m.data 2 1, m.data 2 2, m.data 2 3],
      [m.data 3 0, m.data 3 1, m.data 3 2, m.data 3 3]] := by
  simp [Mat.toRows, hr, hc, List.range_succ]

/-- The output of `fill_dst` at the machine quarter turn about `(1, 1)`, mode `"neighbor"`,
for a 4x4 source and a 4x4 destination. -/
theorem quarter32_center_one (cos sin : Binary32 → Binary32)
    (hc : cos (fneg theta_quarter) = cos_quarter) (hs : sin (fneg theta_quarter) = sin_quarter)
    (src dst : Mat uchar) (hsr : src.rows = 4) (hsc : src.cols = 4) (hdr : dst.rows = 4)
    (hdc : dst.cols = 4) :
    ∃ d : Mat uchar, fill_dst_neighbor32 cos sin theta_quarter ⟨1, 1⟩ src dst = some d
      ∧ d.rows = 4 ∧ d.cols = 4
      ∧ d.toRows = [[255, src.data 1 2, src.data 2 2, src.data 3 1],
          [255, 255, 255, 255], [255, 255, 255, 255], [255, 255, 255, 255]] := by
  refine ⟨_, fill_dst_neighbor32_quarter cos sin hc hs ⟨1, 1⟩ src dst (by omega) (by omega),
    hdr, hdc, ?_⟩
  obtain ⟨h00, h10, h20, h30, h01, h11, h21, h31, h02, h12, h22, h32, h03, h13, h23, h33⟩ :=
    quarter_index_one
  rw [toRows_four]
  · simp [hsr, hsc, in_bounds, h00, h10, h20, h30, h01, h11, h21, h31, h02, h12, h22, h32,
      h03, h13, h23, h33]
  · exact hdr
  · exact hdc

/-- The output of `fill_dst` at the machine quarter turn about `(2, 2)`, mode `"neighbor"`,
for a 4x4 source and a 4x4 destination. -/
theorem quarter32_center_two (cos sin : Binary32 → Binary32)
    (hc : cos (fneg theta_quarter) = cos_quarter) (hs : sin (fneg theta_quarter) = sin_quarter)
    (src dst : Mat uchar) (hsr : src.rows = 4) (hsc : src.cols = 4) (hdr : dst.rows = 4)
    (hdc : dst.cols = 4) :
    ∃ d : Mat uchar, fill_dst_neighbor32 cos sin theta_quarter ⟨2, 2⟩ src dst = some d
      ∧ d.rows = 4 ∧ d.cols = 4
      ∧ d.toRows = [[255, 255, 255, 255],
          [255, src.data 1 3, src.data 2 3, src.data 3 3],
          [255, src.data 1 2, src.data 1 2, src.data 3 1],
          [255, 255, src.data 1 1, 255]] := by
  refine ⟨_, fill_dst_neighbor32_quarter cos sin hc hs ⟨2, 2⟩ src dst (by omega) (by omega),
    hdr, hdc, ?_⟩
  obtain ⟨h00, h10, h20, h30, h01, h11, h21, h31, h02, h12, h22, h32, h03, h13, h23, h33⟩ :=
    quarter_index_two
  rw [toRows_four]
  · simp [hsr, hsc, in_bounds, h00, h10, h20, h30, h01, h11, h21, h31, h02, h12, h22, h32,
      h03, h13, h23, h33]
  · exact hdr
  · exact hdc

/-- Claim C3, counterexample.  In binary32, with the library values of the cosine and sine
at the machine quarter turn, the 4x4 ramp rotated in mode `"neighbor"` about the center
`(1, 1)` (what `Point(1.5, 1.5)` holds after the conversion to `int`) has the background 255
at row 0, column 0 and on the whole of rows 1 to 3, and rotated about `(2, 2)` it has 255 at
row 0, column 0 as well; the source sample at row 0, column 3 is 51. -/
theorem quarter_turn32_counterexample :
    (fill_dst_neighbor32 cos_table sin_table theta_quarter ⟨1, 1⟩ ramp ramp).map Mat.toRows
        = some [[255, 102, 170, 221], [255, 255, 255, 255], [255, 255, 255, 255],
            [255, 255, 255, 255]]
    ∧ (fill_dst_neighbor32 cos_table sin_table theta_quarter ⟨2, 2⟩ ramp ramp).map Mat.toRows
        = some [[255, 255, 255, 255], [255, 119, 187, 255], [255, 102, 102, 221],
            [255, 255, 85, 255]]
    ∧ ramp.data 0 3 = 51 := by
  refine ⟨?_, ?_, rfl⟩
  · obtain ⟨d, h1, -, -, h2⟩ :=
      quarter32_center_one cos_table sin_table rfl rfl ramp ramp rfl rfl rfl rfl
    rw [h1, Option.map_some', h2]
    rfl
  · obtain ⟨d, h1, -, -, h2⟩ :=
      quarter32_center_two cos_table sin_table rfl rfl ramp ramp rfl rfl rfl rfl
    rw [h1, Option.map_some', h2]
    rfl

/-- Claim C3, amended (90-degree scenario in binary32).  For a 4x4 source and a 4x4
destination, `fill_dst` in mode `"neighbor"` with `theta` the binary32 number nearest to
`π / 2`, for which the library returns `cos (-theta) = -0x1.777a5cp-25` and
`sin (-theta) = -1`, returns a 4x4 raster; about the center `(1, 1)` its rows are
`[255, src(1,2), src(2,2), src(3,1)]` and three rows of 255; about the center `(2, 2)` they
are `[255, 255, 255, 255]`, `[255, src(1,3), src(2,3), src(3,3)]`,
`[255, src(1,2), src(1,2), src(3,1)]` and `[255, 255, src(1,1), 255]`, where `src(r,c)` is
the source sample at row `r`, column `c` and 255 is the background. -/
theorem quarter_turn32 (cos sin : Binary32 → Binary32)
    (hc : cos (fneg theta_quarter) = cos_quarter) (hs : sin (fneg theta_quarter) = sin_quarter)
    (src dst : Mat uchar) (hsr : src.rows = 4) (hsc : src.cols = 4) (hdr : dst.rows = 4)
    (hdc : dst.cols = 4) :
    (∃ d : Mat uchar, fill_dst_neighbor32 cos sin theta_quarter ⟨1, 1⟩ src dst = some d
      ∧ d.rows = 4 ∧ d.cols = 4
      ∧ d.toRows = [[255, src.data 1 2, src.data 2 2, src.data 3 1],
          [255, 255, 255, 255], [255, 255, 255, 255], [255, 255, 255, 255]])
    ∧ (∃ d : Mat uchar, fill_dst_neighbor32 cos sin theta_quarter ⟨2, 2⟩ src dst = some d
      ∧ d.rows = 4 ∧ d.cols = 4
      ∧ d.toRows = [[255, 255, 255, 255],
          [255, src.data 1 3, src.data 2 3, src.data 3 3],
          [255, src.data 1 2, src.data 1 2, src.data 3 1],
          [255, 255, src.data 1 1, 255]]) :=
  ⟨quarter32_center_one cos sin hc hs src dst hsr hsc hdr hdc,
    quarter32_center_two cos sin hc hs src dst hsr hsc hdr hdc⟩

/-- Witness of `quarter_turn32`: the 4x4 ramp, with the table of the library values. -/
theorem quarter_turn32_witness :
    cos_table (fneg theta_quarter) = cos_quarter ∧ sin_table (fneg theta_quarter) = sin_quarter
    ∧ ramp.rows = 4 ∧ ramp.cols = 4
    ∧ (∃ d : Mat uchar,
        fill_dst_neighbor32 cos_table sin_table theta_quarter ⟨1, 1⟩ ramp ramp = some d
        ∧ d.rows = 4 ∧ d.cols = 4
        ∧ d.toRows = [[255, ramp.data 1 2, ramp.data 2 2, ramp.data 3 1],
            [255, 255, 255, 255], [255, 255, 255, 255], [255, 255, 255, 255]])
    ∧ (∃ d : Mat uchar,
        fill_dst_neighbor32 cos_table sin_table theta_quarter ⟨2, 2⟩ ramp ramp = some d
        ∧ d.rows = 4 ∧ d.cols = 4
        ∧ d.toRows = [[255, 255, 255, 255],
            [255, ramp.data 1 3, ramp.data 2 3, ramp.data 3 3],
            [255, ramp.data 1 2, ramp.data 1 2, ramp.data 3 1],
            [255, 255, ramp.data 1 1, 255]]) :=
  ⟨rfl, rfl, rfl, rfl,
    quarter_turn32 cos_table sin_table rfl rfl ramp ramp rfl rfl rfl rfl⟩

end RemapTheorems

section ConvolutionTheorems

set_option linter.unusedSectionVars false

variable {α : Type} [LinearOrderedField α] [FloorRing α]
variable {F : Type} [Field F] [Algebra α F]

/-! ### Padding and the transforms -/

theorem searchOptimal_ge (fuel n : Nat) : n ≤ searchOptimal fuel n := by
  induction fuel generalizing n with
  | zero => simp [searchOptimal]
  | succ f ih =>
    unfold searchOptimal
    split_ifs
    · exact le_rfl
    · exact le_trans (Nat.le_succ n) (ih (n + 1))

theorem getOptimalDFTSize_ge (v : Int) (hv : 0 ≤ v) : v ≤ getOptimalDFTSize v := by
  unfold getOptimalDFTSize
  rw [if_neg (not_lt.mpr hv)]
  have := searchOptimal_ge (v.toNat + 1) v.toNat
  omega

theorem padRows_ge (image kernel : Mat α) (hk : 0 < kernel.rows) :
    image.rows + kernel.rows - 1 ≤ padRows image kernel := by
  have := getOptimalDFTSize_ge ((image.rows : Int) + kernel.rows - 1) (by omega)
  unfold padRows
  omega

theorem padCols_ge (image kernel : Mat α) (hk : 0 < kernel.cols) :
    image.cols + kernel.cols - 1 ≤ padCols image kernel := by
  have := getOptimalDFTSize_ge ((image.cols : Int) + kernel.cols - 1) (by omega)
  unfold padCols
  omega

theorem copyMakeBorder_eq (m : Mat α) (rows cols : Nat) (hr : m.rows ≤ rows)
    (hc : m.cols ≤ cols) :
    copyMakeBorder m 0 ((rows : Int) - m.rows) 0 ((cols : Int) - m.cols)
      = some (zeroPad m rows cols) := by
  unfold copyMakeBorder zeroPad
  rw [if_pos ⟨le_rfl, by omega, le_rfl, by omega⟩]
  congr 1
  have e1 : m.rows + (0 : Int).toNat + ((rows : Int) - m.rows).toNat = rows := by
    simp; omega
  have e2 : m.cols + (0 : Int).toNat + ((cols : Int) - m.cols).toNat = cols := by
    simp; omega
  rw [e1, e2]
  congr 1
  funext r c
  simp

theorem DFT_eq (ω : Nat → F) (image kernel : Mat α) (hir : 0 < image.rows)
    (hic : 0 < image.cols) (hkr : 0 < kernel.rows) (hkc : 0 < kernel.cols) :
    DFT ω image kernel =
      some (dft ω (zeroPad image (padRows image kernel) (padCols image kernel)),
        dft ω (zeroPad kernel (padRows image kernel) (padCols image kernel))) := by
  have h1 := padRows_ge image kernel hkr
  have h2 := padCols_ge image kernel hkc
  have g1 := getOptimalDFTSize_ge ((image.rows : Int) + kernel.rows - 1) (by omega)
  have g2 := getOptimalDFTSize_ge ((image.cols : Int) + kernel.cols - 1) (by omega)
  have e1 : getOptimalDFTSize ((image.rows : Int) + kernel.rows - 1)
      = ((padRows image kernel : Nat) : Int) := by
    unfold padRows; omega
  have e2 : getOptimalDFTSize ((image.cols : Int) + kernel.cols - 1)
      = ((padCols image kernel : Nat) : Int) := by
    unfold padCols; omega
  simp only [DFT, e1, e2, Option.bind_eq_bind, Option.pure_def,
    copyMakeBorder_eq image _ _ (by omega : image.rows ≤ padRows image kernel)
      (by omega : image.cols ≤ padCols image kernel),
    copyMakeBorder_eq kernel _ _ (by omega : kernel.rows ≤ padRows image kernel)
      (by omega : kernel.cols ≤ padCols image kernel), Option.some_bind]

theorem inverse_raw_eq (ω : Nat → F) (re : F →ₗ[α] α) (image kernel : Mat α)
    (hir : 0 < image.rows) (hic : 0 < image.cols) (hkr : 0 < kernel.rows)
    (hkc : 0 < kernel.cols) :
    inverse_raw ω re image kernel =
      some (idft ω re ⟨padRows image kernel, padCols image kernel, fun k1 k2 =>
        (dft ω (zeroPad image (padRows image kernel) (padCols image kernel))).data k1 k2
          * (dft ω (zeroPad kernel (padRows image kernel) (padCols image kernel))).data k1 k2⟩)
      := by
  simp only [inverse_raw, DFT_eq ω image kernel hir hic hkr hkc, Option.bind_eq_bind,
    Option.some_bind, mulSpectrums, dft, zeroPad, and_self, if_true, Option.pure_def]


theorem zeroPad_scale (a : α) (m : Mat α) (rows cols : Nat) :
    zeroPad (m.scale a) rows cols = (zeroPad m rows cols).scale a := by
  simp only [zeroPad, Mat.scale]
  congr 1
  funext r c
  by_cases h : r < m.rows ∧ c < m.cols <;> simp [h]

theorem dft_scale (ω : Nat → F) (a : α) (m : Mat α) (k1 k2 : Nat) :
    (dft ω (m.scale a)).data k1 k2 = algebraMap α F a * (dft ω m).data k1 k2 := by
  simp only [dft, Mat.scale, map_mul, Finset.mul_sum]
  refine Finset.sum_congr rfl (fun n1 _ => Finset.sum_congr rfl (fun n2 _ => ?_))
  ring

theorem re_algebraMap_mul (re : F →ₗ[α] α) (a : α) (z : F) :
    re (algebraMap α F a * z) = a * re z := by
  rw [← Algebra.smul_def, map_smul, smul_eq_mul]

theorem inverse_raw_scale (ω : Nat → F) (re : F →ₗ[α] α) (image kernel : Mat α) (a : α)
    (hir : 0 < image.rows) (hic : 0 < image.cols) (hkr : 0 < kernel.rows)
    (hkc : 0 < kernel.cols) :
    ∃ raw : Mat α, inverse_raw ω re image kernel = some raw
      ∧ inverse_raw ω re (image.scale a) kernel = some (raw.scale a)
      ∧ raw.rows = padRows image kernel ∧ raw.cols = padCols image kernel := by
  refine ⟨_, inverse_raw_eq ω re image kernel hir hic hkr hkc, ?_, rfl, rfl⟩
  rw [inverse_raw_eq ω re (image.scale a) kernel hir hic hkr hkc]
  have e1 : padRows (image.scale a) kernel = padRows image kernel := rfl
  have e2 : padCols (image.scale a) kernel = padCols image kernel := rfl
  rw [e1, e2, zeroPad_scale]
  simp only [idft, dft_scale]
  simp only [Mat.scale]
  congr 2
  funext n1 n2
  rw [← re_algebraMap_mul, Finset.mul_sum]
  congr 1
  refine Finset.sum_congr rfl (fun k1 _ => ?_)
  rw [Finset.mul_sum]
  refine Finset.sum_congr rfl (fun k2 _ => ?_)
  ring

/-! ### Min-max normalization -/

theorem foldl_min_mul (a : α) (ha : 0 ≤ a) (l : List α) (v : α) :
    (l.map (fun x => a * x)).foldl min (a * v) = a * l.foldl min v := by
  induction l generalizing v with
  | nil => rfl
  | cons w ws ih =>
    simp only [List.map_cons, List.foldl_cons]
    rw [← mul_min_of_nonneg _ _ ha]
    exact ih (min v w)

theorem foldl_max_mul (a : α) (ha : 0 ≤ a) (l : List α) (v : α) :
    (l.map (fun x => a * x)).foldl max (a * v) = a * l.foldl max v := by
  induction l generalizing v with
  | nil => rfl
  | cons w ws ih =>
    simp only [List.map_cons, List.foldl_cons]
    rw [← mul_max_of_nonneg _ _ ha]
    exact ih (max v w)

theorem listMin_mul (a : α) (ha : 0 ≤ a) (l : List α) :
    listMin (l.map (fun x => a * x)) = a * listMin l := by
  cases l with
  | nil => show (0 : α) = a * 0; rw [mul_zero]
  | cons v vs => exact foldl_min_mul a ha vs v

theorem listMax_mul (a : α) (ha : 0 ≤ a) (l : List α) :
    listMax (l.map (fun x => a * x)) = a * listMax l := by
  cases l with
  | nil => show (0 : α) = a * 0; rw [mul_zero]
  | cons v vs => exact foldl_max_mul a ha vs v

theorem entries_scale (a : α) (m : Mat α) :
    (m.scale a).entries = m.entries.map (fun x => a * x) := by
  simp [Mat.entries, Mat.scale, List.map_map, Function.comp_def]

theorem entries_congr (m n : Mat α) (hr : m.rows = n.rows) (hc : m.cols = n.cols)
    (h : ∀ r c, r < m.rows → c < m.cols → m.data r c = n.data r c) :
    m.entries = n.entries := by
  unfold Mat.entries
  rw [← hr, ← hc]
  apply List.map_congr_left
  intro k hk
  have hk2 : k < m.rows * m.cols := List.mem_range.mp hk
  have hc0 : 0 < m.cols := by
    rcases Nat.eq_zero_or_pos m.cols with h0 | h0
    · rw [h0] at hk2; simp at hk2
    · exact h0
  apply h
  · exact Nat.div_lt_of_lt_mul (by rw [Nat.mul_comm]; exact hk2)
  · exact Nat.mod_lt _ hc0

theorem scale_data (a : α) (m : Mat α) (r c : Nat) :
    (m.scale a).data r c = a * m.data r c := rfl

/-- Min-max normalization does not see a positive scaling of its input. -/
theorem normalize_scale (eps : α) (heps : 0 ≤ eps) (m : Mat α) (a : α) (ha : 0 < a)
    (h1 : eps < listMax m.entries - listMin m.entries) (r c : Nat) :
    (a * (listMax m.entries - listMin m.entries) ≤ eps →
      (normalize eps (m.scale a) 255 0).data r c = 0)
    ∧ (eps < a * (listMax m.entries - listMin m.entries) →
      (normalize eps (m.scale a) 255 0).data r c = (normalize eps m 255 0).data r c) := by
  have hpos : 0 < listMax m.entries - listMin m.entries := lt_of_le_of_lt heps h1
  have hne : listMax m.entries - listMin m.entries ≠ 0 := ne_of_gt hpos
  have hne2 : a * listMax m.entries - a * listMin m.entries ≠ 0 := by
    rw [← mul_sub]; exact mul_ne_zero (ne_of_gt ha) hne
  constructor
  · intro h2
    have h3 : ¬ eps < a * listMax m.entries - a * listMin m.entries := by
      rw [← mul_sub]; exact not_lt.mpr h2
    simp only [normalize, entries_scale, listMin_mul a (le_of_lt ha),
      listMax_mul a (le_of_lt ha), gt_iff_lt, h3, if_false, scale_data]
    simp [cvRound]
  · intro h2
    have h3 : eps < a * listMax m.entries - a * listMin m.entries := by
      rw [← mul_sub]; exact h2
    simp only [normalize, entries_scale, listMin_mul a (le_of_lt ha),
      listMax_mul a (le_of_lt ha), gt_iff_lt, h1, h3, if_true, scale_data]
    congr 1
    field_simp
    ring

/-- Orthogonality of the powers of a primitive root of unity. -/
theorem root_orthogonality (z : F) (N : Nat) (hz : IsPrimitiveRoot z N) (n m : Nat)
    (hn : n < N) (hm : m < N) :
    ∑ k in Finset.range N, z ^ (n * k) * z⁻¹ ^ (m * k) = if n = m then (N : F) else 0 := by
  have hN : N ≠ 0 := by omega
  have hz0 : z ≠ 0 := hz.ne_zero hN
  have hterm : ∀ k, z ^ (n * k) * z⁻¹ ^ (m * k) = (z ^ n * z⁻¹ ^ m) ^ k := by
    intro k
    rw [pow_mul, pow_mul, mul_pow]
  simp only [hterm]
  by_cases h : n = m
  · subst h
    have e : z ^ n * z⁻¹ ^ n = 1 := by
      rw [← mul_pow, mul_inv_cancel₀ hz0, one_pow]
    rw [if_pos rfl]
    simp only [e, one_pow, Finset.sum_const, Finset.card_range, nsmul_eq_mul, mul_one]
  · rw [if_neg h]
    have hq : (z ^ n * z⁻¹ ^ m) ^ N = 1 := by
      rw [mul_pow, ← pow_mul, ← pow_mul, mul_comm n N, mul_comm m N, pow_mul, pow_mul,
        inv_pow, hz.pow_eq_one]
      simp
    have hne : z ^ n * z⁻¹ ^ m ≠ 1 := by
      intro h1
      apply h
      apply hz.pow_inj hn hm
      have h2 : z ^ n * z⁻¹ ^ m * z ^ m = z ^ m := by rw [h1, one_mul]
      rw [mul_assoc, ← mul_pow, inv_mul_cancel₀ hz0, one_pow, mul_one] at h2
      exact h2
    have hsum := geom_sum_mul (z ^ n * z⁻¹ ^ m) N
    rw [hq, sub_self] at hsum
    rcases mul_eq_zero.mp hsum with h3 | h3
    · exact h3
    · exact absurd (sub_eq_zero.mp h3) hne

theorem dft_unitKernel (ω : Nat → F) (rows cols : Nat) (hr : 0 < rows) (hc : 0 < cols)
    (k1 k2 : Nat) :
    (dft ω (zeroPad (unitKernel : Mat α) rows cols)).data k1 k2 = 1 := by
  simp only [dft, zeroPad, unitKernel]
  rw [Finset.sum_eq_single 0]
  · rw [Finset.sum_eq_single 0]
    · simp
    · intro n2 _ h2
      have : ¬ n2 < 1 := by omega
      simp [this]
    · intro h; exact absurd (Finset.mem_range.mpr hc) h
  · intro n1 _ h1
    have : ¬ n1 < 1 := by omega
    simp [this]
  · intro h; exact absurd (Finset.mem_range.mpr hr) h

/-- The inverse transform of the transform of `m` is `rows * cols` times `m`. -/
theorem idft_dft (ω : Nat → F) (re : F →ₗ[α] α) (hre : ∀ a : α, re (algebraMap α F a) = a)
    (m : Mat α) (hR : IsPrimitiveRoot (ω m.rows) m.rows)
    (hC : IsPrimitiveRoot (ω m.cols) m.cols) (m1 m2 : Nat) (h1 : m1 < m.rows)
    (h2 : m2 < m.cols) :
    (idft ω re (dft ω m)).data m1 m2 = ((m.rows : α) * (m.cols : α)) * m.data m1 m2 := by
  simp only [idft, dft]
  have key : (∑ k1 in Finset.range m.rows, ∑ k2 in Finset.range m.cols,
      (∑ n1 in Finset.range m.rows, ∑ n2 in Finset.range m.cols,
        algebraMap α F (m.data n1 n2) * ω m.rows ^ (n1 * k1) * ω m.cols ^ (n2 * k2))
        * (ω m.rows)⁻¹ ^ (m1 * k1) * (ω m.cols)⁻¹ ^ (m2 * k2))
      = algebraMap α F ((m.rows : α) * (m.cols : α)) * algebraMap α F (m.data m1 m2) := by
    have step1 : ∀ k1 k2 : Nat,
        (∑ n1 in Finset.range m.rows, ∑ n2 in Finset.range m.cols,
          algebraMap α F (m.data n1 n2) * ω m.rows ^ (n1 * k1) * ω m.cols ^ (n2 * k2))
          * (ω m.rows)⁻¹ ^ (m1 * k1) * (ω m.cols)⁻¹ ^ (m2 * k2)
        = ∑ n1 in Finset.range m.rows, ∑ n2 in Finset.range m.cols,
          algebraMap α F (m.data n1 n2)
            * (ω m.rows ^ (n1 * k1) * (ω m.rows)⁻¹ ^ (m1 * k1))
            * (ω m.cols ^ (n2 * k2) * (ω m.cols)⁻¹ ^ (m2 * k2)) := by
      intro k1 k2
      rw [Finset.sum_mul, Finset.sum_mul]
      refine Finset.sum_congr rfl (fun n1 _ => ?_)
      rw [Finset.sum_mul, Finset.sum_mul]
      refine Finset.sum_congr rfl (fun n2 _ => ?_)
      ring
    simp only [step1]
    -- bring the sums over `n1`, `n2` outside
    rw [Finset.sum_congr rfl (fun k1 _ => Finset.sum_comm)]
    rw [Finset.sum_comm]
    have step2 : ∀ n1 : Nat, n1 ∈ Finset.range m.rows →
        (∑ k1 in Finset.range m.rows, ∑ k2 in Finset.range m.cols, ∑ n2 in Finset.range m.cols,
          algebraMap α F (m.data n1 n2)
            * (ω m.rows ^ (n1 * k1) * (ω m.rows)⁻¹ ^ (m1 * k1))
            * (ω m.cols ^ (n2 * k2) * (ω m.cols)⁻¹ ^ (m2 * k2)))
        = ∑ n2 in Finset.range m.cols, algebraMap α F (m.data n1 n2)
            * (if n1 = m1 then (m.rows : F) else 0) * (if n2 = m2 then (m.cols : F) else 0) := by
      intro n1 hn1
      rw [Finset.sum_congr rfl (fun k1 _ => Finset.sum_comm)]
      rw [Finset.sum_comm]
      refine Finset.sum_congr rfl (fun n2 hn2 => ?_)
      rw [← root_orthogonality (ω m.rows) m.rows hR n1 m1 (Finset.mem_range.mp hn1) h1,
        ← root_orthogonality (ω m.cols) m.cols hC n2 m2 (Finset.mem_range.mp hn2) h2]
      simp only [← Finset.mul_sum, ← Finset.sum_mul]
    rw [Finset.sum_congr rfl step2]
    rw [Finset.sum_eq_single m1]
    · rw [Finset.sum_eq_single m2]
      · simp only [if_true, map_mul, map_natCast]
        ring
      · intro n2 _ hne
        simp [hne]
      · intro h; exact absurd (Finset.mem_range.mpr h2) h
    · intro n1 _ hne
      simp [hne]
    · intro h; exact absurd (Finset.mem_range.mpr h1) h
  rw [key, re_algebraMap_mul, hre]


/-! ### The pipeline of `inverse` -/

theorem inverse_eq (ω : Nat → F) (re : F →ₗ[α] α) (eps : α) (image kernel save raw : Mat α)
    (hraw : inverse_raw ω re image kernel = some raw) (hc : save.cols ≤ raw.cols)
    (hr : save.rows ≤ raw.rows) :
    inverse ω re eps image kernel save =
      some ⟨save.rows, save.cols, (normalize eps raw 255 0).data⟩ := by
  simp only [inverse, hraw, Option.bind_eq_bind, Option.some_bind, Mat.crop, normalize]
  rw [if_pos ⟨hc, hr⟩]

theorem normalize_congr (eps : α) (m n : Mat α) (hr : m.rows = n.rows) (hc : m.cols = n.cols)
    (h : ∀ r c, r < m.rows → c < m.cols → m.data r c = n.data r c) (r c : Nat)
    (hr1 : r < m.rows) (hc1 : c < m.cols) :
    (normalize eps m 255 0).data r c = (normalize eps n 255 0).data r c := by
  simp only [normalize, entries_congr m n hr hc h, h r c hr1 hc1]

theorem inverse_raw_unitKernel (ω : Nat → F) (re : F →ₗ[α] α)
    (hre : ∀ a : α, re (algebraMap α F a) = a) (image : Mat α) (hir : 0 < image.rows)
    (hic : 0 < image.cols)
    (hR : IsPrimitiveRoot (ω (padRows image (unitKernel : Mat α)))
      (padRows image (unitKernel : Mat α)))
    (hC : IsPrimitiveRoot (ω (padCols image (unitKernel : Mat α)))
      (padCols image (unitKernel : Mat α))) :
    ∃ raw : Mat α, inverse_raw ω re image unitKernel = some raw
      ∧ raw.rows = padRows image (unitKernel : Mat α)
      ∧ raw.cols = padCols image (unitKernel : Mat α)
      ∧ ∀ r c, r < raw.rows → c < raw.cols →
          raw.data r c =
            (((padRows image (unitKernel : Mat α) : Nat) : α)
              * ((padCols image (unitKernel : Mat α) : Nat) : α))
            * (zeroPad image (padRows image (unitKernel : Mat α))
                (padCols image (unitKernel : Mat α))).data r c := by
  have hkr : 0 < (unitKernel : Mat α).rows := Nat.one_pos
  have hkc : 0 < (unitKernel : Mat α).cols := Nat.one_pos
  have g1 := padRows_ge image (unitKernel : Mat α) hkr
  have g2 := padCols_ge image (unitKernel : Mat α) hkc
  have hR0 : 0 < padRows image (unitKernel : Mat α) := by omega
  have hC0 : 0 < padCols image (unitKernel : Mat α) := by omega
  refine ⟨_, inverse_raw_eq ω re image unitKernel hir hic hkr hkc, rfl, rfl, ?_⟩
  intro r c hr hc
  have e : (⟨padRows image (unitKernel : Mat α), padCols image (unitKernel : Mat α),
      fun k1 k2 =>
        (dft ω (zeroPad image (padRows image (unitKernel : Mat α))
          (padCols image (unitKernel : Mat α)))).data k1 k2
        * (dft ω (zeroPad (unitKernel : Mat α) (padRows image (unitKernel : Mat α))
          (padCols image (unitKernel : Mat α)))).data k1 k2⟩ : Mat F)
      = dft ω (zeroPad image (padRows image (unitKernel : Mat α))
          (padCols image (unitKernel : Mat α))) := by
    simp only [dft_unitKernel ω _ _ hR0 hC0, mul_one]
    rfl
  rw [e]
  exact idft_dft ω re hre (zeroPad image _ _) hR hC r c hr hc

theorem natCast_mul_pos (R C : Nat) (hR : 0 < R) (hC : 0 < C) :
    (1 : α) ≤ (R : α) * (C : α) := by
  have h1 : (1 : α) ≤ (R : α) := by exact_mod_cast hR
  have h2 : (1 : α) ≤ (C : α) := by exact_mod_cast hC
  nlinarith

/-- The output of `inverse` for the 1x1 kernel of value 1: the min-max normalization of
the zero-padded image, cropped. -/
theorem inverse_unitKernel (ω : Nat → F) (re : F →ₗ[α] α)
    (hre : ∀ a : α, re (algebraMap α F a) = a) (eps : α) (heps : 0 ≤ eps) (image : Mat α)
    (hir : 0 < image.rows) (hic : 0 < image.cols)
    (hR : IsPrimitiveRoot (ω (padRows image (unitKernel : Mat α)))
      (padRows image (unitKernel : Mat α)))
    (hC : IsPrimitiveRoot (ω (padCols image (unitKernel : Mat α)))
      (padCols image (unitKernel : Mat α)))
    (hspread : eps <
      listMax (zeroPad image (padRows image (unitKernel : Mat α))
        (padCols image (unitKernel : Mat α))).entries
      - listMin (zeroPad image (padRows image (unitKernel : Mat α))
        (padCols image (unitKernel : Mat α))).entries) :
    ∃ O : Mat Int, inverse ω re eps image unitKernel image = some O
      ∧ O.rows = image.rows ∧ O.cols = image.cols
      ∧ ∀ r c, r < image.rows → c < image.cols →
          O.data r c = cvRound ((image.data r c
              - listMin (zeroPad image (padRows image (unitKernel : Mat α))
                  (padCols image (unitKernel : Mat α))).entries) * 255
            / (listMax (zeroPad image (padRows image (unitKernel : Mat α))
                  (padCols image (unitKernel : Mat α))).entries
              - listMin (zeroPad image (padRows image (unitKernel : Mat α))
                  (padCols image (unitKernel : Mat α))).entries)) := by
  have hkr : 0 < (unitKernel : Mat α).rows := Nat.one_pos
  have hkc : 0 < (unitKernel : Mat α).cols := Nat.one_pos
  have g1 := padRows_ge image (unitKernel : Mat α) hkr
  have g2 := padCols_ge image (unitKernel : Mat α) hkc
  have hR0 : 0 < padRows image (unitKernel : Mat α) := by omega
  have hC0 : 0 < padCols image (unitKernel : Mat α) := by omega
  obtain ⟨raw, hraw, hrr, hrc, hdata⟩ := inverse_raw_unitKernel ω re hre image hir hic hR hC
  refine ⟨_, inverse_eq ω re eps image unitKernel image raw hraw (by omega) (by omega),
    rfl, rfl, ?_⟩
  intro r c hr hc
  have hpos : (0 : α) < ((padRows image (unitKernel : Mat α) : Nat) : α)
      * ((padCols image (unitKernel : Mat α) : Nat) : α) :=
    lt_of_lt_of_le one_pos (natCast_mul_pos _ _ hR0 hC0)
  have hsp0 : 0 < listMax (zeroPad image (padRows image (unitKernel : Mat α))
        (padCols image (unitKernel : Mat α))).entries
      - listMin (zeroPad image (padRows image (unitKernel : Mat α))
        (padCols image (unitKernel : Mat α))).entries := lt_of_le_of_lt heps hspread
  have h2 : eps < ((padRows image (unitKernel : Mat α) : Nat) : α)
      * ((padCols image (unitKernel : Mat α) : Nat) : α)
      * (listMax (zeroPad image (padRows image (unitKernel : Mat α))
        (padCols image (unitKernel : Mat α))).entries
      - listMin (zeroPad image (padRows image (unitKernel : Mat α))
        (padCols image (unitKernel : Mat α))).entries) := by
    have := natCast_mul_pos (α := α) _ _ hR0 hC0
    nlinarith
  show (normalize eps raw 255 0).data r c = _
  rw [normalize_congr eps raw ((zeroPad image (padRows image (unitKernel : Mat α))
      (padCols image (unitKernel : Mat α))).scale
        (((padRows image (unitKernel : Mat α) : Nat) : α)
          * ((padCols image (unitKernel : Mat α) : Nat) : α))) hrr hrc hdata r c
      (by omega) (by omega),
    (normalize_scale eps heps _ _ hpos hspread r c).2 h2]
  have hz : (zeroPad image (padRows image (unitKernel : Mat α))
      (padCols image (unitKernel : Mat α))).data r c = image.data r c := by
    simp [zeroPad, hr, hc]
  simp only [normalize, gt_iff_lt, hspread, if_true, hz]
  congr 1
  have e1 : max (255 : α) 0 = 255 := max_eq_left (by norm_num)
  have e2 : min (255 : α) 0 = 0 := min_eq_right (by norm_num)
  rw [e1, e2]
  have hne := ne_of_gt hsp0
  field_simp
  ring

/-! ### Concrete evaluations of the pipeline over `ℚ` -/

theorem rootQ_one : IsPrimitiveRoot (rootQ 1) 1 := by
  have e : rootQ 1 = 1 := by simp [rootQ]
  rw [e]; exact IsPrimitiveRoot.one

theorem rootQ_two : IsPrimitiveRoot (rootQ 2) 2 := by
  have e : rootQ 2 = -1 := by simp [rootQ]
  rw [e]
  refine IsPrimitiveRoot.mk_of_lt _ (by norm_num) (by norm_num) ?_
  intro l h0 h2
  have hl : l = 1 := by omega
  subst hl
  norm_num

theorem getOptimalDFTSize_one : getOptimalDFTSize 1 = 1 := by decide

theorem getOptimalDFTSize_two : getOptimalDFTSize 2 = 2 := by decide

theorem cvRound_intCast (z : Int) : cvRound (z : α) = z := by
  simp [cvRound]

theorem dblEpsilon_nonneg : (0 : ℚ) ≤ dblEpsilon := by norm_num [dblEpsilon]

theorem re_id (a : ℚ) : (LinearMap.id : ℚ →ₗ[ℚ] ℚ) (algebraMap ℚ ℚ a) = a := by simp

/-- The padded grid of a 1x2 image `[x, y]` with `x ≤ y` and of the unit kernel is the
image itself: 1 row, 2 columns, minimum `x`, maximum `y`. -/
theorem row2_facts (m : Mat ℚ) (hr : m.rows = 1) (hc : m.cols = 2)
    (hle : m.data 0 0 ≤ m.data 0 1) :
    padRows m (unitKernel : Mat ℚ) = 1 ∧ padCols m (unitKernel : Mat ℚ) = 2
    ∧ listMin (zeroPad m 1 2).entries = m.data 0 0
    ∧ listMax (zeroPad m 1 2).entries = m.data 0 1 := by
  have hent : (zeroPad m 1 2).entries = [m.data 0 0, m.data 0 1] := by
    simp [Mat.entries, zeroPad, hr, hc, List.range_succ]
  refine ⟨?_, ?_, ?_, ?_⟩
  · simp [padRows, hr, unitKernel, getOptimalDFTSize_one]
  · simp [padCols, hc, unitKernel, getOptimalDFTSize_two]
  · rw [hent]; simp [listMin, hle]
  · rw [hent]; simp [listMax, hle]

/-- The pipeline on a 1x2 image `[x, y]` with `x + DBL_EPSILON < y` and the unit kernel
gives `[0, 255]`. -/
theorem inverse_row2 (m : Mat ℚ) (hr : m.rows = 1) (hc : m.cols = 2)
    (hxy : dblEpsilon < m.data 0 1 - m.data 0 0) :
    (inverse rootQ LinearMap.id dblEpsilon m unitKernel m).map
      (fun O => (O.data 0 0, O.data 0 1)) = some (0, 255) := by
  have heps := dblEpsilon_nonneg
  obtain ⟨hpR, hpC, hmin, hmax⟩ := row2_facts m hr hc (by linarith)
  obtain ⟨O, hO, -, -, hdata⟩ := inverse_unitKernel rootQ LinearMap.id re_id
    dblEpsilon heps m (by omega) (by omega) (by rw [hpR]; exact rootQ_one)
    (by rw [hpC]; exact rootQ_two) (by rw [hpR, hpC, hmin, hmax]; exact hxy)
  rw [hO, Option.map_some']
  have h0 := hdata 0 0 (by omega) (by omega)
  have h1 := hdata 0 1 (by omega) (by omega)
  rw [hpR, hpC, hmin, hmax] at h0 h1
  have hne : m.data 0 1 - m.data 0 0 ≠ 0 := by linarith
  have z0 : (m.data 0 0 - m.data 0 0) * 255 / (m.data 0 1 - m.data 0 0) = ((0 : Int) : ℚ) := by
    simp
  have z1 : (m.data 0 1 - m.data 0 0) * 255 / (m.data 0 1 - m.data 0 0) = ((255 : Int) : ℚ) := by
    field_simp
  rw [z0, cvRound_intCast] at h0
  rw [z1, cvRound_intCast] at h1
  rw [h0, h1]

/-! ### The claims on the convolution -/

/-- Claim C9, counterexample.  For the 1x2 image `[100, 200]`, the 1x1 kernel `[1]` and
`a = 2`, the pipeline gives 255 at row 0, column 1 for the image `a * I`, whereas
`a` times the sample it gives there for `I` is `2 * 255 = 510`. -/
theorem convolution_linearity_counterexample :
    (inverse rootQ LinearMap.id dblEpsilon (pair.scale 2) unitKernel (pair.scale 2)).map
        (fun O => O.data 0 1) = some 255
    ∧ (inverse rootQ LinearMap.id dblEpsilon pair unitKernel pair).map
        (fun O => 2 * O.data 0 1) = some 510 := by
  have h1 := inverse_row2 (pair.scale 2) rfl rfl (by norm_num [pair, Mat.scale, dblEpsilon])
  have h2 := inverse_row2 pair rfl rfl (by norm_num [pair, dblEpsilon])
  constructor
  · cases h : inverse rootQ LinearMap.id dblEpsilon (pair.scale 2) unitKernel (pair.scale 2) with
    | none => rw [h] at h1; simp at h1
    | some O =>
      rw [h] at h1
      simp only [Option.map_some', Option.some.injEq, Prod.mk.injEq] at h1 ⊢
      exact h1.2
  · cases h : inverse rootQ LinearMap.id dblEpsilon pair unitKernel pair with
    | none => rw [h] at h2; simp at h2
    | some O =>
      rw [h] at h2
      simp only [Option.map_some', Option.some.injEq, Prod.mk.injEq] at h2 ⊢
      rw [h2.2]; rfl

/-- Claim C9, amended (scaling of the image).  For an image and a kernel with positive
dimensions and a scalar `a > 0`, when the buffer `raw` produced by the inverse transform
for `I` and `K` has a spread `max - min` above `DBL_EPSILON`, and `a` times this spread is
above `DBL_EPSILON` too, the raster that the pipeline of `inverse` produces for `a * I` and
`K` is equal to the raster it produces for `I` and `K` at every pixel (the min-max
normalization cancels the factor `a`); both rasters have the extent of the image. -/
theorem convolution_scaling (ω : Nat → F) (re : F →ₗ[α] α) (eps : α) (heps : 0 ≤ eps)
    (image kernel raw : Mat α) (a : α) (hir : 0 < image.rows) (hic : 0 < image.cols)
    (hkr : 0 < kernel.rows) (hkc : 0 < kernel.cols) (ha : 0 < a)
    (hraw : inverse_raw ω re image kernel = some raw)
    (h1 : eps < listMax raw.entries - listMin raw.entries)
    (h2 : eps < a * (listMax raw.entries - listMin raw.entries)) :
    ∃ O Oa : Mat Int, inverse ω re eps image kernel image = some O
      ∧ inverse ω re eps (image.scale a) kernel (image.scale a) = some Oa
      ∧ O.rows = image.rows ∧ O.cols = image.cols
      ∧ Oa.rows = image.rows ∧ Oa.cols = image.cols
      ∧ ∀ r c : Nat, Oa.data r c = O.data r c := by
  obtain ⟨raw2, hraw2, hscaled, hrr, hrc⟩ :=
    inverse_raw_scale ω re image kernel a hir hic hkr hkc
  have e : raw2 = raw := Option.some.inj (hraw2.symm.trans hraw)
  subst e
  have g1 := padRows_ge image kernel hkr
  have g2 := padCols_ge image kernel hkc
  refine ⟨_, _, inverse_eq ω re eps image kernel image raw2 hraw (by omega) (by omega),
    inverse_eq ω re eps (image.scale a) kernel (image.scale a) (raw2.scale a) hscaled
      (by show image.cols ≤ raw2.cols; omega) (by show image.rows ≤ raw2.rows; omega),
    rfl, rfl, rfl, rfl, ?_⟩
  intro r c
  exact (normalize_scale eps heps raw2 a ha h1 r c).2 h2

/-- Witness of `convolution_scaling`: the 1x2 image `[100, 200]`, the unit kernel and
`a = 2`. -/
theorem convolution_scaling_witness :
    ∃ raw : Mat ℚ, inverse_raw rootQ LinearMap.id pair unitKernel = some raw
      ∧ dblEpsilon < listMax raw.entries - listMin raw.entries
      ∧ dblEpsilon < 2 * (listMax raw.entries - listMin raw.entries)
      ∧ ∃ O Oa : Mat Int, inverse rootQ LinearMap.id dblEpsilon pair unitKernel pair = some O
        ∧ inverse rootQ LinearMap.id dblEpsilon (pair.scale 2) unitKernel (pair.scale 2)
            = some Oa
        ∧ O.rows = pair.rows ∧ O.cols = pair.cols
        ∧ Oa.rows = pair.rows ∧ Oa.cols = pair.cols
        ∧ ∀ r c : Nat, Oa.data r c = O.data r c := by
  obtain ⟨hpR, hpC, hmin, hmax⟩ := row2_facts pair rfl rfl (by norm_num [pair])
  obtain ⟨raw, hraw, hrr, hrc, hdata⟩ := inverse_raw_unitKernel rootQ LinearMap.id re_id pair
    (by decide) (by decide) (by rw [hpR]; exact rootQ_one) (by rw [hpC]; exact rootQ_two)
  simp only [hpR, hpC] at hdata hrr hrc
  have hent : raw.entries = ((zeroPad pair 1 2).scale (((1 : Nat) : ℚ) * ((2 : Nat) : ℚ))).entries :=
    entries_congr raw _ hrr hrc hdata
  have hmin2 : listMin raw.entries = 200 := by
    rw [hent, entries_scale, listMin_mul _ (by norm_num), hmin]; norm_num [pair]
  have hmax2 : listMax raw.entries = 400 := by
    rw [hent, entries_scale, listMax_mul _ (by norm_num), hmax]; norm_num [pair]
  have h1 : dblEpsilon < listMax raw.entries - listMin raw.entries := by
    rw [hmin2, hmax2]; norm_num [dblEpsilon]
  have h2 : dblEpsilon < 2 * (listMax raw.entries - listMin raw.entries) := by
    rw [hmin2, hmax2]; norm_num [dblEpsilon]
  exact ⟨raw, hraw, h1, h2,
    convolution_scaling rootQ LinearMap.id dblEpsilon dblEpsilon_nonneg pair unitKernel raw 2
      (by decide) (by decide) (by decide) (by decide) (by norm_num) hraw h1 h2⟩

/-- Claim C10, counterexample.  For the 1x2 image `[100, 200]` and the 1x1 kernel `[1]`,
the pipeline gives 0 at row 0, column 0, whereas the sample of the image there is 100. -/
theorem identity_kernel_counterexample :
    (inverse rootQ LinearMap.id dblEpsilon pair unitKernel pair).map
        (fun O => O.data 0 0) = some 0
    ∧ pair.data 0 0 = 100 := by
  have h2 := inverse_row2 pair rfl rfl (by norm_num [pair, dblEpsilon])
  constructor
  · cases h : inverse rootQ LinearMap.id dblEpsilon pair unitKernel pair with
    | none => rw [h] at h2; simp at h2
    | some O =>
      rw [h] at h2
      simp only [Option.map_some', Option.some.injEq, Prod.mk.injEq] at h2 ⊢
      exact h2.1
  · rfl

/-- Claim C10, amended (identity kernel).  For an image with positive dimensions, the 1x1
kernel whose sample is 1, roots of unity `ω R`, `ω C` primitive for the padded sizes and
a zero-padded image whose spread `M - m` (`m` its smallest, `M` its largest sample) is above
`DBL_EPSILON ≥ 0`, the pipeline of `inverse` returns a raster of the extent of the image
whose sample at `(r, c)` is `cvRound ((I(r, c) - m) * 255 / (M - m))`, the min-max
normalization of the image; so it reproduces the image at every pixel holding an integer
when `m = 0` and `M = 255`. -/
theorem identity_kernel (ω : Nat → F) (re : F →ₗ[α] α)
    (hre : ∀ a : α, re (algebraMap α F a) = a) (eps : α) (heps : 0 ≤ eps) (image : Mat α)
    (hir : 0 < image.rows) (hic : 0 < image.cols)
    (hR : IsPrimitiveRoot (ω (padRows image (unitKernel : Mat α)))
      (padRows image (unitKernel : Mat α)))
    (hC : IsPrimitiveRoot (ω (padCols image (unitKernel : Mat α)))
      (padCols image (unitKernel : Mat α)))
    (hspread : eps <
      listMax (zeroPad image (padRows image (unitKernel : Mat α))
        (padCols image (unitKernel : Mat α))).entries
      - listMin (zeroPad image (padRows image (unitKernel : Mat α))
        (padCols image (unitKernel : Mat α))).entries) :
    ∃ O : Mat Int, inverse ω re eps image unitKernel image = some O
      ∧ O.rows = image.rows ∧ O.cols = image.cols
      ∧ (∀ r c, r < image.rows → c < image.cols →
          O.data r c = cvRound ((image.data r c
              - listMin (zeroPad image (padRows image (unitKernel : Mat α))
                  (padCols image (unitKernel : Mat α))).entries) * 255
            / (listMax (zeroPad image (padRows image (unitKernel : Mat α))
                  (padCols image (unitKernel : Mat α))).entries
              - listMin (zeroPad image (padRows image (unitKernel : Mat α))
                  (padCols image (unitKernel : Mat α))).entries)))
      ∧ (listMin (zeroPad image (padRows image (unitKernel : Mat α))
            (padCols image (unitKernel : Mat α))).entries = 0 →
          listMax (zeroPad image (padRows image (unitKernel : Mat α))
            (padCols image (unitKernel : Mat α))).entries = 255 →
          ∀ r c, r < image.rows → c < image.cols → ∀ n : Int,
            image.data r c = (n : α) → O.data r c = n) := by
  obtain ⟨O, hO, hr, hc, hdata⟩ :=
    inverse_unitKernel ω re hre eps heps image hir hic hR hC hspread
  refine ⟨O, hO, hr, hc, hdata, ?_⟩
  intro hmin hmax r c hr1 hc1 n hn
  rw [hdata r c hr1 hc1, hmin, hmax, hn]
  have e : ((n : α) - 0) * 255 / (255 - 0) = (n : α) := by
    field_simp
  rw [e, cvRound_intCast]

/-- Witness of `identity_kernel`: the 1x2 image `[0, 255]`, which the pipeline
reproduces. -/
theorem identity_kernel_witness :
    IsPrimitiveRoot (rootQ (padRows fullPair (unitKernel : Mat ℚ)))
      (padRows fullPair (unitKernel : Mat ℚ))
    ∧ IsPrimitiveRoot (rootQ (padCols fullPair (unitKernel : Mat ℚ)))
      (padCols fullPair (unitKernel : Mat ℚ))
    ∧ dblEpsilon <
      listMax (zeroPad fullPair (padRows fullPair (unitKernel : Mat ℚ))
        (padCols fullPair (unitKernel : Mat ℚ))).entries
      - listMin (zeroPad fullPair (padRows fullPair (unitKernel : Mat ℚ))
        (padCols fullPair (unitKernel : Mat ℚ))).entries
    ∧ ∃ O : Mat Int, inverse rootQ LinearMap.id dblEpsilon fullPair unitKernel fullPair = some O
      ∧ O.rows = 1 ∧ O.cols = 2 ∧ O.data 0 0 = 0 ∧ O.data 0 1 = 255 := by
  obtain ⟨hpR, hpC, hmin, hmax⟩ := row2_facts fullPair rfl rfl (by norm_num [fullPair])
  have hR : IsPrimitiveRoot (rootQ (padRows fullPair (unitKernel : Mat ℚ)))
      (padRows fullPair (unitKernel : Mat ℚ)) := by rw [hpR]; exact rootQ_one
  have hC : IsPrimitiveRoot (rootQ (padCols fullPair (unitKernel : Mat ℚ)))
      (padCols fullPair (unitKernel : Mat ℚ)) := by rw [hpC]; exact rootQ_two
  have hmin0 : listMin (zeroPad fullPair (padRows fullPair (unitKernel : Mat ℚ))
      (padCols fullPair (unitKernel : Mat ℚ))).entries = 0 := by
    rw [hpR, hpC, hmin]; rfl
  have hmax0 : listMax (zeroPad fullPair (padRows fullPair (unitKernel : Mat ℚ))
      (padCols fullPair (unitKernel : Mat ℚ))).entries = 255 := by
    rw [hpR, hpC, hmax]; rfl
  have hsp : dblEpsilon <
      listMax (zeroPad fullPair (padRows fullPair (unitKernel : Mat ℚ))
        (padCols fullPair (unitKernel : Mat ℚ))).entries
      - listMin (zeroPad fullPair (padRows fullPair (unitKernel : Mat ℚ))
        (padCols fullPair (unitKernel : Mat ℚ))).entries := by
    rw [hmin0, hmax0]; norm_num [dblEpsilon]
  obtain ⟨O, hO, hr, hc, -, hfull⟩ := identity_kernel rootQ LinearMap.id re_id dblEpsilon
    dblEpsilon_nonneg fullPair (by decide) (by decide) hR hC hsp
  exact ⟨hR, hC, hsp, O, hO, hr, hc,
    hfull hmin0 hmax0 0 0 (by decide) (by decide) 0 (by simp [fullPair]),
    hfull hmin0 hmax0 0 1 (by decide) (by decide) 255 (by simp [fullPair])⟩

/-! ### The padded grid -/

theorem padRows_cast (image kernel : Mat α) (hir : 0 < image.rows) (hkr : 0 < kernel.rows) :
    getOptimalDFTSize ((image.rows : Int) + kernel.rows - 1)
      = ((padRows image kernel : Nat) : Int) := by
  have g := getOptimalDFTSize_ge ((image.rows : Int) + kernel.rows - 1) (by omega)
  unfold padRows; omega

theorem padCols_cast (image kernel : Mat α) (hic : 0 < image.cols) (hkc : 0 < kernel.cols) :
    getOptimalDFTSize ((image.cols : Int) + kernel.cols - 1)
      = ((padCols image kernel : Nat) : Int) := by
  have g := getOptimalDFTSize_ge ((image.cols : Int) + kernel.cols - 1) (by omega)
  unfold padCols; omega

/-- Claim C11 (common padded grid).  For an image and a kernel with positive dimensions,
with `R = getOptimalDFTSize (image.rows + kernel.rows - 1)` and
`C = getOptimalDFTSize (image.cols + kernel.cols - 1)`: `R` and `C` are at least the
sizes asked for; the two calls of `copyMakeBorder` in `DFT` have the amounts 0 at the top
and at the left and non-negative amounts at the bottom and at the right; both succeed and
give buffers of the same size `R x C`, each holding its original samples at the same
(row, column) positions of the top-left corner and 0 everywhere else; and `DFT` returns
the transforms of these two buffers. -/
theorem common_padded_grid (ω : Nat → F) (image kernel : Mat α) (hir : 0 < image.rows)
    (hic : 0 < image.cols) (hkr : 0 < kernel.rows) (hkc : 0 < kernel.cols) :
    (image.rows : Int) + kernel.rows - 1
        ≤ getOptimalDFTSize ((image.rows : Int) + kernel.rows - 1)
    ∧ (image.cols : Int) + kernel.cols - 1
        ≤ getOptimalDFTSize ((image.cols : Int) + kernel.cols - 1)
    ∧ 0 ≤ getOptimalDFTSize ((image.rows : Int) + kernel.rows - 1) - image.rows
    ∧ 0 ≤ getOptimalDFTSize ((image.cols : Int) + kernel.cols - 1) - image.cols
    ∧ 0 ≤ getOptimalDFTSize ((image.rows : Int) + kernel.rows - 1) - kernel.rows
    ∧ 0 ≤ getOptimalDFTSize ((image.cols : Int) + kernel.cols - 1) - kernel.cols
    ∧ ∃ pi pk : Mat α,
        copyMakeBorder image 0
            (getOptimalDFTSize ((image.rows : Int) + kernel.rows - 1) - image.rows) 0
            (getOptimalDFTSize ((image.cols : Int) + kernel.cols - 1) - image.cols) = some pi
        ∧ copyMakeBorder kernel 0
            (getOptimalDFTSize ((image.rows : Int) + kernel.rows - 1) - kernel.rows) 0
            (getOptimalDFTSize ((image.cols : Int) + kernel.cols - 1) - kernel.cols) = some pk
        ∧ DFT ω image kernel = some (dft ω pi, dft ω pk)
        ∧ (pi.rows : Int) = getOptimalDFTSize ((image.rows : Int) + kernel.rows - 1)
        ∧ (pi.cols : Int) = getOptimalDFTSize ((image.cols : Int) + kernel.cols - 1)
        ∧ pk.rows = pi.rows ∧ pk.cols = pi.cols
        ∧ (∀ r c : Nat, pi.data r c
            = if r < image.rows ∧ c < image.cols then image.data r c else 0)
        ∧ (∀ r c : Nat, pk.data r c
            = if r < kernel.rows ∧ c < kernel.cols then kernel.data r c else 0) := by
  have g1 := getOptimalDFTSize_ge ((image.rows : Int) + kernel.rows - 1) (by omega)
  have g2 := getOptimalDFTSize_ge ((image.cols : Int) + kernel.cols - 1) (by omega)
  have e1 := padRows_cast image kernel hir hkr
  have e2 := padCols_cast image kernel hic hkc
  refine ⟨g1, g2, by omega, by omega, by omega, by omega,
    zeroPad image (padRows image kernel) (padCols image kernel),
    zeroPad kernel (padRows image kernel) (padCols image kernel), ?_, ?_,
    DFT_eq ω image kernel hir hic hkr hkc, e1.symm, e2.symm, rfl, rfl,
    fun _ _ => rfl, fun _ _ => rfl⟩
  · rw [e1, e2]
    exact copyMakeBorder_eq image _ _ (by omega) (by omega)
  · rw [e1, e2]
    exact copyMakeBorder_eq kernel _ _ (by omega) (by omega)

/-- Witness of `common_padded_grid`: the 1x2 image `[100, 200]` and the 2x2 kernel, padded
to 2x3. -/
theorem common_padded_grid_witness :
    0 < pair.rows ∧ 0 < pair.cols ∧ 0 < kernel22.rows ∧ 0 < kernel22.cols
    ∧ getOptimalDFTSize ((pair.rows : Int) + kernel22.rows - 1) = 2
    ∧ getOptimalDFTSize ((pair.cols : Int) + kernel22.cols - 1) = 3
    ∧ ∃ pi pk : Mat ℚ,
        DFT rootQ pair kernel22 = some (dft rootQ pi, dft rootQ pk)
        ∧ (pi.rows : Int) = 2 ∧ (pi.cols : Int) = 3 ∧ pk.rows = pi.rows ∧ pk.cols = pi.cols
        ∧ pi.data 0 1 = 200 ∧ pi.data 1 1 = 0 ∧ pk.data 1 1 = 2 ∧ pk.data 1 2 = 0 := by
  have h1 : getOptimalDFTSize ((pair.rows : Int) + kernel22.rows - 1) = 2 := by decide
  have h2 : getOptimalDFTSize ((pair.cols : Int) + kernel22.cols - 1) = 3 := by decide
  obtain ⟨-, -, -, -, -, -, pi, pk, -, -, hD, hr, hc, hkr, hkc, hpi, hpk⟩ :=
    common_padded_grid rootQ pair kernel22 (by decide) (by decide) (by decide) (by decide)
  refine ⟨by decide, by decide, by decide, by decide, h1, h2, pi, pk, hD, ?_, ?_, hkr, hkc,
    ?_, ?_, ?_, ?_⟩
  · rw [hr, h1]
  · rw [hc, h2]
  · rw [hpi]; simp [pair]
  · rw [hpi]; simp [pair]
  · rw [hpk]; simp [kernel22]
  · rw [hpk]; simp [kernel22]

/-! ### Extreme values and the range of `normalize` -/

theorem mem_entries (m : Mat α) (r c : Nat) (hr : r < m.rows) (hc : c < m.cols) :
    m.data r c ∈ m.entries := by
  unfold Mat.entries
  refine List.mem_map.mpr ⟨r * m.cols + c, List.mem_range.mpr ?_, ?_⟩
  · calc r * m.cols + c < r * m.cols + m.cols := by omega
      _ = (r + 1) * m.cols := by ring
      _ ≤ m.rows * m.cols := Nat.mul_le_mul_right _ hr
  · have h1 : (r * m.cols + c) / m.cols = r := by
      rw [Nat.add_comm, Nat.add_mul_div_right _ _ (by omega : 0 < m.cols),
        Nat.div_eq_of_lt hc, Nat.zero_add]
    have h2 : (r * m.cols + c) % m.cols = c := by
      rw [Nat.add_comm, Nat.add_mul_mod_self_right, Nat.mod_eq_of_lt hc]
    rw [h1, h2]

theorem exists_of_mem_entries (m : Mat α) (x : α) (hx : x ∈ m.entries) :
    ∃ r c, r < m.rows ∧ c < m.cols ∧ m.data r c = x := by
  unfold Mat.entries at hx
  obtain ⟨k, hk, rfl⟩ := List.mem_map.mp hx
  have hk2 : k < m.rows * m.cols := List.mem_range.mp hk
  have hc0 : 0 < m.cols := by
    rcases Nat.eq_zero_or_pos m.cols with h0 | h0
    · rw [h0] at hk2; simp at hk2
    · exact h0
  exact ⟨k / m.cols, k % m.cols, Nat.div_lt_of_lt_mul (by rw [Nat.mul_comm]; exact hk2),
    Nat.mod_lt _ hc0, rfl⟩

theorem foldl_min_le (l : List α) (v : α) :
    l.foldl min v ≤ v ∧ ∀ x ∈ l, l.foldl min v ≤ x := by
  induction l generalizing v with
  | nil => simp
  | cons w ws ih =>
    simp only [List.foldl_cons, List.mem_cons]
    obtain ⟨h1, h2⟩ := ih (min v w)
    refine ⟨le_trans h1 (min_le_left _ _), ?_⟩
    rintro x (rfl | hx)
    · exact le_trans h1 (min_le_right _ _)
    · exact h2 x hx

theorem le_foldl_max (l : List α) (v : α) :
    v ≤ l.foldl max v ∧ ∀ x ∈ l, x ≤ l.foldl max v := by
  induction l generalizing v with
  | nil => simp
  | cons w ws ih =>
    simp only [List.foldl_cons, List.mem_cons]
    obtain ⟨h1, h2⟩ := ih (max v w)
    refine ⟨le_trans (le_max_left _ _) h1, ?_⟩
    rintro x (rfl | hx)
    · exact le_trans (le_max_right _ _) h1
    · exact h2 x hx

theorem foldl_min_mem (l : List α) (v : α) : l.foldl min v ∈ v :: l := by
  induction l generalizing v with
  | nil => simp
  | cons w ws ih =>
    simp only [List.foldl_cons]
    have h := ih (min v w)
    rcases List.mem_cons.mp h with h1 | h1
    · rw [h1]
      rcases min_choice v w with h2 | h2
      · rw [h2]; simp
      · rw [h2]; simp
    · exact List.mem_cons_of_mem _ (List.mem_cons_of_mem _ h1)

theorem foldl_max_mem (l : List α) (v : α) : l.foldl max v ∈ v :: l := by
  induction l generalizing v with
  | nil => simp
  | cons w ws ih =>
    simp only [List.foldl_cons]
    have h := ih (max v w)
    rcases List.mem_cons.mp h with h1 | h1
    · rw [h1]
      rcases max_choice v w with h2 | h2
      · rw [h2]; simp
      · rw [h2]; simp
    · exact List.mem_cons_of_mem _ (List.mem_cons_of_mem _ h1)

theorem listMin_le (l : List α) (x : α) (hx : x ∈ l) : listMin l ≤ x := by
  cases l with
  | nil => simp at hx
  | cons v vs =>
    rcases List.mem_cons.mp hx with rfl | h
    · exact (foldl_min_le vs x).1
    · exact (foldl_min_le vs v).2 x h

theorem le_listMax (l : List α) (x : α) (hx : x ∈ l) : x ≤ listMax l := by
  cases l with
  | nil => simp at hx
  | cons v vs =>
    rcases List.mem_cons.mp hx with rfl | h
    · exact (le_foldl_max vs x).1
    · exact (le_foldl_max vs v).2 x h

theorem listMin_mem (l : List α) (hl : l ≠ []) : listMin l ∈ l := by
  cases l with
  | nil => exact absurd rfl hl
  | cons v vs => exact foldl_min_mem vs v

theorem listMax_mem (l : List α) (hl : l ≠ []) : listMax l ∈ l := by
  cases l with
  | nil => exact absurd rfl hl
  | cons v vs => exact foldl_max_mem vs v

theorem cvRound_ge (v : α) (n : Int) (h : (n : α) ≤ v) : n ≤ cvRound v := by
  have hf : n ≤ ⌊v⌋ := Int.le_floor.mpr h
  unfold cvRound
  split_ifs <;> omega

theorem cvRound_le (v : α) (n : Int) (h : v ≤ (n : α)) : cvRound v ≤ n := by
  have hf : ⌊v⌋ ≤ n := by
    have := Int.floor_mono h
    rwa [Int.floor_intCast] at this
  rcases lt_or_eq_of_le hf with h1 | h1
  · unfold cvRound
    split_ifs <;> omega
  · have hv : v = (n : α) := by
      apply le_antisymm h
      rw [← h1]; exact Int.floor_le v
    rw [hv, cvRound_intCast]

/-- The samples of the normalized buffer: 0 when the spread does not exceed the threshold,
and the rounding of `(x - smin) * 255 / (smax - smin)` otherwise. -/
theorem normalize_data (eps : α) (m : Mat α) (r c : Nat) :
    (normalize eps m 255 0).data r c =
      if eps < listMax m.entries - listMin m.entries then
        cvRound ((m.data r c - listMin m.entries) * 255
          / (listMax m.entries - listMin m.entries))
      else 0 := by
  have e1 : max (255 : α) 0 = 255 := max_eq_left (by norm_num)
  have e2 : min (255 : α) 0 = 0 := min_eq_right (by norm_num)
  simp only [normalize, e1, e2, gt_iff_lt]
  split_ifs with h
  · congr 1
    ring
  · simp [cvRound]

theorem normalize_range (eps : α) (heps : 0 ≤ eps) (m : Mat α) (r c : Nat) (hr : r < m.rows)
    (hc : c < m.cols) :
    0 ≤ (normalize eps m 255 0).data r c ∧ (normalize eps m 255 0).data r c ≤ 255 := by
  rw [normalize_data]
  split_ifs with h
  · have hpos : 0 < listMax m.entries - listMin m.entries := lt_of_le_of_lt heps h
    have hmem := mem_entries m r c hr hc
    have h1 := listMin_le _ _ hmem
    have h2 := le_listMax _ _ hmem
    constructor
    · apply cvRound_ge
      simp only [Int.cast_zero]
      apply div_nonneg _ (le_of_lt hpos)
      exact mul_nonneg (by linarith) (by norm_num)
    · apply cvRound_le
      rw [div_le_iff₀ hpos]
      push_cast
      nlinarith
  · exact ⟨le_rfl, by norm_num⟩

theorem normalize_attained (eps : α) (heps : 0 ≤ eps) (m : Mat α)
    (h : eps < listMax m.entries - listMin m.entries) :
    (∃ r c, r < m.rows ∧ c < m.cols ∧ (normalize eps m 255 0).data r c = 0)
    ∧ (∃ r c, r < m.rows ∧ c < m.cols ∧ (normalize eps m 255 0).data r c = 255) := by
  have hpos : 0 < listMax m.entries - listMin m.entries := lt_of_le_of_lt heps h
  have hne : m.entries ≠ [] := by
    intro h0
    rw [h0] at hpos
    simp [listMax, listMin] at hpos
  constructor
  · obtain ⟨r, c, hr, hc, hd⟩ := exists_of_mem_entries m _ (listMin_mem _ hne)
    refine ⟨r, c, hr, hc, ?_⟩
    rw [normalize_data, if_pos h, hd, sub_self, zero_mul, zero_div]
    have := cvRound_intCast (α := α) 0
    simpa using this
  · obtain ⟨r, c, hr, hc, hd⟩ := exists_of_mem_entries m _ (listMax_mem _ hne)
    refine ⟨r, c, hr, hc, ?_⟩
    rw [normalize_data, if_pos h, hd, mul_comm, mul_div_assoc, div_self (ne_of_gt hpos),
      mul_one]
    have := cvRound_intCast (α := α) 255
    simpa using this

/-! ### Extent and range of the output of `inverse` -/

theorem padRows_comm (a b : Mat α) : padRows a b = padRows b a := by
  unfold padRows; rw [add_comm]

theorem padCols_comm (a b : Mat α) : padCols a b = padCols b a := by
  unfold padCols; rw [add_comm]

/-- The buffer before normalization is symmetric in the image and the kernel. -/
theorem inverse_raw_comm (ω : Nat → F) (re : F →ₗ[α] α) (a b : Mat α) (har : 0 < a.rows)
    (hac : 0 < a.cols) (hbr : 0 < b.rows) (hbc : 0 < b.cols) :
    inverse_raw ω re a b = inverse_raw ω re b a := by
  rw [inverse_raw_eq ω re a b har hac hbr hbc, inverse_raw_eq ω re b a hbr hbc har hac,
    padRows_comm b a, padCols_comm b a]
  congr 3
  funext k1 k2
  rw [mul_comm]

theorem getOptimalDFTSize_two_cast :
    getOptimalDFTSize (((2 : Nat) : Int) + ((1 : Nat) : Int) - 1) = 2 := by decide

/-- The buffer before normalization for the 1x1 image `[1]` and the 2x2 test kernel:
four times the kernel. -/
theorem raw_kernel22 :
    ∃ raw : Mat ℚ, inverse_raw rootQ LinearMap.id (unitKernel : Mat ℚ) kernel22 = some raw
      ∧ raw.rows = 2 ∧ raw.cols = 2
      ∧ raw.data 0 0 = 4 ∧ raw.data 0 1 = 0 ∧ raw.data 1 0 = 16 ∧ raw.data 1 1 = 8 := by
  have hpR : padRows kernel22 (unitKernel : Mat ℚ) = 2 := by
    simp [padRows, kernel22, unitKernel, getOptimalDFTSize_two]
  have hpC : padCols kernel22 (unitKernel : Mat ℚ) = 2 := by
    simp [padCols, kernel22, unitKernel, getOptimalDFTSize_two]
  obtain ⟨raw, hraw, hrr, hrc, hdata⟩ := inverse_raw_unitKernel rootQ LinearMap.id re_id
    kernel22 (by decide) (by decide) (by rw [hpR]; exact rootQ_two)
    (by rw [hpC]; exact rootQ_two)
  simp only [hpR, hpC] at hdata hrr hrc
  rw [← inverse_raw_comm rootQ LinearMap.id (unitKernel : Mat ℚ) kernel22 (by decide)
    (by decide) (by decide) (by decide)] at hraw
  refine ⟨raw, hraw, hrr, hrc, ?_, ?_, ?_, ?_⟩
  · rw [hdata 0 0 (by omega) (by omega)]; norm_num [zeroPad, kernel22]
  · rw [hdata 0 1 (by omega) (by omega)]; norm_num [zeroPad, kernel22]
  · rw [hdata 1 0 (by omega) (by omega)]; norm_num [zeroPad, kernel22]
  · rw [hdata 1 1 (by omega) (by omega)]; norm_num [zeroPad, kernel22]

theorem entries_two_by_two (m : Mat ℚ) (hr : m.rows = 2) (hc : m.cols = 2) :
    m.entries = [m.data 0 0, m.data 0 1, m.data 1 0, m.data 1 1] := by
  simp [Mat.entries, hr, hc, List.range_succ]

/-- An output that attains neither 0 nor 255: the 1x1 image `[1]` with the 2x2 test kernel
gives the 1x1 raster `[64]`. -/
theorem inverse_kernel22 :
    ∃ O : Mat Int, inverse rootQ LinearMap.id dblEpsilon (unitKernel : Mat ℚ) kernel22
        (unitKernel : Mat ℚ) = some O ∧ O.rows = 1 ∧ O.cols = 1 ∧ O.data 0 0 = 64 := by
  obtain ⟨raw, hraw, hrr, hrc, h00, h01, h10, h11⟩ := raw_kernel22
  have hent := entries_two_by_two raw hrr hrc
  rw [h00, h01, h10, h11] at hent
  have hmin : listMin raw.entries = 0 := by rw [hent]; norm_num [listMin]
  have hmax : listMax raw.entries = 16 := by rw [hent]; norm_num [listMax]
  refine ⟨_, inverse_eq rootQ LinearMap.id dblEpsilon _ _ _ raw hraw
    (by rw [hrc]; decide) (by rw [hrr]; decide), rfl, rfl, ?_⟩
  show (normalize dblEpsilon raw 255 0).data 0 0 = 64
  rw [normalize_data, hmin, hmax, h00, if_pos (by norm_num [dblEpsilon])]
  norm_num [cvRound]


/-- Claim C12, counterexample.  For the 1x2 image `[0, 2^-53]` and the 1x1 kernel `[1]`,
the padded buffer before normalization is `[0, 2^-52]`: it is not constant, but its spread
does not exceed `DBL_EPSILON`, and both samples of the normalized padded buffer are 0, so
255 is not attained. -/
theorem convolution_output_counterexample :
    ∃ raw : Mat ℚ, inverse_raw rootQ LinearMap.id tinyPair unitKernel = some raw
      ∧ raw.rows = 1 ∧ raw.cols = 2 ∧ raw.data 0 0 ≠ raw.data 0 1
      ∧ (normalize dblEpsilon raw 255 0).data 0 0 = 0
      ∧ (normalize dblEpsilon raw 255 0).data 0 1 = 0 := by
  obtain ⟨hpR, hpC, hmin, hmax⟩ := row2_facts tinyPair rfl rfl (by norm_num [tinyPair])
  obtain ⟨raw, hraw, hrr, hrc, hdata⟩ := inverse_raw_unitKernel rootQ LinearMap.id re_id
    tinyPair (by decide) (by decide) (by rw [hpR]; exact rootQ_one)
    (by rw [hpC]; exact rootQ_two)
  simp only [hpR, hpC] at hdata hrr hrc
  have hent : raw.entries
      = ((zeroPad tinyPair 1 2).scale (((1 : Nat) : ℚ) * ((2 : Nat) : ℚ))).entries :=
    entries_congr raw _ hrr hrc hdata
  have hmin2 : listMin raw.entries = 0 := by
    rw [hent, entries_scale, listMin_mul _ (by norm_num), hmin]; norm_num [tinyPair]
  have hmax2 : listMax raw.entries = dblEpsilon := by
    rw [hent, entries_scale, listMax_mul _ (by norm_num), hmax]
    norm_num [tinyPair, dblEpsilon]
  have h0 : raw.data 0 0 = 0 := by
    rw [hdata 0 0 (by omega) (by omega)]; norm_num [zeroPad, tinyPair]
  have h1 : raw.data 0 1 = dblEpsilon := by
    rw [hdata 0 1 (by omega) (by omega)]; norm_num [zeroPad, tinyPair, dblEpsilon]
  refine ⟨raw, hraw, hrr, hrc, ?_, ?_, ?_⟩
  · rw [h0, h1]; norm_num [dblEpsilon]
  · rw [normalize_data, hmin2, hmax2, if_neg (by norm_num)]
  · rw [normalize_data, hmin2, hmax2, if_neg (by norm_num)]

/-- Claim C12, amended (extent and range of the output).  For an image and a kernel with
positive dimensions and a matrix `save` that fits in the padded grid (as the image itself
always does), `inverse` returns a raster `O` with exactly `save.rows x save.cols` samples;
`O(r, c)` is the sample of the normalized padded buffer at the same `(r, c)`; every sample of
`O` lies in `[0, 255]`; when the spread `max - min` of the padded buffer exceeds
`DBL_EPSILON`, the values 0 and 255 are both attained in the normalized padded buffer;
and they need not be attained inside `O`: the 1x1 image `[1]` with the 2x2 kernel
`[1, 0; 4, 2]` gives the 1x1 raster `[64]`. -/
theorem convolution_output (ω : Nat → F) (re : F →ₗ[α] α) (eps : α) (heps : 0 ≤ eps)
    (image kernel save : Mat α) (hir : 0 < image.rows) (hic : 0 < image.cols)
    (hkr : 0 < kernel.rows) (hkc : 0 < kernel.cols)
    (hsr : save.rows ≤ padRows image kernel) (hsc : save.cols ≤ padCols image kernel) :
    (image.rows ≤ padRows image kernel ∧ image.cols ≤ padCols image kernel)
    ∧ (∃ raw : Mat α, ∃ O : Mat Int, inverse_raw ω re image kernel = some raw
        ∧ raw.rows = padRows image kernel ∧ raw.cols = padCols image kernel
        ∧ inverse ω re eps image kernel save = some O
        ∧ O.rows = save.rows ∧ O.cols = save.cols
        ∧ (∀ r c : Nat, O.data r c = (normalize eps raw 255 0).data r c)
        ∧ (∀ r c : Nat, r < save.rows → c < save.cols →
            0 ≤ O.data r c ∧ O.data r c ≤ 255)
        ∧ (eps < listMax raw.entries - listMin raw.entries →
            (∃ r c, r < raw.rows ∧ c < raw.cols ∧ (normalize eps raw 255 0).data r c = 0)
            ∧ (∃ r c, r < raw.rows ∧ c < raw.cols
                ∧ (normalize eps raw 255 0).data r c = 255)))
    ∧ (∃ O : Mat Int, inverse rootQ LinearMap.id dblEpsilon (unitKernel : Mat ℚ) kernel22
        (unitKernel : Mat ℚ) = some O ∧ O.rows = 1 ∧ O.cols = 1 ∧ O.data 0 0 = 64) := by
  have g1 := padRows_ge image kernel hkr
  have g2 := padCols_ge image kernel hkc
  refine ⟨⟨by omega, by omega⟩, ?_, inverse_kernel22⟩
  have hraw := inverse_raw_eq ω re image kernel hir hic hkr hkc
  refine ⟨_, _, hraw, rfl, rfl,
    inverse_eq ω re eps image kernel save _ hraw hsc hsr, rfl, rfl, fun _ _ => rfl, ?_, ?_⟩
  · intro r c hr hc
    exact normalize_range eps heps _ r c (lt_of_lt_of_le hr hsr) (lt_of_lt_of_le hc hsc)
  · intro h
    exact normalize_attained eps heps _ h

/-- Witness of `convolution_output`: the 1x2 image `[100, 200]`, the unit kernel and
`save` the image itself. -/
theorem convolution_output_witness :
    0 < pair.rows ∧ 0 < pair.cols
    ∧ pair.rows ≤ padRows pair (unitKernel : Mat ℚ)
    ∧ pair.cols ≤ padCols pair (unitKernel : Mat ℚ)
    ∧ ∃ raw : Mat ℚ, ∃ O : Mat Int, inverse_raw rootQ LinearMap.id pair unitKernel = some raw
        ∧ inverse rootQ LinearMap.id dblEpsilon pair unitKernel pair = some O
        ∧ O.rows = pair.rows ∧ O.cols = pair.cols
        ∧ (∀ r c : Nat, r < pair.rows → c < pair.cols →
            0 ≤ O.data r c ∧ O.data r c ≤ 255) := by
  obtain ⟨hpR, hpC, -, -⟩ := row2_facts pair rfl rfl (by norm_num [pair])
  have hsr : pair.rows ≤ padRows pair (unitKernel : Mat ℚ) := by rw [hpR]; decide
  have hsc : pair.cols ≤ padCols pair (unitKernel : Mat ℚ) := by rw [hpC]; decide
  obtain ⟨-, ⟨raw, O, hraw, -, -, hO, hr, hc, -, hrange, -⟩, -⟩ :=
    convolution_output rootQ LinearMap.id dblEpsilon dblEpsilon_nonneg pair unitKernel pair
      (by decide) (by decide) (by decide) (by decide) hsr hsc
  exact ⟨by decide, by decide, hsr, hsc, raw, O, hraw, hO, hr, hc, hrange⟩

end ConvolutionTheorems

section Instances

/-! ### The real and complex instances of the parameters -/

/-- The mapped coordinate for the real cosine and sine at the angle `π/2`. -/
theorem x_p_real_quarter (x y : Int) (center : Point) :
    x_p Real.cos Real.sin x y (Real.pi / 2) center = ((center.x + center.y - y : Int) : ℝ)
    ∧ y_p Real.cos Real.sin x y (Real.pi / 2) center
        = ((x - center.x + center.y : Int) : ℝ) := by
  have hc : Real.cos (-(Real.pi / 2)) = 0 := by rw [Real.cos_neg, Real.cos_pi_div_two]
  have hs : Real.sin (-(Real.pi / 2)) = -1 := by rw [Real.sin_neg, Real.sin_pi_div_two]
  exact ⟨x_p_quarter Real.cos Real.sin _ hc hs x y center,
    y_p_quarter Real.cos Real.sin _ hc hs x y center⟩

/-- The value `rcos t` is the cosine of the real angle `2 * arctan t`. -/
theorem rcos_eq_cos (t : ℚ) : ((rcos t : ℚ) : ℝ) = Real.cos (2 * Real.arctan t) := by
  have h1 : (0 : ℝ) < 1 + (t : ℝ) ^ 2 := by positivity
  rw [Real.cos_two_mul, Real.cos_sq_arctan]
  simp only [rcos]
  push_cast
  field_simp
  ring

/-- The value `rsin t` is the sine of the real angle `2 * arctan t`. -/
theorem rsin_eq_sin (t : ℚ) : ((rsin t : ℚ) : ℝ) = Real.sin (2 * Real.arctan t) := by
  have h1 : (0 : ℝ) < 1 + (t : ℝ) ^ 2 := by positivity
  have h2 : Real.sqrt (1 + (t : ℝ) ^ 2) * Real.sqrt (1 + (t : ℝ) ^ 2) = 1 + (t : ℝ) ^ 2 :=
    Real.mul_self_sqrt (le_of_lt h1)
  have h3 : Real.sqrt (1 + (t : ℝ) ^ 2) ≠ 0 := by
    intro h; rw [h] at h2; linarith
  rw [Real.sin_two_mul, Real.sin_arctan, Real.cos_arctan]
  simp only [rsin]
  push_cast
  field_simp

/-- The complex exponentials `exp (-2πi / N)` are primitive roots of unity, so the
hypotheses on `ω` hold for the transform over the complex numbers. -/
theorem complex_root (N : Nat) (hN : N ≠ 0) :
    IsPrimitiveRoot (Complex.exp (2 * Real.pi * Complex.I / N))⁻¹ N ∧
    ∀ a : ℝ, Complex.reLm (algebraMap ℝ ℂ a) = a := by
  refine ⟨(Complex.isPrimitiveRoot_exp N hN).inv, fun a => ?_⟩
  simp


/-- The output of `inverse` for the unit kernel with the transform over the complex
numbers, for every size of image. -/
theorem inverse_unitKernel_complex (eps : ℝ) (heps : 0 ≤ eps) (image : Mat ℝ)
    (hir : 0 < image.rows) (hic : 0 < image.cols)
    (hspread : eps <
      listMax (zeroPad image (padRows image (unitKernel : Mat ℝ))
        (padCols image (unitKernel : Mat ℝ))).entries
      - listMin (zeroPad image (padRows image (unitKernel : Mat ℝ))
        (padCols image (unitKernel : Mat ℝ))).entries) :
    ∃ O : Mat Int,
      inverse (fun N : Nat => (Complex.exp (2 * Real.pi * Complex.I / N))⁻¹) Complex.reLm eps
        image unitKernel image = some O
      ∧ O.rows = image.rows ∧ O.cols = image.cols
      ∧ ∀ r c, r < image.rows → c < image.cols →
          O.data r c = cvRound ((image.data r c
              - listMin (zeroPad image (padRows image (unitKernel : Mat ℝ))
                  (padCols image (unitKernel : Mat ℝ))).entries) * 255
            / (listMax (zeroPad image (padRows image (unitKernel : Mat ℝ))
                  (padCols image (unitKernel : Mat ℝ))).entries
              - listMin (zeroPad image (padRows image (unitKernel : Mat ℝ))
                  (padCols image (unitKernel : Mat ℝ))).entries)) := by
  have g1 := padRows_ge image (unitKernel : Mat ℝ) Nat.one_pos
  have g2 := padCols_ge image (unitKernel : Mat ℝ) Nat.one_pos
  have hk1 : (unitKernel : Mat ℝ).rows = 1 := rfl
  have hk2 : (unitKernel : Mat ℝ).cols = 1 := rfl
  have hR0 : padRows image (unitKernel : Mat ℝ) ≠ 0 := by omega
  have hC0 : padCols image (unitKernel : Mat ℝ) ≠ 0 := by omega
  exact inverse_unitKernel _ Complex.reLm (fun a => (complex_root 1 one_ne_zero).2 a) eps heps
    image hir hic (complex_root _ hR0).1 (complex_root _ hC0).1 hspread

/-! ### The machine quarter turn and the real cosine and sine -/

theorem theta_quarter_real : ((theta_quarter : Int) : ℝ) / 2 ^ 149 = 13176795 / 2 ^ 23 := by
  simp only [theta_quarter]
  push_cast
  norm_num

theorem quarter_offset_bounds :
    (437113900018 : ℝ) / 10 ^ 19 < 13176795 / 2 ^ 23 - Real.pi / 2
    ∧ (13176795 : ℝ) / 2 ^ 23 - Real.pi / 2 < 437113900019 / 10 ^ 19 := by
  have h1 := Real.pi_gt_d20
  have h2 := Real.pi_lt_d20
  constructor
  · norm_num at h1 h2 ⊢
    linarith
  · norm_num at h1 h2 ⊢
    linarith

/-- The number `theta_quarter` is the binary32 number nearest to `π / 2`: it differs from it
by less than half the spacing `2^-23` of the binary32 numbers between 1 and 2. -/
theorem theta_quarter_nearest :
    |((theta_quarter : Int) : ℝ) / 2 ^ 149 - Real.pi / 2| < 1 / 2 ^ 24 := by
  rw [theta_quarter_real, abs_lt]
  obtain ⟨h1, h2⟩ := quarter_offset_bounds
  constructor
  · have : (-(1 : ℝ) / 2 ^ 24) < 437113900018 / 10 ^ 19 := by norm_num
    linarith
  · have : (437113900019 : ℝ) / 10 ^ 19 < 1 / 2 ^ 24 := by norm_num
    linarith

/-- The number `cos_quarter` is the binary32 number nearest to the real cosine of
`-theta_quarter`: it differs from it by less than half the spacing `2^-48` of the binary32
numbers between `2^-25` and `2^-24`. -/
theorem cos_quarter_nearest :
    |Real.cos (((fneg theta_quarter : Int) : ℝ) / 2 ^ 149)
        - ((cos_quarter : Int) : ℝ) / 2 ^ 149| < 1 / 2 ^ 49 := by
  have hθ : ((fneg theta_quarter : Int) : ℝ) / 2 ^ 149
      = -((13176795 / 2 ^ 23 - Real.pi / 2) + Real.pi / 2) := by
    have := theta_quarter_real
    simp only [fneg, Int.cast_neg]
    rw [neg_div, this]
    ring
  have hc : ((cos_quarter : Int) : ℝ) / 2 ^ 149 = -(12303662 / 2 ^ 48) := by
    simp only [cos_quarter]
    push_cast
    norm_num
  obtain ⟨h1, h2⟩ := quarter_offset_bounds
  set δ : ℝ := 13176795 / 2 ^ 23 - Real.pi / 2 with hδ
  have hpos : 0 < δ := lt_trans (by norm_num) h1
  have hle : δ ≤ 1 := le_of_lt (lt_trans h2 (by norm_num))
  have hs1 := Real.sin_lt hpos
  have hs2 := Real.sin_gt_sub_cube hpos hle
  have hcube : δ ^ 3 / 4 < 1 / 10 ^ 20 := by
    have hδ7 : δ < 1 / 10 ^ 7 := lt_trans h2 (by norm_num)
    have h3 : δ ^ 3 < (1 / 10 ^ 7) ^ 3 := by
      apply pow_lt_pow_left₀ hδ7 (le_of_lt hpos)
      norm_num
    have : ((1 : ℝ) / 10 ^ 7) ^ 3 / 4 < 1 / 10 ^ 20 := by norm_num
    linarith
  rw [hθ, hc, Real.cos_neg, Real.cos_add_pi_div_two, abs_lt]
  constructor
  · have h3 : (437113900019 : ℝ) / 10 ^ 19 < 12303662 / 2 ^ 48 + 1 / 2 ^ 49 := by norm_num
    have h4 : Real.sin δ < 12303662 / 2 ^ 48 + 1 / 2 ^ 49 := lt_trans hs1 (lt_trans h2 h3)
    linarith
  · have : (12303662 : ℝ) / 2 ^ 48 - 1 / 2 ^ 49 < 437113900018 / 10 ^ 19 - 1 / 10 ^ 20 := by
      norm_num
    linarith

/-- The number `sin_quarter`, that is `-1`, is the binary32 number nearest to the real sine
of `-theta_quarter`: it differs from it by less than half the spacing `2^-24` of the binary32
numbers between `1/2` and 1. -/
theorem sin_quarter_nearest :
    |Real.sin (((fneg theta_quarter : Int) : ℝ) / 2 ^ 149)
        - ((sin_quarter : Int) : ℝ) / 2 ^ 149| < 1 / 2 ^ 25 := by
  have hθ : ((fneg theta_quarter : Int) : ℝ) / 2 ^ 149
      = -((13176795 / 2 ^ 23 - Real.pi / 2) + Real.pi / 2) := by
    have := theta_quarter_real
    simp only [fneg, Int.cast_neg]
    rw [neg_div, this]
    ring
  have hc : ((sin_quarter : Int) : ℝ) / 2 ^ 149 = -1 := by
    simp only [sin_quarter]
    push_cast
    norm_num
  obtain ⟨h1, h2⟩ := quarter_offset_bounds
  set δ : ℝ := 13176795 / 2 ^ 23 - Real.pi / 2 with hδ
  have hpos : 0 < δ := lt_trans (by norm_num) h1
  have hc1 := Real.cos_le_one δ
  have hc2 := Real.one_sub_sq_div_two_le_cos (x := δ)
  have hsq : δ ^ 2 / 2 < 1 / 10 ^ 14 := by
    have hδ7 : δ < 1 / 10 ^ 7 := lt_trans h2 (by norm_num)
    have h3 : δ ^ 2 < (1 / 10 ^ 7) ^ 2 := by
      apply pow_lt_pow_left₀ hδ7 (le_of_lt hpos)
      norm_num
    have : ((1 : ℝ) / 10 ^ 7) ^ 2 / 2 < 1 / 10 ^ 14 := by norm_num
    linarith
  rw [hθ, hc, Real.sin_neg, Real.sin_add_pi_div_two, abs_lt]
  constructor
  · have : (0 : ℝ) < 1 / 2 ^ 25 := by norm_num
    linarith
  · have : (1 : ℝ) / 10 ^ 14 < 1 / 2 ^ 25 := by norm_num
    linarith

end Instances

end Fingerprint
